import Mathlib

/-!
# Reorder buffer with speculative taint tracking (`src/cpu/o3/rob_impl.hh`)

A shallow embedding of `ROB<Impl>` and of the part of the dynamic-instruction
interface it touches, followed by theorems about insertion, retirement,
squashing, the visibility pass and the taint pass.

Modelling conventions.

* A `DynInstPtr` is a handle (a natural number) into `ROB.insts`, the store of
  dynamic-instruction objects; the null pointer is `none`.  Instruction objects
  are reference counted in the source, so an object stays readable for as long
  as some slot still points at it: the store never frees anything.
* `std::list<DynInstPtr>` is a `List Nat` (oldest first).  A list iterator is
  `InstIt`: either the `end()` of a thread's list or the node that holds a
  given instruction.  Every dynamic instruction is dispatched once, so a node
  is identified by the instruction it holds.
* `assert` failures and dereferences of `end()` make an operation return
  `none`.
* Counters are unbounded naturals (their declarations are in `rob.hh`); a
  result the source declares `unsigned` is reduced modulo `2 ^ 32`.
-/

namespace STT

abbrev ThreadID := Nat
abbrev InstSeqNum := Nat

/-- Modelled from the spec: the flag interface of a dynamic instruction
(`BaseDynInst`, declared outside `rob_impl.hh`).  Each getter the ROB calls is a
field; `readyToCommit` is the flag written by `setCanCommit` (spec 4.4: a
squashed instruction has `setCanCommit` and will satisfy `readyToCommit`), and
`getFault` records whether `getFault() != NoFault`. -/
structure DynInst where
  seqNum : InstSeqNum
  threadNumber : ThreadID
  numSrcRegs : Nat
  numDestRegs : Nat
  srcRegIdx : Nat → Nat
  renamedSrcRegIdx : Nat → Nat
  renamedDestRegIdx : Nat → Nat
  isLoad : Bool
  isStore : Bool
  isMemRef : Bool
  isControl : Bool
  isAccess : Bool
  isNonSpeculative : Bool
  isStoreConditional : Bool
  isMemBarrier : Bool
  isWriteBarrier : Bool
  strictlyOrdered : Bool
  readyToCommit : Bool
  isLoadSafeToCommit : Bool
  getFault : Bool
  isInROB : Bool
  isCommitted : Bool
  isSquashed : Bool
  hasPendingSquash : Bool
  isPrevInstsCompleted : Bool
  isPrevBrsResolved : Bool
  isPrevInstsCommitted : Bool
  isPrevBrsCommitted : Bool
  isUnsquashable : Bool
  hasExplicitFlow : Bool
  hasImplicitFlow : Bool
  isAddrTainted : Bool
  isArgsTainted : Bool
  isDestTainted : Bool
  getArgProducer : Nat → Option Nat

/-- The store of instruction objects, addressed by handle. -/
abbrev InstMem := Nat → DynInst

/-- Apply a setter to the object behind handle `p`. -/
def modifyInst (m : InstMem) (p : Nat) (f : DynInst → DynInst) : InstMem :=
  fun q => if q = p then f (m q) else m q

/-- Overwrite entry `k` of a per-thread array. -/
def setAt {α : Type} (f : ThreadID → α) (k : ThreadID) (v : α) : ThreadID → α :=
  fun j => if j = k then v else f j

def DynInst.setArgProducer (d : DynInst) (i : Nat) (p : Nat) : DynInst :=
  { d with getArgProducer := fun k => if k = i then some p else d.getArgProducer k }

def DynInst.clearArgProducer (d : DynInst) (i : Nat) : DynInst :=
  { d with getArgProducer := fun k => if k = i then none else d.getArgProducer k }

def DynInst.setInROB (d : DynInst) : DynInst := { d with isInROB := true }

def DynInst.clearInROB (d : DynInst) : DynInst := { d with isInROB := false }

def DynInst.setCommitted (d : DynInst) : DynInst := { d with isCommitted := true }

def DynInst.setSquashed (d : DynInst) : DynInst := { d with isSquashed := true }

def DynInst.setCanCommit (d : DynInst) : DynInst := { d with readyToCommit := true }

def DynInst.setPendingSquash (d : DynInst) (b : Bool) : DynInst :=
  { d with hasPendingSquash := b }

def DynInst.setPrevInstsCompleted (d : DynInst) : DynInst :=
  { d with isPrevInstsCompleted := true }

def DynInst.setPrevBrsResolved (d : DynInst) : DynInst :=
  { d with isPrevBrsResolved := true }

def DynInst.setPrevInstsCommitted (d : DynInst) : DynInst :=
  { d with isPrevInstsCommitted := true }

def DynInst.setPrevBrsCommitted (d : DynInst) : DynInst :=
  { d with isPrevBrsCommitted := true }

def DynInst.setUnsquashable (d : DynInst) (b : Bool) : DynInst :=
  { d with isUnsquashable := b }

def DynInst.setExplicitFlow (d : DynInst) (b : Bool) : DynInst :=
  { d with hasExplicitFlow := b }

def DynInst.setImplicitFlow (d : DynInst) (b : Bool) : DynInst :=
  { d with hasImplicitFlow := b }

def DynInst.setAddrTainted (d : DynInst) (b : Bool) : DynInst :=
  { d with isAddrTainted := b }

def DynInst.setArgsTainted (d : DynInst) (b : Bool) : DynInst :=
  { d with isArgsTainted := b }

def DynInst.setDestTainted (d : DynInst) (b : Bool) : DynInst :=
  { d with isDestTainted := b }

/-- A `std::list<DynInstPtr>::iterator`: `end()` of thread `tid`, or the node of
thread `tid` holding instruction `inst`. -/
inductive InstIt where
  | endOf (tid : ThreadID)
  | node (tid : ThreadID) (inst : Nat)
  deriving DecidableEq, Repr

inductive ROBPolicy where
  | Dynamic
  | Partitioned
  | Threshold
  deriving DecidableEq, Repr

inductive Status where
  | Running
  | Idle
  | ROBSquashing
  deriving DecidableEq, Repr

/-- The CPU-wide switches the ROB reads through `cpu->`. -/
structure O3CPU where
  STT : Bool
  protectionEnabled : Bool
  isInvisibleSpec : Bool
  isFuturistic : Bool
  impChannel : Bool
  deriving DecidableEq, Repr

/-- The members of `ROB<Impl>` together with the instruction objects its lists
point at. -/
structure ROB where
  numEntries : Nat
  squashWidth : Nat
  numThreads : Nat
  robPolicy : ROBPolicy
  activeThreads : List ThreadID
  maxEntries : ThreadID → Nat
  threadEntries : ThreadID → Nat
  instList : ThreadID → List Nat
  robStatus : ThreadID → Status
  squashIt : ThreadID → InstIt
  squashedSeqNum : ThreadID → InstSeqNum
  doneSquashing : ThreadID → Bool
  numInstsInROB : Nat
  head : InstIt
  tail : InstIt
  robReads : Nat
  robWrites : Nat
  insts : InstMem

/-- The `j` loop of `insertInst`: every destination of `prevInst` that renames
to the physical register of source `i` records `prevInst` in slot `i`. -/
def wireDest (inst prevInst i : Nat) (m : InstMem) : InstMem :=
  (List.range (m prevInst).numDestRegs).foldl
    (fun m j =>
      if (m inst).renamedSrcRegIdx i = (m prevInst).renamedDestRegIdx j then
        modifyInst m inst (fun d => d.setArgProducer i prevInst)
      else m) m

/-- The `i` loop of `insertInst`; architectural register 16 is skipped. -/
def wireSrc (inst prevInst : Nat) (m : InstMem) : InstMem :=
  (List.range (m inst).numSrcRegs).foldl
    (fun m i => if (m inst).srcRegIdx i = 16 then m else wireDest inst prevInst i m) m

/-- The outer loop of `insertInst` over the thread's list, oldest first. -/
def wireArgProducers (inst : Nat) (l : List Nat) (m : InstMem) : InstMem :=
  l.foldl (fun m prevInst => wireSrc inst prevInst m) m

/-- Method `ROB::insertInst`. -/
def insertInst (s : ROB) (inst : Nat) : Option ROB :=
  if s.numInstsInROB = s.numEntries then none
  else
    let tid := (s.insts inst).threadNumber
    let m1 := wireArgProducers inst (s.instList tid) s.insts
    let l := s.instList tid ++ [inst]
    if s.numInstsInROB = 0 ∧ l.head? ≠ some inst then none
    else
      some { s with
        robWrites := s.robWrites + 1
        insts := modifyInst m1 inst DynInst.setInROB
        instList := setAt s.instList tid l
        head := if s.numInstsInROB = 0 then InstIt.node tid inst else s.head
        tail := InstIt.node tid inst
        numInstsInROB := s.numInstsInROB + 1
        threadEntries := setAt s.threadEntries tid (s.threadEntries tid + 1) }

/-- The body of the `while` loop of `updateHead`, as a scan over the remaining
active threads carrying `head`, `lowest_num` and `first_valid`. -/
def updateHeadLoop (s : ROB) : List ThreadID → InstIt → InstSeqNum → Bool → InstIt × Bool
  | [], hd, _, fv => (hd, fv)
  | tid :: rest, hd, lowest, fv =>
    match s.instList tid with
    | [] => updateHeadLoop s rest hd lowest fv
    | x :: _ =>
      if fv then updateHeadLoop s rest (InstIt.node tid x) (s.insts x).seqNum false
      else if (s.insts x).seqNum < lowest then
        updateHeadLoop s rest (InstIt.node tid x) (s.insts x).seqNum fv
      else updateHeadLoop s rest hd lowest fv

/-- Method `ROB::updateHead`. -/
def updateHead (s : ROB) : ROB :=
  let r := updateHeadLoop s s.activeThreads s.head 0 true
  { s with head := if r.2 then InstIt.endOf 0 else r.1 }

/-- The `while` loop of `updateTail`; `tl` carries the instruction under `tail`
once a non-empty thread has been seen. -/
def updateTailLoop (s : ROB) : List ThreadID → InstIt → Option Nat → InstIt
  | [], tl, _ => tl
  | tid :: rest, tl, cur =>
    match (s.instList tid).getLast? with
    | none => updateTailLoop s rest tl cur
    | some x =>
      match cur with
      | none => updateTailLoop s rest (InstIt.node tid x) (some x)
      | some y =>
        if (s.insts x).seqNum > (s.insts y).seqNum then
          updateTailLoop s rest (InstIt.node tid x) (some x)
        else updateTailLoop s rest tl cur

/-- Method `ROB::updateTail`. -/
def updateTail (s : ROB) : ROB :=
  { s with tail := updateTailLoop s s.activeThreads (InstIt.endOf 0) none }

/-- The `i` loop of `retireHead` on one survivor: clear each slot that points
at the retired instruction. -/
def clearProducerRefs (head_inst nextInst : Nat) (m : InstMem) : InstMem :=
  (List.range (m nextInst).numSrcRegs).foldl
    (fun m i =>
      if (m nextInst).getArgProducer i = some head_inst then
        modifyInst m nextInst (fun d => d.clearArgProducer i)
      else m) m

/-- The last loop of `retireHead`: clear the retired instruction's own slots. -/
def clearOwnProducers (head_inst : Nat) (m : InstMem) : InstMem :=
  (List.range (m head_inst).numSrcRegs).foldl
    (fun m i => modifyInst m head_inst (fun d => d.clearArgProducer i)) m

/-- Method `ROB::retireHead`.  After `erase(head_it)` the survivor loop starts at
`std::next(instList[tid].begin())`, the second element of the remaining list
(for an empty remaining list that iterator is `end()` again, the list being
circular).  `cpu->removeFrontInst` acts on the CPU only. -/
def retireHead (s : ROB) (tid : ThreadID) : Option ROB :=
  if s.numInstsInROB = 0 then none
  else
    match s.instList tid with
    | [] => none
    | head_inst :: rest =>
      if (s.insts head_inst).readyToCommit = false then none
      else
        let m1 := modifyInst s.insts head_inst (fun d => d.clearInROB.setCommitted)
        let m2 := (rest.drop 1).foldl (fun m nextInst => clearProducerRefs head_inst nextInst m) m1
        let m3 := clearOwnProducers head_inst m2
        some (updateHead { s with
          robWrites := s.robWrites + 1
          numInstsInROB := s.numInstsInROB - 1
          threadEntries := setAt s.threadEntries tid (s.threadEntries tid - 1)
          instList := setAt s.instList tid rest
          insts := m3 })

/-- Modelled from the spec: `isEmpty(tid)` is declared in `rob.hh`; a thread is
empty when its `current_entries` is zero. -/
def isEmpty (s : ROB) (tid : ThreadID) : Bool := s.threadEntries tid == 0

/-- The element in front of `x` in `l`: the node reached by `--` from the node
holding `x`. -/
def prevNode : List Nat → Nat → Option Nat
  | a :: b :: rest, x => if b = x then some a else prevNode (b :: rest) x
  | _, _ => none

/-- What the three flag writes of `doSquash` do to one instruction. -/
def DynInst.squashFlags (d : DynInst) : DynInst :=
  ((d.setSquashed).setPendingSquash false).setCanCommit

/-- How the `for` loop of `doSquash` ends: by the `return` inside the body, or
by falling through with the current `robTailUpdate`. -/
inductive SquashLoop where
  | returned (s : ROB)
  | fell (s : ROB) (robTailUpdate : Bool)

/-- The `for` loop of `doSquash`; the first argument is `squashWidth -
numSquashed`. -/
def squashLoop (tid : ThreadID) : Nat → ROB → Bool → Option SquashLoop
  | 0, s, u => some (SquashLoop.fell s u)
  | n + 1, s, u =>
    match s.squashIt tid with
    | InstIt.endOf t => if t = tid then some (SquashLoop.fell s u) else none
    | InstIt.node t x =>
      if t ≠ tid then none
      else if (s.insts x).seqNum > s.squashedSeqNum tid then
        let s1 := { s with insts := modifyInst s.insts x DynInst.squashFlags }
        if (s1.instList tid).head? = some x then
          some (SquashLoop.returned { s1 with
            squashIt := setAt s1.squashIt tid (InstIt.endOf tid)
            doneSquashing := setAt s1.doneSquashing tid true })
        else
          match (s1.instList tid).getLast?, prevNode (s1.instList tid) x with
          | some y, some p =>
            squashLoop tid n
              { s1 with squashIt := setAt s1.squashIt tid (InstIt.node tid p) }
              (if x = y then true else u)
          | _, _ => none
      else some (SquashLoop.fell s u)

/-- Method `ROB::doSquash`. -/
def doSquash (s : ROB) (tid : ThreadID) : Option ROB :=
  let s0 := { s with robWrites := s.robWrites + 1 }
  match s0.squashIt tid with
  | InstIt.endOf _ => none
  | InstIt.node t x =>
    if t ≠ tid then none
    else if (s0.insts x).seqNum < s0.squashedSeqNum tid then
      some { s0 with
        squashIt := setAt s0.squashIt tid (InstIt.endOf tid)
        doneSquashing := setAt s0.doneSquashing tid true }
    else
      match squashLoop tid s0.squashWidth s0 false with
      | none => none
      | some (SquashLoop.returned s1) => some s1
      | some (SquashLoop.fell s1 u) =>
        match s1.squashIt tid with
        | InstIt.endOf _ => none
        | InstIt.node _ y =>
          let s2 :=
            if (s1.insts y).seqNum ≤ s1.squashedSeqNum tid then
              { s1 with
                squashIt := setAt s1.squashIt tid (InstIt.endOf tid)
                doneSquashing := setAt s1.doneSquashing tid true }
            else s1
          some (if u then updateTail s2 else s2)

/-- Method `ROB::squash`. -/
def squash (s : ROB) (squash_num : InstSeqNum) (tid : ThreadID) : Option ROB :=
  if isEmpty s tid then some s
  else
    let s1 := { s with
      robStatus := setAt s.robStatus tid Status.ROBSquashing
      doneSquashing := setAt s.doneSquashing tid false
      squashedSeqNum := setAt s.squashedSeqNum tid squash_num }
    match (s1.instList tid).getLast? with
    | none => some s1
    | some x => doSquash { s1 with squashIt := setAt s1.squashIt tid (InstIt.node tid x) } tid

/-- The caller's pump: `doSquash(tid)` once per tick while `doneSquashing[tid]`
is false, for at most `ticks` ticks. -/
def pumpSquash (tid : ThreadID) : Nat → ROB → Option ROB
  | 0, s => some s
  | n + 1, s => if s.doneSquashing tid then some s else (doSquash s tid).bind (pumpSquash tid n)

/-- The four running booleans of `updateVisibleState`. -/
structure Running where
  prevInstsComplete : Bool
  prevBrsResolved : Bool
  prevInstsCommitted : Bool
  prevBrsCommitted : Bool
  deriving DecidableEq, Repr

/-- The flag writes at the top of the loop body of `updateVisibleState`. -/
def setPrevFlags (r : Running) (d : DynInst) : DynInst :=
  let d := if r.prevInstsComplete then d.setPrevInstsCompleted else d
  let d := if r.prevBrsResolved then d.setPrevBrsResolved else d
  let d := if r.prevInstsCommitted then d.setPrevInstsCommitted else d
  if r.prevBrsCommitted then d.setPrevBrsCommitted else d

/-- The update of the running booleans from the instruction just visited. -/
def nextRunning (r : Running) (d : DynInst) : Running :=
  let brsCommitted := if d.isControl then false else r.prevBrsCommitted
  let brsResolved :=
    if d.isControl && (!d.readyToCommit || d.getFault || d.isSquashed) then false
    else r.prevBrsResolved
  let complete :=
    if d.isNonSpeculative || d.isStoreConditional || d.isMemBarrier || d.isWriteBarrier
        || (d.isLoad && d.strictlyOrdered) then false
    else r.prevInstsComplete
  let complete :=
    if !(d.readyToCommit && d.isLoadSafeToCommit) || d.getFault || d.isSquashed then false
    else complete
  { prevInstsComplete := complete
    prevBrsResolved := brsResolved
    prevInstsCommitted := false
    prevBrsCommitted := brsCommitted }

/-- The three-way `if` at the end of the loop body that derives
`isUnsquashable`. -/
def deriveUnsquashable (cpu : O3CPU) (d : DynInst) : DynInst :=
  if cpu.protectionEnabled && !cpu.isInvisibleSpec then
    if (cpu.isFuturistic && d.isPrevInstsCompleted)
        || (!cpu.isFuturistic && d.isPrevBrsResolved) then d.setUnsquashable true
    else d.setUnsquashable false
  else if cpu.protectionEnabled && cpu.isInvisibleSpec then
    if (cpu.isFuturistic && d.isPrevInstsCompleted)
        || (!cpu.isFuturistic && d.isPrevBrsResolved) then d.setUnsquashable true
    else d.setUnsquashable false
  else d.setUnsquashable true

/-- The inner `while` loop of `updateVisibleState` over one thread's list. -/
def visibleLoop (cpu : O3CPU) : List Nat → Running → InstMem → InstMem
  | [], _, m => m
  | inst :: rest, r, m =>
    if !r.prevInstsComplete && !r.prevBrsResolved then m
    else
      let m1 := modifyInst m inst (setPrevFlags r)
      let r1 := nextRunning r (m1 inst)
      let m2 := modifyInst m1 inst (deriveUnsquashable cpu)
      visibleLoop cpu rest r1 m2

/-- The outer `while` loop of `updateVisibleState` over the active threads. -/
def visibleThreads (cpu : O3CPU) (lists : ThreadID → List Nat) :
    List ThreadID → InstMem → InstMem
  | [], m => m
  | tid :: rest, m =>
    visibleThreads cpu lists rest (visibleLoop cpu (lists tid) ⟨true, true, true, true⟩ m)

/-- Method `ROB::updateVisibleState`. -/
def updateVisibleState (cpu : O3CPU) (s : ROB) : ROB :=
  { s with insts := visibleThreads cpu s.instList s.activeThreads s.insts }

/-- The scan shared by `explicit_flow` and `address_flow` over the source
indices in `idxs`: `some true` at the first producer that is dest-tainted and
not committed, `some false` when there is none, `none` when the thread
assertion on a producer fails. -/
def taintedProducer (tid : ThreadID) (inst : Nat) (m : InstMem) : List Nat → Option Bool
  | [] => some false
  | i :: rest =>
    match (m inst).getArgProducer i with
    | none => taintedProducer tid inst m rest
    | some argProducer =>
      if (m argProducer).threadNumber ≠ tid then none
      else if (m argProducer).isDestTainted && !(m argProducer).isCommitted then some true
      else taintedProducer tid inst m rest

/-- Method `ROB::explicit_flow`. -/
def explicit_flow (tid : ThreadID) (inst : Nat) (m : InstMem) : Option InstMem :=
  (taintedProducer tid inst m (List.range (m inst).numSrcRegs)).map
    (fun b => modifyInst m inst (fun d => d.setExplicitFlow b))

/-- Method `ROB::address_flow`; a store skips source 0. -/
def address_flow (tid : ThreadID) (inst : Nat) (m : InstMem) : Option InstMem :=
  if (m inst).isMemRef then
    if (m inst).isStore then
      (taintedProducer tid inst m ((List.range (m inst).numSrcRegs).drop 1)).map
        (fun b => modifyInst m inst (fun d => d.setAddrTainted b))
    else if (m inst).isLoad then
      (taintedProducer tid inst m (List.range (m inst).numSrcRegs)).map
        (fun b => modifyInst m inst (fun d => d.setAddrTainted b))
    else none
  else some (modifyInst m inst (fun d => d.setAddrTainted false))

/-- Method `ROB::implicit_flow`; `older` is the part of the list in front of the
iterator. -/
def implicit_flow (cpu : O3CPU) (older : List Nat) (inst : Nat) (m : InstMem) : InstMem :=
  if cpu.impChannel && older.any (fun prevInst => (m prevInst).isControl && (m prevInst).hasExplicitFlow)
  then modifyInst m inst (fun d => d.setImplicitFlow true)
  else modifyInst m inst (fun d => d.setImplicitFlow false)

/-- The tail of the loop body of `compute_taint`: args and dest taint. -/
def setTaint (d : DynInst) : DynInst :=
  let d := d.setArgsTainted d.hasExplicitFlow
  let d := d.setDestTainted d.isArgsTainted
  if d.isAccess && !d.isUnsquashable then d.setDestTainted true else d

/-- One iteration of the `for` loop of `compute_taint`. -/
def taintInst (cpu : O3CPU) (tid : ThreadID) (older : List Nat) (inst : Nat) (m : InstMem) :
    Option InstMem :=
  (explicit_flow tid inst m).bind fun m1 =>
    (address_flow tid inst (implicit_flow cpu older inst m1)).map fun m3 =>
      modifyInst m3 inst setTaint

/-- The `for` loop of `compute_taint` over one thread's list; `older` holds the
instructions already passed. -/
def taintLoop (cpu : O3CPU) (tid : ThreadID) : List Nat → List Nat → InstMem → Option InstMem
  | _, [], m => some m
  | older, inst :: rest, m =>
    (taintInst cpu tid older inst m).bind (taintLoop cpu tid (older ++ [inst]) rest)

/-- The `while` loop of `compute_taint` over the active threads. -/
def taintThreads (cpu : O3CPU) (lists : ThreadID → List Nat) :
    List ThreadID → InstMem → Option InstMem
  | [], m => some m
  | tid :: rest, m => (taintLoop cpu tid [] (lists tid) m).bind (taintThreads cpu lists rest)

/-- Method `ROB::compute_taint`. -/
def compute_taint (cpu : O3CPU) (s : ROB) : Option ROB :=
  if cpu.STT = false then none
  else (taintThreads cpu s.instList s.activeThreads s.insts).map fun m => { s with insts := m }

/-- Method `ROB::resetState`: the per-thread squash state and counters of threads
`0 .. numThreads - 1`, and both global cursors. -/
def resetState (s : ROB) : ROB :=
  { s with
    doneSquashing := fun tid => if tid < s.numThreads then true else s.doneSquashing tid
    threadEntries := fun tid => if tid < s.numThreads then 0 else s.threadEntries tid
    squashIt := fun tid => if tid < s.numThreads then InstIt.endOf tid else s.squashIt tid
    squashedSeqNum := fun tid => if tid < s.numThreads then 0 else s.squashedSeqNum tid
    numInstsInROB := 0
    head := InstIt.endOf 0
    tail := InstIt.endOf 0 }

/-! ## Concrete instructions and states used by the scenarios -/

/-- An instruction with sequence number `sn` on thread `tid`, no registers and
every flag clear. -/
def plainInst (sn : InstSeqNum) (tid : ThreadID) : DynInst :=
  { seqNum := sn, threadNumber := tid, numSrcRegs := 0, numDestRegs := 0
    srcRegIdx := fun _ => 0, renamedSrcRegIdx := fun _ => 0, renamedDestRegIdx := fun _ => 0
    isLoad := false, isStore := false, isMemRef := false, isControl := false
    isAccess := false, isNonSpeculative := false, isStoreConditional := false
    isMemBarrier := false, isWriteBarrier := false, strictlyOrdered := false
    readyToCommit := false, isLoadSafeToCommit := false, getFault := false
    isInROB := false, isCommitted := false, isSquashed := false
    hasPendingSquash := false, isPrevInstsCompleted := false, isPrevBrsResolved := false
    isPrevInstsCommitted := false, isPrevBrsCommitted := false, isUnsquashable := false
    hasExplicitFlow := false, hasImplicitFlow := false, isAddrTainted := false
    isArgsTainted := false, isDestTainted := false, getArgProducer := fun _ => none }

/-- An instruction writing physical register `p` through destination 0. -/
def writerInst (sn : InstSeqNum) (tid : ThreadID) (p : Nat) : DynInst :=
  { plainInst sn tid with numDestRegs := 1, renamedDestRegIdx := fun _ => p }

/-- An instruction reading physical register `p` through source 0, whose
architectural index is `a`. -/
def readerInst (sn : InstSeqNum) (tid : ThreadID) (a p : Nat) : DynInst :=
  { plainInst sn tid with numSrcRegs := 1, srcRegIdx := fun _ => a, renamedSrcRegIdx := fun _ => p }

/-- An empty single-thread ROB (thread 0 active) over the instruction store
`m`, in the state `resetState` leaves. -/
def emptyROB (cap width : Nat) (m : InstMem) : ROB :=
  { numEntries := cap, squashWidth := width, numThreads := 1
    robPolicy := ROBPolicy.Dynamic, activeThreads := [0]
    maxEntries := fun _ => cap, threadEntries := fun _ => 0
    instList := fun _ => [], robStatus := fun _ => Status.Running
    squashIt := fun tid => InstIt.endOf tid, squashedSeqNum := fun _ => 0
    doneSquashing := fun _ => true, numInstsInROB := 0
    head := InstIt.endOf 0, tail := InstIt.endOf 0
    robReads := 0, robWrites := 0, insts := m }

/-- Scenario S4: `A` (handle 1) and `C` (handle 3) write physical register 100,
`B` (handle 2) and `D` (handle 4) read it; `A` is ready to commit. -/
def s4Mem : InstMem := fun h =>
  match h with
  | 1 => { writerInst 1 0 100 with readyToCommit := true }
  | 2 => readerInst 2 0 3 100
  | 3 => writerInst 3 0 100
  | 4 => readerInst 4 0 3 100
  | _ => plainInst 0 0

/-- Scenario S4 after the four inserts. -/
def s4Inserted : Option ROB :=
  (((insertInst (emptyROB 8 3 s4Mem) 1).bind (fun s => insertInst s 2)).bind
    (fun s => insertInst s 3)).bind (fun s => insertInst s 4)

/-- Scenario S4 after the four inserts and the retirement of `A`. -/
def s4Retired : Option ROB := s4Inserted.bind (fun s => retireHead s 0)

/-- Some destination of `p` renames to the physical register of source `i` of
`inst`. -/
def writesSrc (m : InstMem) (inst i p : Nat) : Prop :=
  ∃ j, j < (m p).numDestRegs ∧ (m p).renamedDestRegIdx j = (m inst).renamedSrcRegIdx i

instance writesSrcDecidable (m : InstMem) (inst i p : Nat) : Decidable (writesSrc m inst i p) := by
  unfold writesSrc
  infer_instance

/-- Forget the producer slots of an instruction object. -/
def DynInst.eraseArgs (d : DynInst) : DynInst := { d with getArgProducer := fun _ => none }

/-- Scenario S4 just before `D` is inserted: `A`, `B`, `C` are in the list of
thread 0 and `B` already points at `A`. -/
def s4BeforeD : ROB :=
  { emptyROB 8 3 (modifyInst s4Mem 2 (fun d => d.setArgProducer 0 1)) with
    instList := fun tid => if tid = 0 then [1, 2, 3] else []
    threadEntries := fun tid => if tid = 0 then 3 else 0
    numInstsInROB := 3
    head := InstIt.node 0 1
    tail := InstIt.node 0 3 }

/-- Scenario S4 once `D` has been inserted into `s4BeforeD`. -/
def s4AfterD : ROB := (insertInst s4BeforeD 4).getD s4BeforeD

/-- The running booleans after the instructions of `older` have been folded
in, oldest first (without the early `break`). -/
def runningAfter (m : InstMem) (older : List Nat) (r : Running) : Running :=
  older.foldl (fun r y => nextRunning r (m y)) r

/-- The state invariants the pointer model relies on, for the active threads:
each list is strictly ascending in `seqNum` (spec P1), every listed instruction
is filed under its own `threadNumber` (as `insertInst` does), and the active
threads form a set. -/
def ListsWellFormed (s : ROB) : Prop :=
  (∀ tid ∈ s.activeThreads,
    ((s.instList tid).map (fun x => (s.insts x).seqNum)).Pairwise (fun a b => a < b)) ∧
  (∀ tid ∈ s.activeThreads, ∀ x ∈ s.instList tid, (s.insts x).threadNumber = tid) ∧
  s.activeThreads.Nodup

instance listsWellFormedDecidable (s : ROB) : Decidable (ListsWellFormed s) := by
  unfold ListsWellFormed
  infer_instance

/-- Scenario S5: thread 0 holds `1` (an add, ready), `2` (a branch, not
ready) and `3` (an add, ready); every visibility flag starts clear. -/
def s5Mem : InstMem := fun h =>
  match h with
  | 1 => { plainInst 1 0 with readyToCommit := true, isLoadSafeToCommit := true }
  | 2 => { plainInst 2 0 with isControl := true, isLoadSafeToCommit := true }
  | 3 => { plainInst 3 0 with readyToCommit := true, isLoadSafeToCommit := true }
  | _ => plainInst 0 0

/-- Scenario S5 as a ROB state. -/
def s5ROB : ROB :=
  { emptyROB 8 3 s5Mem with
    instList := fun tid => if tid = 0 then [1, 2, 3] else []
    threadEntries := fun tid => if tid = 0 then 3 else 0
    numInstsInROB := 3
    head := InstIt.node 0 1
    tail := InstIt.node 0 3 }

/-- The unsafe baseline: no protection. -/
def unsafeCPU : O3CPU :=
  { STT := false, protectionEnabled := false, isInvisibleSpec := false
    isFuturistic := false, impChannel := false }

/-- STT protection in the spectre (non-futuristic) model. -/
def sttCPU : O3CPU :=
  { STT := true, protectionEnabled := true, isInvisibleSpec := false
    isFuturistic := false, impChannel := false }

/-- The verdict of `address_flow` before it is written: `none` when an
assertion fails. -/
def addressScan (tid : ThreadID) (inst : Nat) (m : InstMem) : Option Bool :=
  if (m inst).isMemRef then
    if (m inst).isStore then
      taintedProducer tid inst m ((List.range (m inst).numSrcRegs).drop 1)
    else if (m inst).isLoad then
      taintedProducer tid inst m (List.range (m inst).numSrcRegs)
    else none
  else some false

/-- The four writes one iteration of `compute_taint` makes to the instruction
it visits, given the three verdicts. -/
def taintWrites (b c a : Bool) (d : DynInst) : DynInst :=
  setTaint (((d.setExplicitFlow b).setImplicitFlow c).setAddrTainted a)

/-- The relation `compute_taint` establishes on each instruction it visits. -/
def DynInst.taintConsistent (d : DynInst) : Prop :=
  d.isArgsTainted = d.hasExplicitFlow ∧
  d.isDestTainted = (d.isArgsTainted || (d.isAccess && !d.isUnsquashable))

/-- Two stores that agree on everything but the `hasImplicitFlow` flags. -/
def sameButImplicit (m m2 : InstMem) : Prop :=
  ∀ q, (m2 q).setImplicitFlow false = (m q).setImplicitFlow false

/-- Scenario S6: `1` is an access that is not unsquashable and writes physical
register 100; `2` reads it and names `1` as the producer of source 0. -/
def s6Mem : InstMem := fun h =>
  match h with
  | 1 => { writerInst 1 0 100 with isAccess := true }
  | 2 => (readerInst 2 0 3 100).setArgProducer 0 1
  | _ => plainInst 0 0

/-- Scenario S6 as a ROB state. -/
def s6ROB : ROB :=
  { emptyROB 8 3 s6Mem with
    instList := fun tid => if tid = 0 then [1, 2] else []
    threadEntries := fun tid => if tid = 0 then 2 else 0
    numInstsInROB := 2
    head := InstIt.node 0 1
    tail := InstIt.node 0 2 }

/-- Scenario S6 after one taint pass. -/
def s6Tainted : ROB := (compute_taint sttCPU s6ROB).getD s6ROB

/-- Scenario S6 after the access has become unsquashable and a second taint
pass has run. -/
def s6Cleared : Option ROB :=
  compute_taint sttCPU
    { s6Tainted with insts := modifyInst s6Tainted.insts 1 (fun d => d.setUnsquashable true) }

/-- Forget the five taint flags of an instruction object. -/
def DynInst.eraseTaint (d : DynInst) : DynInst :=
  { d with hasExplicitFlow := false, hasImplicitFlow := false, isAddrTainted := false
           isArgsTainted := false, isDestTainted := false }

/-- All five taint flags are false. -/
def DynInst.taintFree (d : DynInst) : Prop :=
  d.hasExplicitFlow = false ∧ d.hasImplicitFlow = false ∧ d.isAddrTainted = false ∧
  d.isArgsTainted = false ∧ d.isDestTainted = false

/-- Scenario S4 after the four inserts, with stale taint flags left on `B`
(handle 2) and `C` (handle 3). -/
def s4Stale : ROB :=
  { s4AfterD with
    insts := fun h =>
      if h = 2 ∨ h = 3 then
        { s4AfterD.insts h with hasExplicitFlow := true, hasImplicitFlow := true
                                isAddrTainted := true, isArgsTainted := true
                                isDestTainted := true }
      else s4AfterD.insts h }

/-- Scenario S4 with stale flags, after one taint pass. -/
def s4Swept : ROB := (compute_taint sttCPU s4Stale).getD s4Stale

/-- The store after the instructions of `B` have received the squash flags. -/
def squashedMem (m0 : InstMem) (B : List Nat) : InstMem :=
  fun q => if q ∈ B then (m0 q).squashFlags else m0 q

/-- The state of a squash of thread `tid` down to `S` that started from `s0`
and is under way: the cursor is on `h`, the instructions `B` behind it are
flagged (all are younger than `S`), the rest of the store and the list are as
in `s0`. -/
def SquashInv (s0 : ROB) (tid : ThreadID) (S : InstSeqNum) (st : ROB)
    (A : List Nat) (h : Nat) (B : List Nat) : Prop :=
  st.instList = s0.instList ∧ st.squashWidth = s0.squashWidth ∧
  st.squashedSeqNum tid = S ∧ st.squashIt tid = InstIt.node tid h ∧
  s0.instList tid = A ++ h :: B ∧ st.insts = squashedMem s0.insts B ∧
  ∀ q ∈ B, S < (s0.insts q).seqNum

/-- The state of a finished squash: `doneSquashing` is set and exactly the
instructions younger than `S`, a tail `B` of the list, carry the squash
flags. -/
def SquashDone (s0 : ROB) (tid : ThreadID) (S : InstSeqNum) (st : ROB) : Prop :=
  st.doneSquashing tid = true ∧
  ∃ A B, s0.instList tid = A ++ B ∧ (∀ q ∈ A, (s0.insts q).seqNum ≤ S) ∧
    (∀ q ∈ B, S < (s0.insts q).seqNum) ∧ st.insts = squashedMem s0.insts B

/-- Scenario S3: thread 0 holds eight plain instructions, handle and sequence
number `1 .. 8`; every flag starts clear and the squash width is 3. -/
def s3ROB : ROB :=
  { emptyROB 8 3 (fun h => plainInst h 0) with
    instList := fun tid => if tid = 0 then [1, 2, 3, 4, 5, 6, 7, 8] else []
    threadEntries := fun tid => if tid = 0 then 8 else 0
    numInstsInROB := 8
    head := InstIt.node 0 1
    tail := InstIt.node 0 8 }

/-- The squashed flags of the eight instructions of scenario S3, and
`doneSquashing[0]`. -/
def s3View (s : ROB) : List Bool × Bool :=
  ((s.instList 0).map (fun x => (s.insts x).isSquashed), s.doneSquashing 0)

/-- An empty ROB over a store in which handle 7 is an instruction of thread 0
that is ready to commit and has no producers. -/
def roundTripROB : ROB :=
  emptyROB 8 3 (fun h => if h = 7 then { plainInst 10 0 with readyToCommit := true }
    else plainInst 0 0)

/-- The components of the ROB state that the round trip is about, read at
thread 0. -/
structure ROBView where
  instList : List Nat
  threadEntries : Nat
  numInstsInROB : Nat
  squashIt : InstIt
  squashedSeqNum : InstSeqNum
  doneSquashing : Bool
  head : InstIt
  tail : InstIt
  deriving DecidableEq, Repr

/-- The view of a ROB whose only thread is thread 0. -/
def robView (s : ROB) : ROBView :=
  { instList := s.instList 0, threadEntries := s.threadEntries 0
    numInstsInROB := s.numInstsInROB, squashIt := s.squashIt 0
    squashedSeqNum := s.squashedSeqNum 0, doneSquashing := s.doneSquashing 0
    head := s.head, tail := s.tail }

/-- A variant of scenario S4 in which the reader is not next to the writer:
`A` (handle 1, ready) writes physical register 100, handle 2 is a plain
instruction, `B` (handle 3) reads the register. -/
def s4ApartMem : InstMem := fun h =>
  match h with
  | 1 => { writerInst 1 0 100 with readyToCommit := true }
  | 2 => plainInst 2 0
  | 3 => readerInst 3 0 3 100
  | _ => plainInst 0 0

/-- The variant after the three inserts. -/
def s4ApartInserted : Option ROB :=
  ((insertInst (emptyROB 8 3 s4ApartMem) 1).bind (fun s => insertInst s 2)).bind
    (fun s => insertInst s 3)

/-- The constructor `ROB<Impl>::ROB`.  `policy` is what the lower-cased
`smtROBPolicy` string compares equal to (`none` for any other string, where the
constructor asserts); the lists start empty, and the active-thread list and
the instruction store are handed in. -/
def newROB (numROBEntries squashWidth numThreads : Nat) (policy : Option ROBPolicy)
    (smtROBThreshold : Nat) (activeThreads : List ThreadID) (m : InstMem) : Option ROB :=
  match policy with
  | none => none
  | some pol =>
    let amount :=
      match pol with
      | ROBPolicy.Dynamic => numROBEntries
      | ROBPolicy.Partitioned => numROBEntries / numThreads
      | ROBPolicy.Threshold => smtROBThreshold
    some (resetState
      { numEntries := numROBEntries, squashWidth := squashWidth, numThreads := numThreads
        robPolicy := pol, activeThreads := activeThreads
        maxEntries := fun tid => if tid < numThreads then amount else 0
        threadEntries := fun _ => 0, instList := fun _ => []
        robStatus := fun _ => Status.Running, squashIt := fun tid => InstIt.endOf tid
        squashedSeqNum := fun _ => 0, doneSquashing := fun _ => true
        numInstsInROB := 0, head := InstIt.endOf 0, tail := InstIt.endOf 0
        robReads := 0, robWrites := 0, insts := m })

/-- The `while` loop of `resetEntries` over the active threads;
`active_threads` is the size of the active list. -/
def resetEntriesLoop (s : ROB) (active_threads : Nat) :
    List ThreadID → (ThreadID → Nat) → (ThreadID → Nat)
  | [], maxE => maxE
  | tid :: rest, maxE =>
    if s.robPolicy = ROBPolicy.Partitioned then
      resetEntriesLoop s active_threads rest (setAt maxE tid (s.numEntries / active_threads))
    else if s.robPolicy = ROBPolicy.Threshold ∧ active_threads = 1 then
      resetEntriesLoop s active_threads rest (setAt maxE tid s.numEntries)
    else resetEntriesLoop s active_threads rest maxE

/-- Method `ROB::resetEntries`. -/
def resetEntries (s : ROB) : ROB :=
  if s.robPolicy ≠ ROBPolicy.Dynamic ∨ s.numThreads > 1 then
    { s with
      maxEntries := resetEntriesLoop s s.activeThreads.length s.activeThreads s.maxEntries }
  else s

/-- The CPU changing its list of active threads, which the ROB reads through
the pointer it was given. -/
def setActive (s : ROB) (ts : List ThreadID) : ROB := { s with activeThreads := ts }

/-- Method `ROB::numFreeEntries()`; the result is an `unsigned`. -/
def numFreeEntries (s : ROB) : Nat :=
  Int.toNat (((s.numEntries : Int) - (s.numInstsInROB : Int)) % 4294967296)

/-- Method `ROB::numFreeEntries(ThreadID)`; the result is an `unsigned`. -/
def numFreeEntriesOf (s : ROB) (tid : ThreadID) : Nat :=
  Int.toNat (((s.maxEntries tid : Int) - (s.threadEntries tid : Int)) % 4294967296)

/-- Threshold scenario: capacity 8, threshold 3, two hardware threads; the
CPU runs both threads, then thread 0 alone, then both again, calling
`resetEntries` after each change. -/
def thresholdBackToTwo : Option ROB :=
  (newROB 8 3 2 (some ROBPolicy.Threshold) 3 [0, 1] (fun h => plainInst h 0)).map
    (fun s => resetEntries (setActive (resetEntries (setActive (resetEntries s) [0])) [0, 1]))

/-- Insert the instructions `insts` one after the other. -/
def insertAll : List Nat → ROB → Option ROB
  | [], s => some s
  | inst :: rest, s => (insertInst s inst).bind (insertAll rest)

/-- Partitioned scenario, thread 0 alone: capacity 8, two hardware threads,
only thread 0 active; `resetEntries` gives it the whole ROB and six
instructions of thread 0 are inserted. -/
def partitionedSolo : Option ROB :=
  (newROB 8 3 2 (some ROBPolicy.Partitioned) 0 [0] (fun h => plainInst h 0)).bind
    (fun s => insertAll [1, 2, 3, 4, 5, 6] (resetEntries s))

/-- The state of `partitionedSolo` at the moment thread 1 becomes active too,
before `resetEntries` is called. -/
def partitionedOverfull : ROB :=
  setActive (partitionedSolo.getD (emptyROB 8 3 (fun h => plainInst h 0))) [0, 1]

/-- Scenario S2: Partitioned policy, capacity 8, threads 0 and 1 active, after
`resetEntries`. -/
def s2ROB : ROB :=
  resetEntries
    ((newROB 8 3 2 (some ROBPolicy.Partitioned) 0 [0, 1] (fun h => plainInst h 0)).getD
      (emptyROB 8 3 (fun h => plainInst h 0)))

/-- The state a run of the `for` loop of `doSquash` ends in. -/
def SquashLoop.state : SquashLoop → ROB
  | SquashLoop.returned s => s
  | SquashLoop.fell s _ => s

/-- What a squash step on thread `tid` leaves alone: the lists, both entry
counters, the configuration, `head`, the read counter and the squash state of
the other threads; each instruction object is as it was or has received the
three squash flags. -/
def SquashFrame (tid : ThreadID) (s s' : ROB) : Prop :=
  s'.instList = s.instList ∧ s'.threadEntries = s.threadEntries ∧
  s'.numInstsInROB = s.numInstsInROB ∧ s'.numEntries = s.numEntries ∧
  s'.squashWidth = s.squashWidth ∧ s'.numThreads = s.numThreads ∧
  s'.robPolicy = s.robPolicy ∧ s'.activeThreads = s.activeThreads ∧
  s'.maxEntries = s.maxEntries ∧ s'.head = s.head ∧ s'.robReads = s.robReads ∧
  (∀ t, t ≠ tid → s'.squashIt t = s.squashIt t ∧ s'.doneSquashing t = s.doneSquashing t ∧
    s'.robStatus t = s.robStatus t ∧ s'.squashedSeqNum t = s.squashedSeqNum t) ∧
  (∀ q, s'.insts q = s.insts q ∨ s'.insts q = (s.insts q).squashFlags)

/-- Scenario S3 after `squash(4, 0)`. -/
def s3Squashed : ROB := (squash s3ROB 4 0).getD s3ROB

/-- The accounting invariant over the hardware threads `0 .. numThreads - 1`:
`threadEntries` counts each list, `numInstsInROB` is the sum of the per-thread
counts, and it does not exceed the capacity. -/
def Accounting (s : ROB) : Prop :=
  (∀ t, t < s.numThreads → s.threadEntries t = (s.instList t).length) ∧
  s.numInstsInROB = ((List.range s.numThreads).map s.threadEntries).sum ∧
  s.numInstsInROB ≤ s.numEntries

instance accountingDecidable (s : ROB) : Decidable (Accounting s) := by
  unfold Accounting
  infer_instance

/-- Two-thread scenario: a Dynamic ROB of capacity 8 with threads 0 and 1
active; instruction 1 (sequence number 1) goes to thread 0, then instruction 2
(sequence number 2, ready to commit) goes to thread 1. -/
def twoThreadInserted : Option ROB :=
  (newROB 8 3 2 (some ROBPolicy.Dynamic) 0 [0, 1]
    (fun h => if h = 2 then { plainInst 2 1 with readyToCommit := true } else plainInst h 0)).bind
    (fun s => insertAll [1, 2] s)

/-- The lists of threads 0 and 1 and the two global cursors. -/
structure CursorView where
  list0 : List Nat
  list1 : List Nat
  head : InstIt
  tail : InstIt
  deriving DecidableEq, Repr

/-- The cursor view of a ROB. -/
def cursorView (s : ROB) : CursorView :=
  { list0 := s.instList 0, list1 := s.instList 1, head := s.head, tail := s.tail }

/-- Method `ROB::getResolvedPendingSquashInst`.  The method writes nothing; the
state is returned next to the handle so that this can be stated. -/
def getResolvedPendingSquashInst (s : ROB) (tid : ThreadID) : ROB × Option Nat :=
  (s, (s.instList tid).find? (fun inst =>
    (s.insts inst).hasPendingSquash && !(s.insts inst).isArgsTainted
      && !(s.insts inst).isSquashed))

/-- Mixed taint scenario on thread 0: `1` is an access that is not
unsquashable and writes physical register 100; `2` is a store whose data
operand (source 0) is produced by `1` and whose address operand (source 1)
has no producer; `3` is a load whose source 0 is produced by `1`; `4` is a
branch whose source 0 is produced by `1`; `5` is a plain instruction. -/
def taintMixMem : InstMem := fun h =>
  match h with
  | 1 => { writerInst 1 0 100 with isAccess := true }
  | 2 => { (readerInst 2 0 3 100).setArgProducer 0 1 with
            numSrcRegs := 2, isMemRef := true, isStore := true }
  | 3 => { (readerInst 3 0 3 100).setArgProducer 0 1 with isMemRef := true, isLoad := true }
  | 4 => { (readerInst 4 0 3 100).setArgProducer 0 1 with isControl := true }
  | 5 => plainInst 5 0
  | _ => plainInst 0 0

/-- The mixed taint scenario as a ROB state. -/
def taintMixROB : ROB :=
  { emptyROB 8 3 taintMixMem with
    instList := fun tid => if tid = 0 then [1, 2, 3, 4, 5] else []
    threadEntries := fun tid => if tid = 0 then 5 else 0
    numInstsInROB := 5
    head := InstIt.node 0 1
    tail := InstIt.node 0 5 }

/-- STT protection with the implicit channel switched on. -/
def sttImplicitCPU : O3CPU :=
  { STT := true, protectionEnabled := true, isInvisibleSpec := false
    isFuturistic := false, impChannel := true }

/-- The mixed taint scenario after one taint pass with the implicit channel
on. -/
def taintMixDone : ROB := (compute_taint sttImplicitCPU taintMixROB).getD taintMixROB

/-- A run of the CPU changing its active threads to each member of `seq` in
turn and calling `resetEntries` after every change. -/
def resetSeq (seq : List (List ThreadID)) (s : ROB) : ROB :=
  seq.foldl (fun s act => resetEntries (setActive s act)) s

/-- Threshold scenario before any `resetEntries`: capacity 8, threshold 3, two
hardware threads. -/
def thresholdROB : ROB :=
  (newROB 8 3 2 (some ROBPolicy.Threshold) 3 [0, 1] (fun h => plainInst h 0)).getD
    (emptyROB 8 3 (fun h => plainInst h 0))

/-- The number of instructions of `l` younger than the squash target `S`. -/
def youngerCount (m : InstMem) (S : InstSeqNum) (l : List Nat) : Nat :=
  (l.filter (fun x => decide (S < (m x).seqNum))).length

/-- The call `doSquash(tid)` made `n` times in a row, whatever
`doneSquashing[tid]` says. -/
def doSquashTimes (tid : ThreadID) : Nat → ROB → Option ROB
  | 0, s => some s
  | n + 1, s => (doSquash s tid).bind (doSquashTimes tid n)

/-- The number of `doSquash` invocations the pump needs for `k` instructions
younger than the target at width `w`: `max(1, ceil(k / w))`. -/
def squashCalls (k w : Nat) : Nat := max 1 ((k + w - 1) / w)

/-- The squash cursor of thread `tid` addresses an element of the list. -/
def cursorOnList (s : ROB) (tid : ThreadID) : Prop :=
  ∃ h, h ∈ s.instList tid ∧ s.squashIt tid = InstIt.node tid h

/-- The mixed taint scenario with a pending squash on the load `3` and on the
plain instruction `5`, and a stale address taint left on `5`. -/
def pendingMixROB : ROB :=
  { taintMixROB with
    insts := modifyInst
      (modifyInst taintMixROB.insts 3 (fun d => d.setPendingSquash true)) 5
      (fun d => (d.setPendingSquash true).setAddrTainted true) }

/-- The pending-squash scenario after one taint pass. -/
def pendingMixDone : ROB := (compute_taint sttCPU pendingMixROB).getD pendingMixROB

/-- Scenario S4 with `A` (handle 1) an access that is not unsquashable. -/
def s4AccessMem : InstMem := modifyInst s4Mem 1 (fun d => { d with isAccess := true })

/-- The access variant of scenario S4 after the four inserts and one taint
pass: `A` is dest-tainted and `B` (handle 2), which reads from `A`, has
explicit flow. -/
def s4AccessTainted : ROB :=
  ((((((insertInst (emptyROB 8 3 s4AccessMem) 1).bind (fun s => insertInst s 2)).bind
    (fun s => insertInst s 3)).bind (fun s => insertInst s 4)).bind
      (compute_taint sttCPU))).getD (emptyROB 8 3 s4AccessMem)

/-- The access variant of scenario S4 after `A` has retired: `B` is the new
front and still names `A` in slot 0. -/
def s4AccessRetired : ROB := (retireHead s4AccessTainted 0).getD s4AccessTainted

/-- The access variant of scenario S4 after the retirement and a second taint
pass. -/
def s4AccessSwept : ROB := (compute_taint sttCPU s4AccessRetired).getD s4AccessRetired

/-- Instruction `p` is the producer named by one of the source slots of `x`. -/
def producerOf (m : InstMem) (x p : Nat) : Prop :=
  ∃ i, i < (m x).numSrcRegs ∧ (m x).getArgProducer i = some p

/-- A source of taint: an access that is not unsquashable. -/
def taintSource (m : InstMem) (p : Nat) : Prop :=
  (m p).isAccess = true ∧ (m p).isUnsquashable = false

/-- Chain scenario on thread 0: `1` is an access that is not unsquashable and
writes physical register 100; `2` reads it from `1` and writes 101; `3` reads
101 from `2`; `4` is a plain instruction carrying stale taint flags. -/
def chainMem : InstMem := fun h =>
  match h with
  | 1 => { writerInst 1 0 100 with isAccess := true }
  | 2 => { (readerInst 2 0 3 100).setArgProducer 0 1 with
            numDestRegs := 1, renamedDestRegIdx := fun _ => 101 }
  | 3 => (readerInst 3 0 3 101).setArgProducer 0 2
  | 4 => { plainInst 4 0 with isArgsTainted := true, isDestTainted := true
                              hasExplicitFlow := true }
  | _ => plainInst 0 0

/-- The chain scenario as a ROB state. -/
def chainROB : ROB :=
  { emptyROB 8 3 chainMem with
    instList := fun tid => if tid = 0 then [1, 2, 3, 4] else []
    threadEntries := fun tid => if tid = 0 then 4 else 0
    numInstsInROB := 4
    head := InstIt.node 0 1
    tail := InstIt.node 0 4 }

/-- The chain scenario after one taint pass. -/
def chainDone : ROB := (compute_taint sttCPU chainROB).getD chainROB

/-! ## Theorems -/

section Basics

theorem modifyInst_same (m : InstMem) (p : Nat) (f : DynInst → DynInst) :
    modifyInst m p f p = f (m p) := by
  simp [modifyInst]

theorem modifyInst_other (m : InstMem) (p q : Nat) (f : DynInst → DynInst) (h : q ≠ p) :
    modifyInst m p f q = m q := by
  simp [modifyInst, h]

theorem setAt_same {α : Type} (f : ThreadID → α) (k : ThreadID) (v : α) :
    setAt f k v k = v := by
  simp [setAt]

theorem setAt_other {α : Type} (f : ThreadID → α) (k j : ThreadID) (v : α) (h : j ≠ k) :
    setAt f k v j = f j := by
  simp [setAt, h]

end Basics

section Insert

/-- Folding "remember the last element satisfying `W`" over a list: the result
is the youngest element satisfying `W`, or the initial value when there is
none. -/
theorem lastSat_spec (W : Nat → Prop) [DecidablePred W] (l : List Nat) (init : Option Nat) :
    (∀ p, (∃ a b, l = a ++ p :: b ∧ W p ∧ ∀ q ∈ b, ¬ W q) →
        l.foldl (fun acc q => if W q then some q else acc) init = some p) ∧
    ((∀ q ∈ l, ¬ W q) → l.foldl (fun acc q => if W q then some q else acc) init = init) := by
  induction l using List.reverseRecOn with
  | nil =>
    refine ⟨?_, fun _ => rfl⟩
    rintro p ⟨a, b, h, -⟩
    simp at h
  | append_singleton l x ih =>
    refine ⟨?_, ?_⟩
    · rintro p ⟨a, b, h, hp, hb⟩
      rw [List.foldl_append]
      simp only [List.foldl_cons, List.foldl_nil]
      rcases List.eq_nil_or_concat b with rfl | ⟨b', y, rfl⟩
      · have h' : l ++ [x] = a ++ [p] := by simpa using h
        have := List.append_inj' h' rfl
        obtain ⟨-, hx⟩ := this
        have hx' : x = p := by simpa using hx
        subst hx'
        simp [hp]
      · have h' : l ++ [x] = (a ++ p :: b') ++ [y] := by simpa using h
        obtain ⟨hl, hx⟩ := List.append_inj' h' rfl
        have hx' : x = y := by simpa using hx
        subst hx'
        have hWx : ¬ W x := hb x (by simp)
        simp only [hWx, if_false]
        exact ih.1 p ⟨a, b', hl, hp, fun q hq => hb q (by simp [hq])⟩
    · intro h
      rw [List.foldl_append]
      simp only [List.foldl_cons, List.foldl_nil]
      have hWx : ¬ W x := h x (by simp)
      simp only [hWx, if_false]
      exact ih.2 (fun q hq => h q (by simp [hq]))

/-- Every list either has no element satisfying `W` or splits at its youngest
such element. -/
theorem exists_last_sat (W : Nat → Prop) [DecidablePred W] (l : List Nat) :
    (∀ q ∈ l, ¬ W q) ∨ ∃ p a b, l = a ++ p :: b ∧ W p ∧ ∀ q ∈ b, ¬ W q := by
  induction l using List.reverseRecOn with
  | nil => left; simp
  | append_singleton l x ih =>
    by_cases hx : W x
    · right
      exact ⟨x, l, [], by simp, hx, by simp⟩
    · rcases ih with h | ⟨p, a, b, hl, hp, hb⟩
      · left
        intro q hq
        rcases List.mem_append.1 hq with h1 | h1
        · exact h q h1
        · have : q = x := by simpa using h1
          subst this; exact hx
      · right
        refine ⟨p, a, b ++ [x], by simp [hl], hp, ?_⟩
        intro q hq
        rcases List.mem_append.1 hq with h1 | h1
        · exact hb q h1
        · have : q = x := by simpa using h1
          subst this; exact hx

end Insert

section Wiring

theorem eraseArgs_setArgProducer (d : DynInst) (i p : Nat) :
    (d.setArgProducer i p).eraseArgs = d.eraseArgs := rfl

theorem eraseArgs_modify_set (m : InstMem) (inst i p q : Nat) :
    (modifyInst m inst (fun d => d.setArgProducer i p) q).eraseArgs = (m q).eraseArgs := by
  by_cases h : q = inst
  · subst h; simp [modifyInst_same, eraseArgs_setArgProducer]
  · simp [modifyInst_other _ _ _ _ h]

/-- The `j` loop over an arbitrary list of destination indices. -/
theorem wireDest_fold (inst prevInst i : Nat) (js : List Nat) (m : InstMem) :
    let m' := js.foldl
      (fun m j =>
        if (m inst).renamedSrcRegIdx i = (m prevInst).renamedDestRegIdx j then
          modifyInst m inst (fun d => d.setArgProducer i prevInst)
        else m) m
    (∀ q, (m' q).eraseArgs = (m q).eraseArgs) ∧
    (∀ q k, (q ≠ inst ∨ k ≠ i) → (m' q).getArgProducer k = (m q).getArgProducer k) ∧
    ((∃ j ∈ js, (m prevInst).renamedDestRegIdx j = (m inst).renamedSrcRegIdx i) →
      (m' inst).getArgProducer i = some prevInst) ∧
    ((∀ j ∈ js, (m prevInst).renamedDestRegIdx j ≠ (m inst).renamedSrcRegIdx i) →
      (m' inst).getArgProducer i = (m inst).getArgProducer i) := by
  induction js generalizing m with
  | nil => simp
  | cons j js ih =>
    simp only [List.foldl_cons]
    by_cases hc : (m inst).renamedSrcRegIdx i = (m prevInst).renamedDestRegIdx j
    · rw [if_pos hc]
      obtain ⟨h1, h2, h3, h4⟩ := ih (modifyInst m inst (fun d => d.setArgProducer i prevInst))
      have e : ∀ q, (modifyInst m inst (fun d => d.setArgProducer i prevInst) q).eraseArgs
          = (m q).eraseArgs := eraseArgs_modify_set m inst i prevInst
      have eS : (modifyInst m inst (fun d => d.setArgProducer i prevInst) inst).renamedSrcRegIdx i
          = (m inst).renamedSrcRegIdx i := congrArg (fun d => d.renamedSrcRegIdx i) (e inst)
      have eD : ∀ j', (modifyInst m inst (fun d => d.setArgProducer i prevInst)
          prevInst).renamedDestRegIdx j' = (m prevInst).renamedDestRegIdx j' :=
        fun j' => congrArg (fun d => d.renamedDestRegIdx j') (e prevInst)
      have slot : (modifyInst m inst (fun d => d.setArgProducer i prevInst) inst).getArgProducer i
          = some prevInst := by simp [modifyInst_same, DynInst.setArgProducer]
      refine ⟨fun q => (h1 q).trans (e q), ?_, ?_, ?_⟩
      · intro q k hqk
        rw [h2 q k hqk]
        by_cases hq : q = inst
        · subst hq
          have hk : k ≠ i := by
            rcases hqk with h | h
            · exact absurd rfl h
            · exact h
          simp [modifyInst_same, DynInst.setArgProducer, hk]
        · simp [modifyInst_other _ _ _ _ hq]
      · intro _
        by_cases hex : ∃ j' ∈ js, (m prevInst).renamedDestRegIdx j' = (m inst).renamedSrcRegIdx i
        · apply h3
          obtain ⟨j', hj', hj'e⟩ := hex
          exact ⟨j', hj', by rw [eD, eS]; exact hj'e⟩
        · rw [h4, slot]
          intro j' hj'
          rw [eD, eS]
          exact fun hcontra => hex ⟨j', hj', hcontra⟩
      · intro hall
        exact absurd hc.symm (hall j (by simp))
    · rw [if_neg hc]
      obtain ⟨h1, h2, h3, h4⟩ := ih m
      refine ⟨h1, h2, ?_, ?_⟩
      · rintro ⟨j', hj', hj'e⟩
        rcases List.mem_cons.1 hj' with rfl | hj''
        · exact absurd hj'e.symm hc
        · exact h3 ⟨j', hj'', hj'e⟩
      · intro hall
        exact h4 (fun j' hj' => hall j' (by simp [hj']))

/-- What `wireDest` does: apart from slot `i` of `inst` nothing changes, and
that slot becomes `prevInst` exactly when `prevInst` writes the register. -/
theorem wireDest_spec (inst prevInst i : Nat) (m : InstMem) :
    (∀ q, (wireDest inst prevInst i m q).eraseArgs = (m q).eraseArgs) ∧
    (∀ q k, (q ≠ inst ∨ k ≠ i) →
      (wireDest inst prevInst i m q).getArgProducer k = (m q).getArgProducer k) ∧
    (writesSrc m inst i prevInst → (wireDest inst prevInst i m inst).getArgProducer i = some prevInst) ∧
    (¬ writesSrc m inst i prevInst →
      (wireDest inst prevInst i m inst).getArgProducer i = (m inst).getArgProducer i) := by
  obtain ⟨h1, h2, h3, h4⟩ := wireDest_fold inst prevInst i (List.range (m prevInst).numDestRegs) m
  refine ⟨h1, h2, ?_, ?_⟩
  · rintro ⟨j, hj, hje⟩
    exact h3 ⟨j, List.mem_range.2 hj, hje⟩
  · intro hn
    apply h4
    intro j hj hje
    exact hn ⟨j, List.mem_range.1 hj, hje⟩

end Wiring

section WiringLoops

theorem writesSrc_congr (m m' : InstMem) (h : ∀ q, (m' q).eraseArgs = (m q).eraseArgs)
    (inst i p : Nat) : writesSrc m' inst i p ↔ writesSrc m inst i p := by
  have e1 : (m' p).numDestRegs = (m p).numDestRegs := congrArg (fun d => d.numDestRegs) (h p)
  have e2 : ∀ j, (m' p).renamedDestRegIdx j = (m p).renamedDestRegIdx j :=
    fun j => congrArg (fun d => d.renamedDestRegIdx j) (h p)
  have e3 : (m' inst).renamedSrcRegIdx i = (m inst).renamedSrcRegIdx i :=
    congrArg (fun d => d.renamedSrcRegIdx i) (h inst)
  unfold writesSrc
  simp only [e1, e2, e3]

/-- The `i` loop over an arbitrary list of source indices. -/
theorem wireSrc_fold (inst prevInst : Nat) (is : List Nat) (m : InstMem) :
    let m' := is.foldl
      (fun m i => if (m inst).srcRegIdx i = 16 then m else wireDest inst prevInst i m) m
    (∀ q, (m' q).eraseArgs = (m q).eraseArgs) ∧
    (∀ q k, q ≠ inst → (m' q).getArgProducer k = (m q).getArgProducer k) ∧
    (∀ k, k ∈ is → (m inst).srcRegIdx k ≠ 16 → writesSrc m inst k prevInst →
      (m' inst).getArgProducer k = some prevInst) ∧
    (∀ k, (k ∉ is ∨ (m inst).srcRegIdx k = 16 ∨ ¬ writesSrc m inst k prevInst) →
      (m' inst).getArgProducer k = (m inst).getArgProducer k) := by
  induction is generalizing m with
  | nil => simp
  | cons i is ih =>
    simp only [List.foldl_cons]
    by_cases hc : (m inst).srcRegIdx i = 16
    · rw [if_pos hc]
      obtain ⟨h1, h2, h3, h4⟩ := ih m
      refine ⟨h1, h2, ?_, ?_⟩
      · intro k hk h16 hw
        rcases List.mem_cons.1 hk with rfl | hk'
        · exact absurd hc h16
        · exact h3 k hk' h16 hw
      · intro k hk
        apply h4
        rcases hk with hk | hk | hk
        · left; exact fun hmem => hk (List.mem_cons_of_mem _ hmem)
        · right; left; exact hk
        · right; right; exact hk
    · rw [if_neg hc]
      obtain ⟨d1, d2, d3, d4⟩ := wireDest_spec inst prevInst i m
      obtain ⟨h1, h2, h3, h4⟩ := ih (wireDest inst prevInst i m)
      have e16 : ∀ k, (wireDest inst prevInst i m inst).srcRegIdx k = (m inst).srcRegIdx k :=
        fun k => congrArg (fun d => d.srcRegIdx k) (d1 inst)
      have eW : ∀ k, writesSrc (wireDest inst prevInst i m) inst k prevInst ↔
          writesSrc m inst k prevInst := fun k => writesSrc_congr m _ d1 inst k prevInst
      refine ⟨fun q => (h1 q).trans (d1 q), ?_, ?_, ?_⟩
      · intro q k hq
        rw [h2 q k hq, d2 q k (Or.inl hq)]
      · intro k hk h16 hw
        by_cases hmem : k ∈ is
        · exact h3 k hmem (by rw [e16]; exact h16) ((eW k).2 hw)
        · have hki : k = i := by
            rcases List.mem_cons.1 hk with h | h
            · exact h
            · exact absurd h hmem
          subst hki
          rw [h4 k (Or.inl hmem)]
          exact d3 hw
      · intro k hk
        have hstay : (wireDest inst prevInst i m inst).getArgProducer k
            = (m inst).getArgProducer k := by
          by_cases hki : k = i
          · subst hki
            rcases hk with hk | hk | hk
            · exact absurd (List.mem_cons_self _ _) hk
            · exact absurd hk hc
            · exact d4 hk
          · exact d2 inst k (Or.inr hki)
        rw [← hstay]
        apply h4
        rcases hk with hk | hk | hk
        · left; exact fun hmem => hk (List.mem_cons_of_mem _ hmem)
        · right; left; rw [e16]; exact hk
        · right; right; exact fun hw => hk ((eW k).1 hw)

/-- What `wireSrc` does for one older instruction. -/
theorem wireSrc_spec (inst prevInst : Nat) (m : InstMem) :
    (∀ q, (wireSrc inst prevInst m q).eraseArgs = (m q).eraseArgs) ∧
    (∀ q k, q ≠ inst → (wireSrc inst prevInst m q).getArgProducer k = (m q).getArgProducer k) ∧
    (∀ k, (wireSrc inst prevInst m inst).getArgProducer k =
      if k < (m inst).numSrcRegs ∧ (m inst).srcRegIdx k ≠ 16 ∧ writesSrc m inst k prevInst
      then some prevInst else (m inst).getArgProducer k) := by
  obtain ⟨h1, h2, h3, h4⟩ := wireSrc_fold inst prevInst (List.range (m inst).numSrcRegs) m
  refine ⟨h1, h2, ?_⟩
  intro k
  by_cases hc : k < (m inst).numSrcRegs ∧ (m inst).srcRegIdx k ≠ 16 ∧ writesSrc m inst k prevInst
  · rw [if_pos hc]
    exact h3 k (List.mem_range.2 hc.1) hc.2.1 hc.2.2
  · rw [if_neg hc]
    apply h4
    by_cases hk : k < (m inst).numSrcRegs
    · by_cases h16 : (m inst).srcRegIdx k = 16
      · right; left; exact h16
      · right; right; exact fun hw => hc ⟨hk, h16, hw⟩
    · left; exact fun hmem => hk (List.mem_range.1 hmem)

/-- What the whole wiring loop does: every source slot that takes part ends as
the fold "remember the last writer" over the list. -/
theorem wireArgProducers_spec (inst : Nat) (l : List Nat) (m : InstMem) :
    (∀ q, (wireArgProducers inst l m q).eraseArgs = (m q).eraseArgs) ∧
    (∀ q k, q ≠ inst → (wireArgProducers inst l m q).getArgProducer k = (m q).getArgProducer k) ∧
    (∀ k, (wireArgProducers inst l m inst).getArgProducer k =
      if k < (m inst).numSrcRegs ∧ (m inst).srcRegIdx k ≠ 16 then
        l.foldl (fun acc p => if writesSrc m inst k p then some p else acc)
          ((m inst).getArgProducer k)
      else (m inst).getArgProducer k) := by
  unfold wireArgProducers
  induction l generalizing m with
  | nil => simp
  | cons p l ih =>
    simp only [List.foldl_cons]
    obtain ⟨s1, s2, s3⟩ := wireSrc_spec inst p m
    obtain ⟨h1, h2, h3⟩ := ih (wireSrc inst p m)
    have eN : (wireSrc inst p m inst).numSrcRegs = (m inst).numSrcRegs :=
      congrArg (fun d => d.numSrcRegs) (s1 inst)
    have e16 : ∀ k, (wireSrc inst p m inst).srcRegIdx k = (m inst).srcRegIdx k :=
      fun k => congrArg (fun d => d.srcRegIdx k) (s1 inst)
    have eW : ∀ k q, writesSrc (wireSrc inst p m) inst k q ↔ writesSrc m inst k q :=
      fun k q => writesSrc_congr m _ s1 inst k q
    refine ⟨fun q => (h1 q).trans (s1 q), ?_, ?_⟩
    · intro q k hq
      rw [h2 q k hq, s2 q k hq]
    · intro k
      rw [h3 k, eN, e16, s3 k]
      by_cases hc : k < (m inst).numSrcRegs ∧ (m inst).srcRegIdx k ≠ 16
      · rw [if_pos hc, if_pos hc]
        have : (fun acc q => if writesSrc (wireSrc inst p m) inst k q then some q else acc)
            = (fun acc q => if writesSrc m inst k q then some q else acc) := by
          funext acc q
          simp only [eW k q]
        rw [this]
        congr 1
        by_cases hw : writesSrc m inst k p
        · rw [if_pos ⟨hc.1, hc.2, hw⟩, if_pos hw]
        · rw [if_neg (fun h => hw h.2.2), if_neg hw]
      · rw [if_neg hc, if_neg hc, if_neg (fun h => hc ⟨h.1, h.2.1⟩)]

end WiringLoops

section InsertRetire

/-- A successful `insertInst` had room, and its result is the field-by-field
update of the source. -/
theorem insertInst_result (s s' : ROB) (inst : Nat) (hins : insertInst s inst = some s') :
    s.numInstsInROB ≠ s.numEntries ∧
    s' = { s with
      robWrites := s.robWrites + 1
      insts := modifyInst
        (wireArgProducers inst (s.instList (s.insts inst).threadNumber) s.insts) inst
        DynInst.setInROB
      instList := setAt s.instList (s.insts inst).threadNumber
        (s.instList (s.insts inst).threadNumber ++ [inst])
      head := if s.numInstsInROB = 0 then InstIt.node (s.insts inst).threadNumber inst
        else s.head
      tail := InstIt.node (s.insts inst).threadNumber inst
      numInstsInROB := s.numInstsInROB + 1
      threadEntries := setAt s.threadEntries (s.insts inst).threadNumber
        (s.threadEntries (s.insts inst).threadNumber + 1) } := by
  unfold insertInst at hins
  by_cases h1 : s.numInstsInROB = s.numEntries
  · rw [if_pos h1] at hins
    exact absurd hins (by simp)
  · rw [if_neg h1] at hins
    by_cases h2 : s.numInstsInROB = 0 ∧
        (s.instList (s.insts inst).threadNumber ++ [inst]).head? ≠ some inst
    · simp only [h2, and_self, ne_eq, not_false_eq_true, if_true] at hins
      exact absurd hins (by simp)
    · simp only [h2, if_false] at hins
      exact ⟨h1, (Option.some.inj hins).symm⟩

/-- C3: after `insertInst` of an instruction whose producer slots were all
empty, a source `i` whose architectural index is 16 keeps an empty slot;
any other source slot holds `p` exactly when `p` is the youngest instruction
of the thread's list (as it was before the insert) with a destination that
renames to the source's physical register, and is empty exactly when the
list has no such instruction. -/
theorem insertInst_arg_producer_is_youngest_writer (s s' : ROB) (inst i : Nat)
    (hins : insertInst s inst = some s')
    (hempty : ∀ k, (s.insts inst).getArgProducer k = none)
    (hi : i < (s.insts inst).numSrcRegs) :
    ((s.insts inst).srcRegIdx i = 16 → (s'.insts inst).getArgProducer i = none) ∧
    ((s.insts inst).srcRegIdx i ≠ 16 →
      (∀ p, (s'.insts inst).getArgProducer i = some p ↔
        ∃ a b, s.instList (s.insts inst).threadNumber = a ++ p :: b ∧
          writesSrc s.insts inst i p ∧ ∀ q ∈ b, ¬ writesSrc s.insts inst i q) ∧
      ((s'.insts inst).getArgProducer i = none ↔
        ∀ q ∈ s.instList (s.insts inst).threadNumber, ¬ writesSrc s.insts inst i q)) := by
  have hs' := (insertInst_result s s' inst hins).2
  obtain ⟨-, -, w3⟩ := wireArgProducers_spec inst
    (s.instList (s.insts inst).threadNumber) s.insts
  have hslot : (s'.insts inst).getArgProducer i =
      (wireArgProducers inst (s.instList (s.insts inst).threadNumber) s.insts
        inst).getArgProducer i := by
    rw [hs']
    simp [modifyInst_same, DynInst.setInROB]
  rw [hslot, w3 i, hempty i]
  obtain ⟨l1, l2⟩ := lastSat_spec (writesSrc s.insts inst i)
    (s.instList (s.insts inst).threadNumber) none
  refine ⟨fun h16 => by rw [if_neg (fun h => h.2 h16)], fun h16 => ?_⟩
  rw [if_pos ⟨hi, h16⟩]
  rcases exists_last_sat (writesSrc s.insts inst i)
    (s.instList (s.insts inst).threadNumber) with hnone | ⟨p0, a0, b0, hl0, hp0, hb0⟩
  · rw [l2 hnone]
    refine ⟨fun p => ⟨fun h => absurd h (by simp), ?_⟩, ⟨fun _ => hnone, fun _ => rfl⟩⟩
    rintro ⟨a, b, hl, hp, -⟩
    exact absurd hp (hnone p (by rw [hl]; simp))
  · rw [l1 p0 ⟨a0, b0, hl0, hp0, hb0⟩]
    refine ⟨fun p => ⟨?_, ?_⟩, ⟨fun h => absurd h (by simp), ?_⟩⟩
    · intro h
      have hp : p0 = p := Option.some.inj h
      subst hp
      exact ⟨a0, b0, hl0, hp0, hb0⟩
    · intro hex
      have := l1 p hex
      rw [l1 p0 ⟨a0, b0, hl0, hp0, hb0⟩] at this
      exact this
    · intro hall
      exact absurd hp0 (hall p0 (by rw [hl0]; simp))

/-- Scenario S4, inserting `D` after `A`, `B`, `C`: `D` reads the register
`A` and `C` write, and its slot ends at `C`, the youngest writer. -/
theorem insertInst_arg_producer_is_youngest_writer_witness :
    insertInst s4BeforeD 4 = some s4AfterD ∧
    (∀ k, (s4BeforeD.insts 4).getArgProducer k = none) ∧
    0 < (s4BeforeD.insts 4).numSrcRegs ∧
    (s4AfterD.insts 4).getArgProducer 0 = some 3 ∧
    (s4BeforeD.insts 2).getArgProducer 0 = some 1 :=
  ⟨rfl, fun _ => rfl, by decide,
    ((insertInst_arg_producer_is_youngest_writer s4BeforeD s4AfterD 4 0 rfl (fun _ => rfl)
      (by decide)).2 (by decide)).1 3 |>.2
      ⟨[1, 2], [], rfl, ⟨0, by decide, rfl⟩, by simp⟩,
    by decide⟩

/-- C1 (failing input): scenario S4, list `A, B, C, D` with `B -> A` and
`D -> C`.  `retireHead` succeeds and leaves `B, C, D`; the survivor loop starts
behind the new front, so `B` still names the retired `A` in slot 0.  When a
plain instruction stands between `A` and its reader, the reader is behind the
new front and its slot is cleared. -/
theorem retireHead_new_front_keeps_retired_producer :
    s4Inserted.map (fun s => (s.instList 0, (s.insts 2).getArgProducer 0,
      (s.insts 4).getArgProducer 0)) = some ([1, 2, 3, 4], some 1, some 3) ∧
    s4Retired.map (fun s => (s.instList 0, (s.insts 2).getArgProducer 0,
      (s.insts 4).getArgProducer 0, (s.insts 1).isCommitted))
      = some ([2, 3, 4], some 1, some 3, true) ∧
    s4ApartInserted.map (fun s => (s.instList 0, (s.insts 3).getArgProducer 0))
      = some ([1, 2, 3], some 1) ∧
    (s4ApartInserted.bind (fun s => retireHead s 0)).map
      (fun s => (s.instList 0, (s.insts 3).getArgProducer 0)) = some ([2, 3], none) := by
  decide

end InsertRetire

section Visibility

theorem nextRunning_setPrevFlags (r r0 : Running) (d : DynInst) :
    nextRunning r (setPrevFlags r0 d) = nextRunning r d := by
  rcases r0 with ⟨a, b, c, e⟩
  cases a <;> cases b <;> cases c <;> cases e <;> rfl

/-- The loop `visibleLoop` leaves every instruction outside the list alone. -/
theorem visibleLoop_frame (cpu : O3CPU) (l : List Nat) (r : Running) (m : InstMem) (q : Nat)
    (hq : q ∉ l) : visibleLoop cpu l r m q = m q := by
  induction l generalizing r m with
  | nil => rfl
  | cons x l ih =>
    unfold visibleLoop
    have hqx : q ≠ x := fun h => hq (by simp [h])
    have hql : q ∉ l := fun h => hq (by simp [h])
    by_cases hb : (!r.prevInstsComplete && !r.prevBrsResolved) = true
    · rw [if_pos hb]
    · rw [if_neg hb]
      rw [ih _ _ hql, modifyInst_other _ _ _ _ hqx, modifyInst_other _ _ _ _ hqx]

theorem runningAfter_cons (m : InstMem) (y : Nat) (older : List Nat) (r : Running) :
    runningAfter m (y :: older) r = runningAfter m older (nextRunning r (m y)) := rfl

theorem runningAfter_congr (m m' : InstMem) (older : List Nat) (r : Running)
    (h : ∀ y ∈ older, m' y = m y) : runningAfter m' older r = runningAfter m older r := by
  induction older generalizing r with
  | nil => rfl
  | cons y older ih =>
    rw [runningAfter_cons, runningAfter_cons, h y (by simp)]
    exact ih _ (fun z hz => h z (by simp [hz]))

/-- Once both `prevInstsComplete` and `prevBrsResolved` are false they stay
false. -/
theorem runningAfter_stuck (m : InstMem) (older : List Nat) (r : Running)
    (h1 : r.prevInstsComplete = false) (h2 : r.prevBrsResolved = false) :
    (runningAfter m older r).prevInstsComplete = false ∧
    (runningAfter m older r).prevBrsResolved = false := by
  induction older generalizing r with
  | nil => exact ⟨h1, h2⟩
  | cons y older ih =>
    rw [runningAfter_cons]
    apply ih
    · simp [nextRunning, h1]
    · simp [nextRunning, h2]

/-- The object of a listed instruction after one thread's traversal: it was
visited exactly when one of the two running booleans is still true in front of
it, and a visited instruction gets the flag writes and the derivation of
`isUnsquashable`. -/
theorem visibleLoop_at (cpu : O3CPU) (older : List Nat) (x : Nat) (younger : List Nat)
    (r : Running) (m : InstMem) (hnd : (older ++ x :: younger).Nodup) :
    visibleLoop cpu (older ++ x :: younger) r m x =
      if ((runningAfter m older r).prevInstsComplete
          || (runningAfter m older r).prevBrsResolved) = true
      then deriveUnsquashable cpu (setPrevFlags (runningAfter m older r) (m x))
      else m x := by
  induction older generalizing r m with
  | nil =>
    have hx : x ∉ younger := (List.nodup_cons.1 hnd).1
    simp only [List.nil_append, runningAfter, List.foldl_nil]
    unfold visibleLoop
    by_cases hb : (!r.prevInstsComplete && !r.prevBrsResolved) = true
    · rw [if_pos hb]
      have : (r.prevInstsComplete || r.prevBrsResolved) = false := by
        revert hb; cases r.prevInstsComplete <;> cases r.prevBrsResolved <;> simp
      rw [this]; rfl
    · rw [if_neg hb]
      have : (r.prevInstsComplete || r.prevBrsResolved) = true := by
        revert hb; cases r.prevInstsComplete <;> cases r.prevBrsResolved <;> simp
      rw [this, if_pos rfl]
      rw [visibleLoop_frame _ _ _ _ _ hx, modifyInst_same, modifyInst_same]
  | cons y older ih =>
    have hnd' : (older ++ x :: younger).Nodup := (List.nodup_cons.1 hnd).2
    have hy : y ∉ older ++ x :: younger := (List.nodup_cons.1 hnd).1
    have hxy : x ≠ y := fun h => hy (by simp [h])
    have hyo : ∀ z ∈ older, z ≠ y := fun z hz h => hy (by simp [← h, hz])
    rw [List.cons_append, runningAfter_cons]
    unfold visibleLoop
    by_cases hb : (!r.prevInstsComplete && !r.prevBrsResolved) = true
    · rw [if_pos hb]
      have h1 : r.prevInstsComplete = false := by
        revert hb; cases r.prevInstsComplete <;> simp
      have h2 : r.prevBrsResolved = false := by
        revert hb; cases r.prevBrsResolved <;> simp
      obtain ⟨e1, e2⟩ := runningAfter_stuck m older (nextRunning r (m y))
        (by simp [nextRunning, h1]) (by simp [nextRunning, h2])
      rw [e1, e2]; rfl
    · rw [if_neg hb]
      rw [ih _ _ hnd', modifyInst_same, nextRunning_setPrevFlags]
      have hm : ∀ z ∈ older, modifyInst (modifyInst m y (setPrevFlags r)) y
          (deriveUnsquashable cpu) z = m z := by
        intro z hz
        rw [modifyInst_other _ _ _ _ (hyo z hz), modifyInst_other _ _ _ _ (hyo z hz)]
      rw [runningAfter_congr m _ older _ hm, modifyInst_other _ _ _ _ hxy,
        modifyInst_other _ _ _ _ hxy]

/-- The loop `visibleThreads` leaves alone every instruction that is in none of the
lists it walks. -/
theorem visibleThreads_frame (cpu : O3CPU) (lists : ThreadID → List Nat) (ts : List ThreadID)
    (m : InstMem) (q : Nat) (hq : ∀ t ∈ ts, q ∉ lists t) :
    visibleThreads cpu lists ts m q = m q := by
  induction ts generalizing m with
  | nil => rfl
  | cons t ts ih =>
    unfold visibleThreads
    rw [ih _ (fun t' ht' => hq t' (by simp [ht'])), visibleLoop_frame _ _ _ _ _ (hq t (by simp))]

/-- The object of an instruction listed under an active thread after the
whole pass, when the lists of the active threads are duplicate-free and
pairwise disjoint. -/
theorem visibleThreads_at (cpu : O3CPU) (lists : ThreadID → List Nat) (ts : List ThreadID)
    (m : InstMem) (t : ThreadID) (older : List Nat) (x : Nat) (younger : List Nat)
    (hts : ts.Nodup) (ht : t ∈ ts) (hsplit : lists t = older ++ x :: younger)
    (hnd : (lists t).Nodup)
    (hdisj : ∀ t' ∈ ts, t' ≠ t → ∀ z ∈ lists t, z ∉ lists t') :
    visibleThreads cpu lists ts m x =
      if ((runningAfter m older ⟨true, true, true, true⟩).prevInstsComplete
          || (runningAfter m older ⟨true, true, true, true⟩).prevBrsResolved) = true
      then deriveUnsquashable cpu
        (setPrevFlags (runningAfter m older ⟨true, true, true, true⟩) (m x))
      else m x := by
  induction ts generalizing m with
  | nil => exact absurd ht (by simp)
  | cons t' ts ih =>
    have hts' : ts.Nodup := (List.nodup_cons.1 hts).2
    have ht'ts : t' ∉ ts := (List.nodup_cons.1 hts).1
    have hxmem : x ∈ lists t := by rw [hsplit]; simp
    unfold visibleThreads
    by_cases htt : t' = t
    · subst htt
      have hfr : ∀ t'' ∈ ts, x ∉ lists t'' := by
        intro t'' ht'' hx
        have hne : t'' ≠ t' := fun h => ht'ts (h ▸ ht'')
        exact hdisj t'' (by simp [ht'']) hne x hxmem hx
      rw [visibleThreads_frame _ _ _ _ _ hfr, hsplit]
      rw [hsplit] at hnd
      exact visibleLoop_at cpu older x younger _ m hnd
    · have htin : t ∈ ts := by
        rcases List.mem_cons.1 ht with h | h
        · exact absurd h.symm htt
        · exact h
      rw [ih _ hts' htin (fun t'' ht'' hne => hdisj t'' (by simp [ht'']) hne)]
      have hsame : ∀ z ∈ lists t, visibleLoop cpu (lists t') ⟨true, true, true, true⟩ m z = m z :=
        fun z hz => visibleLoop_frame _ _ _ _ _ (hdisj t' (by simp) htt z hz)
      have holder : ∀ z ∈ older, visibleLoop cpu (lists t') ⟨true, true, true, true⟩ m z = m z :=
        fun z hz => hsame z (by rw [hsplit]; simp [hz])
      rw [runningAfter_congr m _ older _ holder, hsame x hxmem]

end Visibility

section VisibilityFlags

theorem nextRunning_brs (r : Running) (d : DynInst) :
    (nextRunning r d).prevBrsResolved = true ↔
      r.prevBrsResolved = true ∧
      (d.isControl = true →
        d.readyToCommit = true ∧ d.getFault = false ∧ d.isSquashed = false) := by
  unfold nextRunning
  cases d.isControl <;> cases d.readyToCommit <;> cases d.getFault <;> cases d.isSquashed <;>
    simp

theorem nextRunning_complete (r : Running) (d : DynInst) :
    (nextRunning r d).prevInstsComplete = true ↔
      r.prevInstsComplete = true ∧
      (d.readyToCommit = true ∧ d.isLoadSafeToCommit = true ∧ d.getFault = false ∧
        d.isSquashed = false) ∧
      (d.isNonSpeculative = false ∧ d.isStoreConditional = false ∧ d.isMemBarrier = false ∧
        d.isWriteBarrier = false ∧ ¬ (d.isLoad = true ∧ d.strictlyOrdered = true)) := by
  unfold nextRunning
  cases d.readyToCommit <;> cases d.isLoadSafeToCommit <;> cases d.getFault <;>
    cases d.isSquashed <;> cases d.isNonSpeculative <;> cases d.isStoreConditional <;>
    cases d.isMemBarrier <;> cases d.isWriteBarrier <;> cases d.isLoad <;>
    cases d.strictlyOrdered <;> simp

/-- The boolean `prevBrsResolved` survives a stretch of the list exactly when every control
instruction in it is resolved. -/
theorem runningAfter_brs (m : InstMem) (older : List Nat) (r : Running) :
    (runningAfter m older r).prevBrsResolved = true ↔
      r.prevBrsResolved = true ∧
      ∀ J ∈ older, (m J).isControl = true →
        (m J).readyToCommit = true ∧ (m J).getFault = false ∧ (m J).isSquashed = false := by
  induction older generalizing r with
  | nil => simp [runningAfter]
  | cons y older ih =>
    rw [runningAfter_cons, ih, nextRunning_brs]
    constructor
    · rintro ⟨⟨h1, h2⟩, h3⟩
      refine ⟨h1, ?_⟩
      intro J hJ
      rcases List.mem_cons.1 hJ with rfl | hJ'
      · exact h2
      · exact h3 J hJ'
    · rintro ⟨h1, h2⟩
      exact ⟨⟨h1, h2 y (by simp)⟩, fun J hJ => h2 J (by simp [hJ])⟩

/-- The boolean `prevInstsComplete` survives a stretch of the list exactly when every
instruction in it is complete and none is of a serialising kind. -/
theorem runningAfter_complete (m : InstMem) (older : List Nat) (r : Running) :
    (runningAfter m older r).prevInstsComplete = true ↔
      r.prevInstsComplete = true ∧
      ∀ J ∈ older,
        ((m J).readyToCommit = true ∧ (m J).isLoadSafeToCommit = true ∧
          (m J).getFault = false ∧ (m J).isSquashed = false) ∧
        ((m J).isNonSpeculative = false ∧ (m J).isStoreConditional = false ∧
          (m J).isMemBarrier = false ∧ (m J).isWriteBarrier = false ∧
          ¬ ((m J).isLoad = true ∧ (m J).strictlyOrdered = true)) := by
  induction older generalizing r with
  | nil => simp [runningAfter]
  | cons y older ih =>
    rw [runningAfter_cons, ih, nextRunning_complete]
    constructor
    · rintro ⟨⟨h1, h2⟩, h3⟩
      refine ⟨h1, ?_⟩
      intro J hJ
      rcases List.mem_cons.1 hJ with rfl | hJ'
      · exact h2
      · exact h3 J hJ'
    · rintro ⟨h1, h2⟩
      exact ⟨⟨h1, h2 y (by simp)⟩, fun J hJ => h2 J (by simp [hJ])⟩

theorem nodup_of_seq_ascending (m : InstMem) (l : List Nat)
    (h : (l.map (fun x => (m x).seqNum)).Pairwise (fun a b => a < b)) : l.Nodup := by
  rw [List.pairwise_map] at h
  exact h.imp (fun hlt heq => by subst heq; exact absurd hlt (lt_irrefl _))

/-- The object of an instruction listed under an active thread after
`updateVisibleState`, in a well-formed state. -/
theorem updateVisibleState_at (cpu : O3CPU) (s : ROB) (tid : ThreadID) (older : List Nat)
    (x : Nat) (younger : List Nat) (hwf : ListsWellFormed s) (hact : tid ∈ s.activeThreads)
    (hsplit : s.instList tid = older ++ x :: younger) :
    (updateVisibleState cpu s).insts x =
      if ((runningAfter s.insts older ⟨true, true, true, true⟩).prevInstsComplete
          || (runningAfter s.insts older ⟨true, true, true, true⟩).prevBrsResolved) = true
      then deriveUnsquashable cpu
        (setPrevFlags (runningAfter s.insts older ⟨true, true, true, true⟩) (s.insts x))
      else s.insts x := by
  obtain ⟨hasc, hthr, hnd⟩ := hwf
  refine visibleThreads_at cpu s.instList s.activeThreads s.insts tid older x younger hnd hact
    hsplit (nodup_of_seq_ascending s.insts _ (hasc tid hact)) ?_
  intro t' ht' hne z hz hz'
  exact hne ((hthr t' ht' z hz').symm.trans (hthr tid hact z hz))

end VisibilityFlags

section VisibilityClaims

theorem deriveUnsquashable_prev (cpu : O3CPU) (d : DynInst) :
    (deriveUnsquashable cpu d).isPrevBrsResolved = d.isPrevBrsResolved ∧
    (deriveUnsquashable cpu d).isPrevInstsCompleted = d.isPrevInstsCompleted := by
  unfold deriveUnsquashable
  split_ifs <;> exact ⟨rfl, rfl⟩

theorem deriveUnsquashable_value (cpu : O3CPU) (d : DynInst) :
    (deriveUnsquashable cpu d).isUnsquashable =
      if cpu.protectionEnabled = true then
        (if cpu.isFuturistic = true then d.isPrevInstsCompleted else d.isPrevBrsResolved)
      else true := by
  unfold deriveUnsquashable
  cases cpu.protectionEnabled <;> cases cpu.isInvisibleSpec <;> cases cpu.isFuturistic <;>
    cases d.isPrevInstsCompleted <;> cases d.isPrevBrsResolved <;> rfl

theorem setPrevFlags_value (r : Running) (d : DynInst) :
    (setPrevFlags r d).isPrevBrsResolved = (r.prevBrsResolved || d.isPrevBrsResolved) ∧
    (setPrevFlags r d).isPrevInstsCompleted = (r.prevInstsComplete || d.isPrevInstsCompleted) := by
  rcases r with ⟨a, b, c, e⟩
  cases a <;> cases b <;> cases c <;> cases e <;> exact ⟨rfl, rfl⟩

/-- After the pass the `prevBrsResolved` flag of a listed instruction is its
old value or-ed with the running boolean in front of it. -/
theorem updateVisibleState_brs_flag (cpu : O3CPU) (s : ROB) (tid : ThreadID)
    (older : List Nat) (x : Nat) (younger : List Nat) (hwf : ListsWellFormed s)
    (hact : tid ∈ s.activeThreads) (hsplit : s.instList tid = older ++ x :: younger) :
    ((updateVisibleState cpu s).insts x).isPrevBrsResolved =
      ((runningAfter s.insts older ⟨true, true, true, true⟩).prevBrsResolved
        || (s.insts x).isPrevBrsResolved) := by
  rw [updateVisibleState_at cpu s tid older x younger hwf hact hsplit]
  split_ifs with h
  · rw [(deriveUnsquashable_prev _ _).1, (setPrevFlags_value _ _).1]
  · have : (runningAfter s.insts older ⟨true, true, true, true⟩).prevBrsResolved = false := by
      revert h
      cases (runningAfter s.insts older ⟨true, true, true, true⟩).prevBrsResolved <;> simp
    rw [this]; rfl

/-- After the pass the `prevInstsCompleted` flag of a listed instruction is
its old value or-ed with the running boolean in front of it. -/
theorem updateVisibleState_complete_flag (cpu : O3CPU) (s : ROB) (tid : ThreadID)
    (older : List Nat) (x : Nat) (younger : List Nat) (hwf : ListsWellFormed s)
    (hact : tid ∈ s.activeThreads) (hsplit : s.instList tid = older ++ x :: younger) :
    ((updateVisibleState cpu s).insts x).isPrevInstsCompleted =
      ((runningAfter s.insts older ⟨true, true, true, true⟩).prevInstsComplete
        || (s.insts x).isPrevInstsCompleted) := by
  rw [updateVisibleState_at cpu s tid older x younger hwf hact hsplit]
  split_ifs with h
  · rw [(deriveUnsquashable_prev _ _).2, (setPrevFlags_value _ _).2]
  · have : (runningAfter s.insts older ⟨true, true, true, true⟩).prevInstsComplete = false := by
      revert h
      cases (runningAfter s.insts older ⟨true, true, true, true⟩).prevInstsComplete <;> simp
    rw [this]; rfl

/-- C4: in a well-formed state, for an active thread whose instructions all
start with `isPrevBrsResolved` clear, after `updateVisibleState` the flag of a
listed instruction `inst` is set exactly when every older control instruction
of the list is ready to commit, fault-free and not squashed.  The condition
reads the older instructions only (fields the pass does not write), so the
state of `inst` itself plays no part. -/
theorem updateVisibleState_prevBrsResolved_iff (cpu : O3CPU) (s : ROB) (tid : ThreadID)
    (older : List Nat) (inst : Nat) (younger : List Nat)
    (hwf : ListsWellFormed s) (hact : tid ∈ s.activeThreads)
    (hclear : ∀ x ∈ s.instList tid, (s.insts x).isPrevBrsResolved = false)
    (hsplit : s.instList tid = older ++ inst :: younger) :
    ((updateVisibleState cpu s).insts inst).isPrevBrsResolved = true ↔
      ∀ J ∈ older, (s.insts J).isControl = true →
        (s.insts J).readyToCommit = true ∧ (s.insts J).getFault = false ∧
        (s.insts J).isSquashed = false := by
  rw [updateVisibleState_brs_flag cpu s tid older inst younger hwf hact hsplit,
    hclear inst (by rw [hsplit]; simp), Bool.or_false, runningAfter_brs]
  simp

/-- Scenario S5: the branch `2` sits behind the ready add `1` and gets the
flag; the add `3` sits behind the unresolved branch and does not. -/
theorem updateVisibleState_prevBrsResolved_iff_witness :
    ListsWellFormed s5ROB ∧ 0 ∈ s5ROB.activeThreads ∧
    (∀ x ∈ s5ROB.instList 0, (s5ROB.insts x).isPrevBrsResolved = false) ∧
    s5ROB.instList 0 = [1, 2] ++ 3 :: [] ∧
    ((updateVisibleState sttCPU s5ROB).insts 2).isPrevBrsResolved = true ∧
    ¬ ((updateVisibleState sttCPU s5ROB).insts 3).isPrevBrsResolved = true :=
  ⟨by decide, by decide, by decide, rfl, by decide,
    fun h => absurd
      (((updateVisibleState_prevBrsResolved_iff sttCPU s5ROB 0 [1, 2] 3 [] (by decide)
        (by decide) (by decide) rfl).1 h) 2 (by decide) rfl).1
      (by decide)⟩

/-- C5: in a well-formed state, for an active thread whose instructions all
start with `isPrevInstsCompleted` clear, after `updateVisibleState` the flag of
a listed instruction `inst` is set exactly when every older instruction of the
list is ready to commit, load-safe, fault-free and not squashed, and none is
non-speculative, a store-conditional, a memory barrier, a write barrier or a
strictly ordered load.  The equivalence covers the instructions behind the
early `break` as well. -/
theorem updateVisibleState_prevInstsCompleted_iff (cpu : O3CPU) (s : ROB) (tid : ThreadID)
    (older : List Nat) (inst : Nat) (younger : List Nat)
    (hwf : ListsWellFormed s) (hact : tid ∈ s.activeThreads)
    (hclear : ∀ x ∈ s.instList tid, (s.insts x).isPrevInstsCompleted = false)
    (hsplit : s.instList tid = older ++ inst :: younger) :
    ((updateVisibleState cpu s).insts inst).isPrevInstsCompleted = true ↔
      ∀ J ∈ older,
        ((s.insts J).readyToCommit = true ∧ (s.insts J).isLoadSafeToCommit = true ∧
          (s.insts J).getFault = false ∧ (s.insts J).isSquashed = false) ∧
        ((s.insts J).isNonSpeculative = false ∧ (s.insts J).isStoreConditional = false ∧
          (s.insts J).isMemBarrier = false ∧ (s.insts J).isWriteBarrier = false ∧
          ¬ ((s.insts J).isLoad = true ∧ (s.insts J).strictlyOrdered = true)) := by
  rw [updateVisibleState_complete_flag cpu s tid older inst younger hwf hact hsplit,
    hclear inst (by rw [hsplit]; simp), Bool.or_false, runningAfter_complete]
  simp

/-- Scenario S5: the branch `2` has only the completed add `1` in front of it
and gets `isPrevInstsCompleted`; the add `3` does not, the branch being not
ready. -/
theorem updateVisibleState_prevInstsCompleted_iff_witness :
    ListsWellFormed s5ROB ∧ 0 ∈ s5ROB.activeThreads ∧
    (∀ x ∈ s5ROB.instList 0, (s5ROB.insts x).isPrevInstsCompleted = false) ∧
    s5ROB.instList 0 = [1, 2] ++ 3 :: [] ∧
    ((updateVisibleState sttCPU s5ROB).insts 2).isPrevInstsCompleted = true ∧
    ¬ ((updateVisibleState sttCPU s5ROB).insts 3).isPrevInstsCompleted = true :=
  ⟨by decide, by decide, by decide, rfl, by decide,
    fun h => absurd
      (((updateVisibleState_prevInstsCompleted_iff sttCPU s5ROB 0 [1, 2] 3 [] (by decide)
        (by decide) (by decide) rfl).1 h) 2 (by decide)).1.1
      (by decide)⟩

end VisibilityClaims

section Unsquashable

/-- The derivation of `isUnsquashable` reads `protectionEnabled` and
`isFuturistic` only. -/
theorem deriveUnsquashable_congr (c1 c2 : O3CPU) (hp : c1.protectionEnabled = c2.protectionEnabled)
    (hf : c1.isFuturistic = c2.isFuturistic) (d : DynInst) :
    deriveUnsquashable c1 d = deriveUnsquashable c2 d := by
  unfold deriveUnsquashable
  rw [hp, hf]
  cases c2.protectionEnabled <;> cases c1.isInvisibleSpec <;> cases c2.isInvisibleSpec <;> rfl

theorem visibleLoop_congr (c1 c2 : O3CPU) (hp : c1.protectionEnabled = c2.protectionEnabled)
    (hf : c1.isFuturistic = c2.isFuturistic) (l : List Nat) (r : Running) (m : InstMem) :
    visibleLoop c1 l r m = visibleLoop c2 l r m := by
  have hd : deriveUnsquashable c1 = deriveUnsquashable c2 :=
    funext (deriveUnsquashable_congr c1 c2 hp hf)
  induction l generalizing r m with
  | nil => rfl
  | cons x l ih =>
    unfold visibleLoop
    rw [hd]
    split_ifs
    · rfl
    · exact ih _ _

theorem visibleThreads_congr (c1 c2 : O3CPU) (hp : c1.protectionEnabled = c2.protectionEnabled)
    (hf : c1.isFuturistic = c2.isFuturistic) (lists : ThreadID → List Nat)
    (ts : List ThreadID) (m : InstMem) :
    visibleThreads c1 lists ts m = visibleThreads c2 lists ts m := by
  induction ts generalizing m with
  | nil => rfl
  | cons t ts ih =>
    unfold visibleThreads
    rw [visibleLoop_congr c1 c2 hp hf, ih]

/-- C8 (as stated, refuted): in scenario S5 under the unsafe baseline the
traversal breaks in front of instruction `3`, whose `isUnsquashable` stays
false; so "every listed instruction ends unsquashable" fails even on
well-formed states. -/
theorem updateVisibleState_unsafe_not_all_unsquashable :
    ¬ ∀ (cpu : O3CPU) (s : ROB), ListsWellFormed s → cpu.protectionEnabled = false →
      ∀ tid ∈ s.activeThreads, ∀ x ∈ s.instList tid,
        ((updateVisibleState cpu s).insts x).isUnsquashable = true := by
  intro h
  have h3 := h unsafeCPU s5ROB (by decide) rfl 0 (by decide) 3 (by decide)
  revert h3
  decide

/-- C8 (amended): with `protectionEnabled` false, after `updateVisibleState`
every listed instruction of an active thread that the traversal reaches has
`isUnsquashable` true, whatever the flags were before; the traversal reaches
`inst` when every older instruction is complete, or when every older control
instruction is resolved. -/
theorem updateVisibleState_unsafe_unsquashable (cpu : O3CPU) (s : ROB) (tid : ThreadID)
    (older : List Nat) (inst : Nat) (younger : List Nat)
    (hwf : ListsWellFormed s) (hact : tid ∈ s.activeThreads)
    (hprot : cpu.protectionEnabled = false)
    (hsplit : s.instList tid = older ++ inst :: younger)
    (hreach :
      (∀ J ∈ older,
        ((s.insts J).readyToCommit = true ∧ (s.insts J).isLoadSafeToCommit = true ∧
          (s.insts J).getFault = false ∧ (s.insts J).isSquashed = false) ∧
        ((s.insts J).isNonSpeculative = false ∧ (s.insts J).isStoreConditional = false ∧
          (s.insts J).isMemBarrier = false ∧ (s.insts J).isWriteBarrier = false ∧
          ¬ ((s.insts J).isLoad = true ∧ (s.insts J).strictlyOrdered = true))) ∨
      (∀ J ∈ older, (s.insts J).isControl = true →
        (s.insts J).readyToCommit = true ∧ (s.insts J).getFault = false ∧
        (s.insts J).isSquashed = false)) :
    ((updateVisibleState cpu s).insts inst).isUnsquashable = true := by
  rw [updateVisibleState_at cpu s tid older inst younger hwf hact hsplit]
  have hv : ((runningAfter s.insts older ⟨true, true, true, true⟩).prevInstsComplete
      || (runningAfter s.insts older ⟨true, true, true, true⟩).prevBrsResolved) = true := by
    rcases hreach with h | h
    · rw [(runningAfter_complete s.insts older _).2 ⟨rfl, h⟩]; rfl
    · rw [(runningAfter_brs s.insts older _).2 ⟨rfl, h⟩]; simp
  rw [if_pos hv, deriveUnsquashable_value, hprot]
  rfl

/-- Scenario S5 under the unsafe baseline: the branch `2` is reached (the add
in front of it is complete) and ends unsquashable. -/
theorem updateVisibleState_unsafe_unsquashable_witness :
    ListsWellFormed s5ROB ∧ 0 ∈ s5ROB.activeThreads ∧ unsafeCPU.protectionEnabled = false ∧
    s5ROB.instList 0 = [1] ++ 2 :: [3] ∧
    ((updateVisibleState unsafeCPU s5ROB).insts 2).isUnsquashable = true :=
  ⟨by decide, by decide, rfl, rfl,
    updateVisibleState_unsafe_unsquashable unsafeCPU s5ROB 0 [1] 2 [3] (by decide) (by decide)
      rfl rfl (Or.inl (by decide))⟩

/-- C9: with `protectionEnabled` true and every listed instruction of the
active threads starting with `isPrevInstsCompleted`, `isPrevBrsResolved` and
`isUnsquashable` clear, after `updateVisibleState` each such instruction has
`isUnsquashable` equal to `isPrevInstsCompleted` in futuristic mode and to
`isPrevBrsResolved` otherwise; and the pass gives the same state for
`isInvisibleSpec` true and false. -/
theorem updateVisibleState_protected_unsquashable (cpu : O3CPU) (s : ROB)
    (hwf : ListsWellFormed s) (hprot : cpu.protectionEnabled = true)
    (hclear : ∀ tid ∈ s.activeThreads, ∀ x ∈ s.instList tid,
      (s.insts x).isPrevInstsCompleted = false ∧ (s.insts x).isPrevBrsResolved = false ∧
      (s.insts x).isUnsquashable = false) :
    (∀ tid ∈ s.activeThreads, ∀ x ∈ s.instList tid,
      ((updateVisibleState cpu s).insts x).isUnsquashable =
        if cpu.isFuturistic = true then ((updateVisibleState cpu s).insts x).isPrevInstsCompleted
        else ((updateVisibleState cpu s).insts x).isPrevBrsResolved) ∧
    updateVisibleState { cpu with isInvisibleSpec := true } s =
      updateVisibleState { cpu with isInvisibleSpec := false } s := by
  constructor
  · intro tid hact x hx
    obtain ⟨older, younger, hsplit⟩ := List.append_of_mem hx
    obtain ⟨c1, c2, c3⟩ := hclear tid hact x hx
    rw [updateVisibleState_at cpu s tid older x younger hwf hact hsplit]
    split_ifs with hv hfut hfut
    · rw [deriveUnsquashable_value, hprot, (deriveUnsquashable_prev _ _).2]; simp [hfut]
    · rw [deriveUnsquashable_value, hprot, (deriveUnsquashable_prev _ _).1]; simp [hfut]
    · rw [c1, c3]
    · rw [c2, c3]
  · unfold updateVisibleState
    rw [visibleThreads_congr { cpu with isInvisibleSpec := true }
      { cpu with isInvisibleSpec := false } rfl rfl]

/-- Scenario S5 under STT protection (non-futuristic): the flags start clear,
and afterwards `isUnsquashable` follows `isPrevBrsResolved`: true for the
branch `2`, false for the add `3` behind it. -/
theorem updateVisibleState_protected_unsquashable_witness :
    ListsWellFormed s5ROB ∧ sttCPU.protectionEnabled = true ∧
    (∀ tid ∈ s5ROB.activeThreads, ∀ x ∈ s5ROB.instList tid,
      (s5ROB.insts x).isPrevInstsCompleted = false ∧ (s5ROB.insts x).isPrevBrsResolved = false ∧
      (s5ROB.insts x).isUnsquashable = false) ∧
    ((updateVisibleState sttCPU s5ROB).insts 2).isUnsquashable = true ∧
    ((updateVisibleState sttCPU s5ROB).insts 3).isUnsquashable =
      ((updateVisibleState sttCPU s5ROB).insts 3).isPrevBrsResolved :=
  ⟨by decide, rfl, by decide, by decide,
    (updateVisibleState_protected_unsquashable sttCPU s5ROB (by decide) rfl (by decide)).1
      0 (by decide) 3 (by decide)⟩

end Unsquashable

section TaintStep

/-- The producer scan reads the producer slots of `inst` and, of every other
object, the thread number and the two flags `isDestTainted`, `isCommitted`. -/
theorem taintedProducer_congr (tid : ThreadID) (inst : Nat) (m m2 : InstMem)
    (hslot : (m2 inst).getArgProducer = (m inst).getArgProducer)
    (hview : ∀ q, (m2 q).threadNumber = (m q).threadNumber ∧
      (m2 q).isDestTainted = (m q).isDestTainted ∧ (m2 q).isCommitted = (m q).isCommitted)
    (idxs : List Nat) :
    taintedProducer tid inst m2 idxs = taintedProducer tid inst m idxs := by
  induction idxs with
  | nil => rfl
  | cons i idxs ih =>
    unfold taintedProducer
    rw [hslot]
    cases (m inst).getArgProducer i with
    | none => exact ih
    | some p =>
      obtain ⟨h1, h2, h3⟩ := hview p
      simp only [h1, h2, h3, ih]

theorem address_flow_eq (tid : ThreadID) (inst : Nat) (m : InstMem) :
    address_flow tid inst m =
      (addressScan tid inst m).map (fun a => modifyInst m inst (fun d => d.setAddrTainted a)) := by
  unfold address_flow addressScan
  split_ifs <;> rfl

/-- Writes to the flow flags of `inst` do not change what the address scan
sees. -/
theorem addressScan_after_flows (cpu : O3CPU) (tid : ThreadID) (older : List Nat) (inst : Nat)
    (m : InstMem) (b : Bool) :
    addressScan tid inst
        (implicit_flow cpu older inst (modifyInst m inst (fun d => d.setExplicitFlow b)))
      = addressScan tid inst m := by
  have hobj : ∀ q, ∃ c : Option Bool,
      implicit_flow cpu older inst (modifyInst m inst (fun d => d.setExplicitFlow b)) q =
        match c with
        | none => m q
        | some c => ((m q).setExplicitFlow b).setImplicitFlow c := by
    intro q
    unfold implicit_flow
    by_cases hq : q = inst
    · subst hq
      split_ifs
      · exact ⟨some true, by simp [modifyInst_same]⟩
      · exact ⟨some false, by simp [modifyInst_same]⟩
    · split_ifs
      · exact ⟨none, by simp [modifyInst_other _ _ _ _ hq]⟩
      · exact ⟨none, by simp [modifyInst_other _ _ _ _ hq]⟩
  have hfield : ∀ q,
      (implicit_flow cpu older inst (modifyInst m inst (fun d => d.setExplicitFlow b)) q).threadNumber
        = (m q).threadNumber ∧
      (implicit_flow cpu older inst (modifyInst m inst (fun d => d.setExplicitFlow b)) q).isDestTainted
        = (m q).isDestTainted ∧
      (implicit_flow cpu older inst (modifyInst m inst (fun d => d.setExplicitFlow b)) q).isCommitted
        = (m q).isCommitted ∧
      (implicit_flow cpu older inst (modifyInst m inst (fun d => d.setExplicitFlow b)) q).getArgProducer
        = (m q).getArgProducer ∧
      (implicit_flow cpu older inst (modifyInst m inst (fun d => d.setExplicitFlow b)) q).isMemRef
        = (m q).isMemRef ∧
      (implicit_flow cpu older inst (modifyInst m inst (fun d => d.setExplicitFlow b)) q).isStore
        = (m q).isStore ∧
      (implicit_flow cpu older inst (modifyInst m inst (fun d => d.setExplicitFlow b)) q).isLoad
        = (m q).isLoad ∧
      (implicit_flow cpu older inst (modifyInst m inst (fun d => d.setExplicitFlow b)) q).numSrcRegs
        = (m q).numSrcRegs := by
    intro q
    obtain ⟨c, hc⟩ := hobj q
    rw [hc]
    cases c <;> exact ⟨rfl, rfl, rfl, rfl, rfl, rfl, rfl, rfl⟩
  obtain ⟨-, -, -, f4, f5, f6, f7, f8⟩ := hfield inst
  have hv : ∀ q,
      (implicit_flow cpu older inst (modifyInst m inst (fun d => d.setExplicitFlow b)) q).threadNumber
        = (m q).threadNumber ∧
      (implicit_flow cpu older inst (modifyInst m inst (fun d => d.setExplicitFlow b)) q).isDestTainted
        = (m q).isDestTainted ∧
      (implicit_flow cpu older inst (modifyInst m inst (fun d => d.setExplicitFlow b)) q).isCommitted
        = (m q).isCommitted :=
    fun q => ⟨(hfield q).1, (hfield q).2.1, (hfield q).2.2.1⟩
  unfold addressScan
  rw [f5, f6, f7, f8, taintedProducer_congr tid inst m _ f4 hv,
    taintedProducer_congr tid inst m _ f4 hv]

/-- One iteration of `compute_taint` in closed form: the explicit and address
verdicts are read off the store as it was, the implicit verdict off the store
with the new explicit flag, and all four writes land on `inst`. -/
theorem taintInst_eq (cpu : O3CPU) (tid : ThreadID) (older : List Nat) (inst : Nat)
    (m : InstMem) :
    taintInst cpu tid older inst m =
      (taintedProducer tid inst m (List.range (m inst).numSrcRegs)).bind fun b =>
        (addressScan tid inst m).map fun a =>
          modifyInst m inst (taintWrites b
            (cpu.impChannel && older.any (fun p =>
              (modifyInst m inst (fun d => d.setExplicitFlow b) p).isControl &&
              (modifyInst m inst (fun d => d.setExplicitFlow b) p).hasExplicitFlow)) a) := by
  unfold taintInst explicit_flow
  cases hb : taintedProducer tid inst m (List.range (m inst).numSrcRegs) with
  | none => rfl
  | some b =>
    simp only [Option.map_some', Option.some_bind]
    rw [address_flow_eq, addressScan_after_flows]
    cases addressScan tid inst m with
    | none => rfl
    | some a =>
      simp only [Option.map_some', Option.map_map]
      congr 1
      funext q
      unfold implicit_flow
      by_cases hq : q = inst
      · subst hq
        split_ifs with hc
        · simp [modifyInst_same, taintWrites, hc]
        · simp only [Bool.not_eq_true] at hc
          simp [modifyInst_same, taintWrites, hc]
      · split_ifs <;> simp [modifyInst_other _ _ _ _ hq]

end TaintStep

section TaintConsistency

theorem taintWrites_consistent (b c a : Bool) (d : DynInst) :
    (taintWrites b c a d).taintConsistent := by
  unfold taintWrites setTaint DynInst.taintConsistent
  cases h1 : d.isAccess <;> cases h2 : d.isUnsquashable <;> cases b <;>
    simp [DynInst.setExplicitFlow, DynInst.setImplicitFlow, DynInst.setAddrTainted,
      DynInst.setArgsTainted, DynInst.setDestTainted, h1, h2]

/-- A successful iteration rewrites the visited instruction by `taintWrites`
and nothing else. -/
theorem taintInst_some (cpu : O3CPU) (tid : ThreadID) (older : List Nat) (inst : Nat)
    (m m' : InstMem) (h : taintInst cpu tid older inst m = some m') :
    ∃ b c a, taintedProducer tid inst m (List.range (m inst).numSrcRegs) = some b ∧
      addressScan tid inst m = some a ∧
      c = (cpu.impChannel && older.any (fun p =>
        (modifyInst m inst (fun d => d.setExplicitFlow b) p).isControl &&
        (modifyInst m inst (fun d => d.setExplicitFlow b) p).hasExplicitFlow)) ∧
      m' = modifyInst m inst (taintWrites b c a) := by
  rw [taintInst_eq] at h
  cases hb : taintedProducer tid inst m (List.range (m inst).numSrcRegs) with
  | none => rw [hb] at h; exact absurd h (by simp)
  | some b =>
    rw [hb] at h
    simp only [Option.some_bind] at h
    cases ha : addressScan tid inst m with
    | none => rw [ha] at h; exact absurd h (by simp)
    | some a =>
      rw [ha] at h
      simp only [Option.map_some'] at h
      exact ⟨b, _, a, rfl, rfl, rfl, (Option.some.inj h).symm⟩

theorem taintLoop_consistent (cpu : O3CPU) (tid : ThreadID) (l older : List Nat)
    (m m' : InstMem) (h : taintLoop cpu tid older l m = some m') :
    (∀ q, (m q).taintConsistent → (m' q).taintConsistent) ∧
    (∀ q ∈ l, (m' q).taintConsistent) := by
  induction l generalizing older m with
  | nil =>
    have : m' = m := by
      unfold taintLoop at h; exact (Option.some.inj h).symm
    subst this
    exact ⟨fun _ hq => hq, fun q hq => absurd hq (by simp)⟩
  | cons x l ih =>
    unfold taintLoop at h
    cases h1 : taintInst cpu tid older x m with
    | none => rw [h1] at h; exact absurd h (by simp)
    | some m1 =>
      rw [h1] at h
      simp only [Option.some_bind] at h
      obtain ⟨b, c, a, -, -, -, hm1⟩ := taintInst_some cpu tid older x m m1 h1
      obtain ⟨i1, i2⟩ := ih (older ++ [x]) m1 h
      have hx : (m1 x).taintConsistent := by
        rw [hm1, modifyInst_same]; exact taintWrites_consistent b c a _
      have hstep : ∀ q, (m q).taintConsistent → (m1 q).taintConsistent := by
        intro q hq
        by_cases hqx : q = x
        · subst hqx; exact hx
        · rw [hm1, modifyInst_other _ _ _ _ hqx]; exact hq
      refine ⟨fun q hq => i1 q (hstep q hq), ?_⟩
      intro q hq
      rcases List.mem_cons.1 hq with rfl | hq'
      · exact i1 q hx
      · exact i2 q hq'

theorem taintThreads_consistent (cpu : O3CPU) (lists : ThreadID → List Nat)
    (ts : List ThreadID) (m m' : InstMem) (h : taintThreads cpu lists ts m = some m') :
    (∀ q, (m q).taintConsistent → (m' q).taintConsistent) ∧
    (∀ t ∈ ts, ∀ q ∈ lists t, (m' q).taintConsistent) := by
  induction ts generalizing m with
  | nil =>
    have : m' = m := by
      unfold taintThreads at h; exact (Option.some.inj h).symm
    subst this
    exact ⟨fun _ hq => hq, fun t ht => absurd ht (by simp)⟩
  | cons t ts ih =>
    unfold taintThreads at h
    cases h1 : taintLoop cpu t [] (lists t) m with
    | none => rw [h1] at h; exact absurd h (by simp)
    | some m1 =>
      rw [h1] at h
      simp only [Option.some_bind] at h
      obtain ⟨l1, l2⟩ := taintLoop_consistent cpu t (lists t) [] m m1 h1
      obtain ⟨i1, i2⟩ := ih m1 h
      refine ⟨fun q hq => i1 q (l1 q hq), ?_⟩
      intro t' ht' q hq
      rcases List.mem_cons.1 ht' with rfl | ht''
      · exact i1 q (l2 q hq)
      · exact i2 t' ht'' q hq

theorem compute_taint_some (cpu : O3CPU) (s s' : ROB) (h : compute_taint cpu s = some s') :
    cpu.STT = true ∧ ∃ m', taintThreads cpu s.instList s.activeThreads s.insts = some m' ∧
      s' = { s with insts := m' } := by
  unfold compute_taint at h
  by_cases hs : cpu.STT = false
  · rw [if_pos hs] at h; exact absurd h (by simp)
  · rw [if_neg hs] at h
    cases hm : taintThreads cpu s.instList s.activeThreads s.insts with
    | none => rw [hm] at h; exact absurd h (by simp)
    | some m' =>
      rw [hm] at h
      simp only [Option.map_some'] at h
      exact ⟨by simpa using hs, m', rfl, (Option.some.inj h).symm⟩

end TaintConsistency

section TaintIndependence

theorem taintWrites_forget_implicit (b c a : Bool) (d : DynInst) :
    (taintWrites b c a d).setImplicitFlow false =
      taintWrites b false a (d.setImplicitFlow false) := by
  unfold taintWrites setTaint
  cases h1 : d.isAccess <;> cases h2 : d.isUnsquashable <;>
    simp [DynInst.setExplicitFlow, DynInst.setImplicitFlow, DynInst.setAddrTainted,
      DynInst.setArgsTainted, DynInst.setDestTainted, h1, h2]

theorem sameButImplicit_scans (tid : ThreadID) (inst : Nat) (m m2 : InstMem)
    (h : sameButImplicit m m2) :
    taintedProducer tid inst m2 (List.range (m2 inst).numSrcRegs) =
      taintedProducer tid inst m (List.range (m inst).numSrcRegs) ∧
    addressScan tid inst m2 = addressScan tid inst m := by
  have hslot : (m2 inst).getArgProducer = (m inst).getArgProducer :=
    congrArg (fun d => d.getArgProducer) (h inst)
  have hview : ∀ q, (m2 q).threadNumber = (m q).threadNumber ∧
      (m2 q).isDestTainted = (m q).isDestTainted ∧ (m2 q).isCommitted = (m q).isCommitted :=
    fun q => ⟨congrArg (fun d => d.threadNumber) (h q),
      congrArg (fun d => d.isDestTainted) (h q), congrArg (fun d => d.isCommitted) (h q)⟩
  have hn : (m2 inst).numSrcRegs = (m inst).numSrcRegs :=
    congrArg (fun d => d.numSrcRegs) (h inst)
  have h1 : (m2 inst).isMemRef = (m inst).isMemRef := congrArg (fun d => d.isMemRef) (h inst)
  have h2 : (m2 inst).isStore = (m inst).isStore := congrArg (fun d => d.isStore) (h inst)
  have h3 : (m2 inst).isLoad = (m inst).isLoad := congrArg (fun d => d.isLoad) (h inst)
  refine ⟨by rw [hn]; exact taintedProducer_congr tid inst m m2 hslot hview _, ?_⟩
  unfold addressScan
  rw [h1, h2, h3, hn, taintedProducer_congr tid inst m m2 hslot hview,
    taintedProducer_congr tid inst m m2 hslot hview]

/-- One iteration run on two stores that agree up to `hasImplicitFlow`, under
two CPU configurations: both succeed or both fail, and the results agree up
to `hasImplicitFlow` again. -/
theorem taintInst_sameButImplicit (cpu cpu2 : O3CPU) (tid : ThreadID) (older : List Nat)
    (inst : Nat) (m m2 m' : InstMem) (h : sameButImplicit m m2)
    (hrun : taintInst cpu tid older inst m = some m') :
    ∃ m2', taintInst cpu2 tid older inst m2 = some m2' ∧ sameButImplicit m' m2' := by
  obtain ⟨b, c, a, hb, ha, -, hm'⟩ := taintInst_some cpu tid older inst m m' hrun
  obtain ⟨e1, e2⟩ := sameButImplicit_scans tid inst m m2 h
  rw [taintInst_eq, e1, hb, e2, ha]
  simp only [Option.some_bind, Option.map_some']
  refine ⟨_, rfl, ?_⟩
  intro q
  rw [hm']
  by_cases hq : q = inst
  · subst hq
    rw [modifyInst_same, modifyInst_same, taintWrites_forget_implicit,
      taintWrites_forget_implicit, h q]
  · rw [modifyInst_other _ _ _ _ hq, modifyInst_other _ _ _ _ hq]
    exact h q

theorem taintLoop_sameButImplicit (cpu cpu2 : O3CPU) (tid : ThreadID) (l older : List Nat)
    (m m2 m' : InstMem) (h : sameButImplicit m m2)
    (hrun : taintLoop cpu tid older l m = some m') :
    ∃ m2', taintLoop cpu2 tid older l m2 = some m2' ∧ sameButImplicit m' m2' := by
  induction l generalizing older m m2 with
  | nil =>
    have : m' = m := by
      unfold taintLoop at hrun; exact (Option.some.inj hrun).symm
    subst this
    exact ⟨m2, by unfold taintLoop; rfl, h⟩
  | cons x l ih =>
    unfold taintLoop at hrun
    cases h1 : taintInst cpu tid older x m with
    | none => rw [h1] at hrun; exact absurd hrun (by simp)
    | some m1 =>
      rw [h1] at hrun
      simp only [Option.some_bind] at hrun
      obtain ⟨n1, hn1, hr1⟩ := taintInst_sameButImplicit cpu cpu2 tid older x m m2 m1 h h1
      obtain ⟨n2, hn2, hr2⟩ := ih (older ++ [x]) m1 n1 hr1 hrun
      refine ⟨n2, ?_, hr2⟩
      unfold taintLoop
      rw [hn1]
      simpa using hn2

theorem taintThreads_sameButImplicit (cpu cpu2 : O3CPU) (lists : ThreadID → List Nat)
    (ts : List ThreadID) (m m2 m' : InstMem) (h : sameButImplicit m m2)
    (hrun : taintThreads cpu lists ts m = some m') :
    ∃ m2', taintThreads cpu2 lists ts m2 = some m2' ∧ sameButImplicit m' m2' := by
  induction ts generalizing m m2 with
  | nil =>
    have : m' = m := by
      unfold taintThreads at hrun; exact (Option.some.inj hrun).symm
    subst this
    exact ⟨m2, by unfold taintThreads; rfl, h⟩
  | cons t ts ih =>
    unfold taintThreads at hrun
    cases h1 : taintLoop cpu t [] (lists t) m with
    | none => rw [h1] at hrun; exact absurd hrun (by simp)
    | some m1 =>
      rw [h1] at hrun
      simp only [Option.some_bind] at hrun
      obtain ⟨n1, hn1, hr1⟩ := taintLoop_sameButImplicit cpu cpu2 t (lists t) [] m m2 m1 h h1
      obtain ⟨n2, hn2, hr2⟩ := ih m1 n1 hr1 hrun
      refine ⟨n2, ?_, hr2⟩
      unfold taintThreads
      rw [hn1]
      simpa using hn2

/-- C6: after a `compute_taint` that ran to completion, every instruction
listed under an active thread has `isArgsTainted` equal to `hasExplicitFlow`
and `isDestTainted` equal to `isArgsTainted` or-ed with "access and not
unsquashable".  Neither value depends on the implicit-flow machinery: run
again with any setting of `impChannel` from a state that differs only in
`hasImplicitFlow` flags, the pass completes as well and leaves the same
`isArgsTainted` and `isDestTainted` on every instruction. -/
theorem compute_taint_args_dest (cpu : O3CPU) (s s' : ROB)
    (hrun : compute_taint cpu s = some s') :
    (∀ tid ∈ s.activeThreads, ∀ x ∈ s.instList tid,
      (s'.insts x).isArgsTainted = (s'.insts x).hasExplicitFlow ∧
      (s'.insts x).isDestTainted =
        ((s'.insts x).isArgsTainted || ((s'.insts x).isAccess && !(s'.insts x).isUnsquashable))) ∧
    (∀ (cpu2 : O3CPU) (s2 : ROB), cpu2.STT = cpu.STT → s2.instList = s.instList →
      s2.activeThreads = s.activeThreads → sameButImplicit s.insts s2.insts →
      ∃ s2', compute_taint cpu2 s2 = some s2' ∧
        ∀ q, (s2'.insts q).isArgsTainted = (s'.insts q).isArgsTainted ∧
          (s2'.insts q).isDestTainted = (s'.insts q).isDestTainted) := by
  obtain ⟨hstt, m', hm', hs'⟩ := compute_taint_some cpu s s' hrun
  subst hs'
  refine ⟨?_, ?_⟩
  · intro tid ht x hx
    exact (taintThreads_consistent cpu s.instList s.activeThreads s.insts m' hm').2 tid ht x hx
  · intro cpu2 s2 h1 h2 h3 h4
    obtain ⟨n, hn, hr⟩ :=
      taintThreads_sameButImplicit cpu cpu2 s.instList s.activeThreads s.insts s2.insts m' h4 hm'
    refine ⟨{ s2 with insts := n }, ?_, ?_⟩
    · unfold compute_taint
      rw [h1, hstt, h2, h3, hn]
      rfl
    · intro q
      exact ⟨congrArg (fun d => d.isArgsTainted) (hr q),
        congrArg (fun d => d.isDestTainted) (hr q)⟩

/-- Scenario S6: the pass completes; the access `1` ends dest-tainted, its
consumer `2` ends with explicit flow, args taint and dest taint; and once `1`
is unsquashable a second pass puts its `isDestTainted` back to its
`isArgsTainted`, which is false. -/
theorem compute_taint_args_dest_witness :
    compute_taint sttCPU s6ROB = some s6Tainted ∧
    (s6Tainted.insts 1).isDestTainted = true ∧
    ((s6Tainted.insts 2).hasExplicitFlow = true ∧ (s6Tainted.insts 2).isArgsTainted = true ∧
      (s6Tainted.insts 2).isDestTainted = true) ∧
    ((s6Tainted.insts 2).isArgsTainted = (s6Tainted.insts 2).hasExplicitFlow ∧
      (s6Tainted.insts 2).isDestTainted =
        ((s6Tainted.insts 2).isArgsTainted ||
          ((s6Tainted.insts 2).isAccess && !(s6Tainted.insts 2).isUnsquashable))) ∧
    s6Cleared.map (fun s => ((s.insts 1).isArgsTainted, (s.insts 1).isDestTainted))
      = some (false, false) :=
  ⟨rfl, by decide, by decide,
    (compute_taint_args_dest sttCPU s6ROB s6Tainted rfl).1 0 (by decide) 2 (by decide),
    by decide⟩

end TaintIndependence

section TaintClean

theorem eraseTaint_taintWrites (b c a : Bool) (d : DynInst) :
    (taintWrites b c a d).eraseTaint = d.eraseTaint := by
  unfold taintWrites setTaint
  cases h1 : d.isAccess <;> cases h2 : d.isUnsquashable <;>
    simp [DynInst.setExplicitFlow, DynInst.setImplicitFlow, DynInst.setAddrTainted,
      DynInst.setArgsTainted, DynInst.setDestTainted, DynInst.eraseTaint, h1, h2]

theorem taintWrites_clean (d : DynInst)
    (hacc : ¬ (d.isAccess = true ∧ d.isUnsquashable = false)) :
    (taintWrites false false false d).taintFree := by
  unfold taintWrites setTaint DynInst.taintFree
  revert hacc
  cases h1 : d.isAccess <;> cases h2 : d.isUnsquashable <;>
    simp [DynInst.setExplicitFlow, DynInst.setImplicitFlow, DynInst.setAddrTainted,
      DynInst.setArgsTainted, DynInst.setDestTainted, h1, h2]

/-- A producer scan over slots whose producers are all free of dest taint
cannot answer `true`. -/
theorem taintedProducer_clean (tid : ThreadID) (inst : Nat) (m : InstMem) (idxs : List Nat)
    (b : Bool)
    (hp : ∀ i ∈ idxs, ∀ p, (m inst).getArgProducer i = some p → (m p).isDestTainted = false)
    (h : taintedProducer tid inst m idxs = some b) : b = false := by
  induction idxs with
  | nil =>
    unfold taintedProducer at h
    exact (Option.some.inj h).symm
  | cons i idxs ih =>
    unfold taintedProducer at h
    cases hs : (m inst).getArgProducer i with
    | none =>
      rw [hs] at h
      exact ih (fun j hj => hp j (by simp [hj])) h
    | some p =>
      rw [hs] at h
      have hd := hp i (by simp) p hs
      by_cases ht : (m p).threadNumber ≠ tid
      · simp [ht] at h
      · simp only [ht, hd, if_false, Bool.false_and] at h
        exact ih (fun j hj => hp j (by simp [hj])) (by simpa using h)

theorem addressScan_clean (tid : ThreadID) (inst : Nat) (m : InstMem) (a : Bool)
    (hp : ∀ i < (m inst).numSrcRegs, ∀ p, (m inst).getArgProducer i = some p →
      (m p).isDestTainted = false)
    (h : addressScan tid inst m = some a) : a = false := by
  unfold addressScan at h
  split_ifs at h
  · refine taintedProducer_clean tid inst m _ a ?_ h
    intro i hi
    exact hp i (List.mem_range.1 (List.mem_of_mem_drop hi))
  · refine taintedProducer_clean tid inst m _ a ?_ h
    intro i hi
    exact hp i (List.mem_range.1 hi)
  · exact (Option.some.inj h).symm

/-- The taint loop over the rest of a list whose visited part is already
taint-free, when producers point backwards and no access is squashable. -/
theorem taintLoop_clean (cpu : O3CPU) (tid : ThreadID) (himp : cpu.impChannel = false)
    (m0 : InstMem) (rest older : List Nat) (m m' : InstMem)
    (hrun : taintLoop cpu tid older rest m = some m')
    (hstat : ∀ q, (m q).eraseTaint = (m0 q).eraseTaint)
    (hold : ∀ p ∈ older, (m p).taintFree)
    (hprod : ∀ pre x post, rest = pre ++ x :: post → ∀ i < (m0 x).numSrcRegs,
      ∀ p, (m0 x).getArgProducer i = some p → p ∈ older ++ pre)
    (hacc : ∀ x ∈ rest, ¬ ((m0 x).isAccess = true ∧ (m0 x).isUnsquashable = false)) :
    (∀ q, (m' q).eraseTaint = (m0 q).eraseTaint) ∧
    (∀ q, (m q).taintFree → (m' q).taintFree) ∧
    (∀ q ∈ rest, (m' q).taintFree) := by
  induction rest generalizing older m with
  | nil =>
    have : m' = m := by
      unfold taintLoop at hrun; exact (Option.some.inj hrun).symm
    subst this
    exact ⟨hstat, fun _ h => h, fun q hq => absurd hq (by simp)⟩
  | cons x rest ih =>
    unfold taintLoop at hrun
    cases h1 : taintInst cpu tid older x m with
    | none => rw [h1] at hrun; exact absurd hrun (by simp)
    | some m1 =>
      rw [h1] at hrun
      simp only [Option.some_bind] at hrun
      obtain ⟨b, c, a, hb, ha, hc, hm1⟩ := taintInst_some cpu tid older x m m1 h1
      have eN : (m x).numSrcRegs = (m0 x).numSrcRegs := congrArg (fun d => d.numSrcRegs) (hstat x)
      have eS : (m x).getArgProducer = (m0 x).getArgProducer :=
        congrArg (fun d => d.getArgProducer) (hstat x)
      have eA : (m x).isAccess = (m0 x).isAccess := congrArg (fun d => d.isAccess) (hstat x)
      have eU : (m x).isUnsquashable = (m0 x).isUnsquashable :=
        congrArg (fun d => d.isUnsquashable) (hstat x)
      have hpx : ∀ i < (m x).numSrcRegs, ∀ p, (m x).getArgProducer i = some p →
          (m p).isDestTainted = false := by
        intro i hi p hp
        rw [eN] at hi
        rw [eS] at hp
        have hmem : p ∈ older := by simpa using hprod [] x rest rfl i hi p hp
        exact (hold p hmem).2.2.2.2
      have hb0 : b = false :=
        taintedProducer_clean tid x m _ b (fun i hi => hpx i (List.mem_range.1 hi)) hb
      have ha0 : a = false := addressScan_clean tid x m a hpx ha
      have hc0 : c = false := by rw [hc, himp]; rfl
      subst hb0 ha0 hc0
      have hx : (m1 x).taintFree := by
        rw [hm1, modifyInst_same]
        apply taintWrites_clean
        rw [eA, eU]
        exact hacc x (by simp)
      have hstat1 : ∀ q, (m1 q).eraseTaint = (m0 q).eraseTaint := by
        intro q
        by_cases hq : q = x
        · subst hq
          rw [hm1, modifyInst_same, eraseTaint_taintWrites]; exact hstat q
        · rw [hm1, modifyInst_other _ _ _ _ hq]; exact hstat q
      have hstep : ∀ q, (m q).taintFree → (m1 q).taintFree := by
        intro q hq
        by_cases hqx : q = x
        · subst hqx; exact hx
        · rw [hm1, modifyInst_other _ _ _ _ hqx]; exact hq
      have hold1 : ∀ p ∈ older ++ [x], (m1 p).taintFree := by
        intro p hp
        rcases List.mem_append.1 hp with h | h
        · exact hstep p (hold p h)
        · have : p = x := by simpa using h
          subst this; exact hx
      have hprod1 : ∀ pre y post, rest = pre ++ y :: post → ∀ i < (m0 y).numSrcRegs,
          ∀ p, (m0 y).getArgProducer i = some p → p ∈ (older ++ [x]) ++ pre := by
        intro pre y post hsp i hi p hp
        have := hprod (x :: pre) y post (by rw [hsp]; rfl) i hi p hp
        simpa using this
      obtain ⟨i1, i2, i3⟩ := ih (older ++ [x]) m1 hrun hstat1 hold1 hprod1
        (fun y hy => hacc y (by simp [hy]))
      refine ⟨i1, fun q hq => i2 q (hstep q hq), ?_⟩
      intro q hq
      rcases List.mem_cons.1 hq with rfl | hq'
      · exact i2 q hx
      · exact i3 q hq'

theorem taintThreads_clean (cpu : O3CPU) (himp : cpu.impChannel = false)
    (lists : ThreadID → List Nat) (m0 : InstMem) (ts : List ThreadID) (m m' : InstMem)
    (hrun : taintThreads cpu lists ts m = some m')
    (hstat : ∀ q, (m q).eraseTaint = (m0 q).eraseTaint)
    (hprod : ∀ t ∈ ts, ∀ pre x post, lists t = pre ++ x :: post → ∀ i < (m0 x).numSrcRegs,
      ∀ p, (m0 x).getArgProducer i = some p → p ∈ pre)
    (hacc : ∀ t ∈ ts, ∀ x ∈ lists t,
      ¬ ((m0 x).isAccess = true ∧ (m0 x).isUnsquashable = false)) :
    (∀ q, (m q).taintFree → (m' q).taintFree) ∧
    (∀ t ∈ ts, ∀ q ∈ lists t, (m' q).taintFree) := by
  induction ts generalizing m with
  | nil =>
    have : m' = m := by
      unfold taintThreads at hrun; exact (Option.some.inj hrun).symm
    subst this
    exact ⟨fun _ h => h, fun t ht => absurd ht (by simp)⟩
  | cons t ts ih =>
    unfold taintThreads at hrun
    cases h1 : taintLoop cpu t [] (lists t) m with
    | none => rw [h1] at hrun; exact absurd hrun (by simp)
    | some m1 =>
      rw [h1] at hrun
      simp only [Option.some_bind] at hrun
      obtain ⟨l1, l2, l3⟩ := taintLoop_clean cpu t himp m0 (lists t) [] m m1 h1 hstat
        (fun p hp => absurd hp (by simp))
        (fun pre x post hsp i hi p hp => by simpa using hprod t (by simp) pre x post hsp i hi p hp)
        (hacc t (by simp))
      obtain ⟨i1, i2⟩ := ih m1 hrun l1
        (fun t' ht' => hprod t' (by simp [ht'])) (fun t' ht' => hacc t' (by simp [ht']))
      refine ⟨fun q hq => i1 q (l2 q hq), ?_⟩
      intro t' ht' q hq
      rcases List.mem_cons.1 ht' with rfl | ht''
      · exact i1 q (l3 q hq)
      · exact i2 t' ht'' q hq

/-- Producers point backwards in a concrete list as soon as they do so
position by position. -/
theorem producers_older_of_positions (m : InstMem) (l : List Nat)
    (h : ∀ k < l.length, ∀ i < (m (l.getD k 0)).numSrcRegs,
      ∀ p, (m (l.getD k 0)).getArgProducer i = some p → p ∈ l.take k) :
    ∀ pre x post, l = pre ++ x :: post → ∀ i < (m x).numSrcRegs,
      ∀ p, (m x).getArgProducer i = some p → p ∈ pre := by
  intro pre x post hl i hi p hp
  have hk : pre.length < l.length := by rw [hl]; simp
  have hx : l.getD pre.length 0 = x := by
    rw [hl, List.getD_eq_getElem?_getD, List.getElem?_append_right (le_refl _)]
    simp
  have ht : l.take pre.length = pre := by rw [hl]; simp
  have := h pre.length hk i (by rw [hx]; exact hi) p (by rw [hx]; exact hp)
  rwa [ht] at this

end TaintClean

section TaintCleanClaim

/-- C7: if every producer slot of every instruction listed under an active
thread names an older instruction of the same list, `impChannel` is false and
no listed instruction is an access that is not unsquashable, then after a
`compute_taint` that ran to completion every instruction listed under an
active thread has `hasExplicitFlow`, `hasImplicitFlow`, `isAddrTainted`,
`isArgsTainted` and `isDestTainted` false, whatever these flags were before. -/
theorem compute_taint_all_clear (cpu : O3CPU) (s s' : ROB)
    (hrun : compute_taint cpu s = some s')
    (himp : cpu.impChannel = false)
    (hprod : ∀ tid ∈ s.activeThreads, ∀ older x younger,
      s.instList tid = older ++ x :: younger →
      ∀ i < (s.insts x).numSrcRegs, ∀ p, (s.insts x).getArgProducer i = some p → p ∈ older)
    (hacc : ∀ tid ∈ s.activeThreads, ∀ x ∈ s.instList tid,
      ¬ ((s.insts x).isAccess = true ∧ (s.insts x).isUnsquashable = false)) :
    ∀ tid ∈ s.activeThreads, ∀ x ∈ s.instList tid,
      (s'.insts x).hasExplicitFlow = false ∧ (s'.insts x).hasImplicitFlow = false ∧
      (s'.insts x).isAddrTainted = false ∧ (s'.insts x).isArgsTainted = false ∧
      (s'.insts x).isDestTainted = false := by
  obtain ⟨-, m', hm', hs'⟩ := compute_taint_some cpu s s' hrun
  subst hs'
  intro tid ht x hx
  exact (taintThreads_clean cpu himp s.instList s.insts s.activeThreads s.insts m' hm'
    (fun _ => rfl) hprod hacc).2 tid ht x hx

/-- Scenario S4 with stale taint flags on `B` and `C`: producers point
backwards (`B -> A`, `D -> C`), nothing is an access, the pass completes and
`D`, whose producer `C` carried a stale dest taint, ends with every taint flag
false. -/
theorem compute_taint_all_clear_witness :
    compute_taint sttCPU s4Stale = some s4Swept ∧ sttCPU.impChannel = false ∧
    (s4Stale.insts 3).isDestTainted = true ∧ (s4Stale.insts 4).getArgProducer 0 = some 3 ∧
    ((s4Swept.insts 4).hasExplicitFlow = false ∧ (s4Swept.insts 4).hasImplicitFlow = false ∧
      (s4Swept.insts 4).isAddrTainted = false ∧ (s4Swept.insts 4).isArgsTainted = false ∧
      (s4Swept.insts 4).isDestTainted = false) :=
  ⟨rfl, rfl, by decide, by decide,
    compute_taint_all_clear sttCPU s4Stale s4Swept rfl rfl
      (fun tid ht => by
        have h0 : tid = 0 := by simpa [s4Stale, s4AfterD, s4BeforeD, emptyROB, insertInst] using ht
        subst h0
        exact producers_older_of_positions s4Stale.insts (s4Stale.instList 0) (by decide))
      (by decide) 0 (by decide) 4 (by decide)⟩

end TaintCleanClaim

section SquashLists

theorem prevNode_split (A : List Nat) (a h : Nat) (B : List Nat)
    (hnd : (A ++ a :: h :: B).Nodup) : prevNode (A ++ a :: h :: B) h = some a := by
  induction A with
  | nil => simp [prevNode]
  | cons c A ih =>
    have hnd' : (A ++ a :: h :: B).Nodup := (List.nodup_cons.1 hnd).2
    have hc : c ∉ A ++ a :: h :: B := (List.nodup_cons.1 hnd).1
    cases A with
    | nil =>
      have hah : a ≠ h := by
        intro e
        have := (List.nodup_cons.1 hnd').1
        exact this (by simp [e])
      simp only [List.nil_append, List.cons_append, prevNode, hah, if_false]
      simp
    | cons d A =>
      have hdh : d ≠ h := by
        intro e
        have := (List.nodup_cons.1 hnd').1
        exact this (by simp [e])
      simp only [List.cons_append, prevNode, hdh, if_false]
      exact ih hnd'

theorem head_split (A : List Nat) (h : Nat) (B : List Nat) (hnd : (A ++ h :: B).Nodup) :
    (A ++ h :: B).head? = some h ↔ A = [] := by
  cases A with
  | nil => simp
  | cons c A =>
    have hc : c ∉ A ++ h :: B := (List.nodup_cons.1 hnd).1
    have : c ≠ h := fun e => hc (by simp [e])
    simp [this]

theorem getLast_split (A : List Nat) (h : Nat) (B : List Nat) :
    ∃ y, (A ++ h :: B).getLast? = some y := by
  cases hl : (A ++ h :: B).getLast? with
  | none =>
    rw [List.getLast?_eq_none_iff] at hl
    exact absurd hl (by simp)
  | some y => exact ⟨y, rfl⟩

theorem ascending_before (m : InstMem) (A : List Nat) (h : Nat) (B : List Nat)
    (hasc : ((A ++ h :: B).map (fun x => (m x).seqNum)).Pairwise (fun a b => a < b)) :
    ∀ q ∈ A, (m q).seqNum < (m h).seqNum := by
  rw [List.pairwise_map, List.pairwise_append] at hasc
  intro q hq
  exact hasc.2.2 q hq h (by simp)

theorem squashedMem_nil (m0 : InstMem) : squashedMem m0 [] = m0 := by
  funext q
  simp [squashedMem]

theorem squashedMem_cons (m0 : InstMem) (h : Nat) (B : List Nat) (hB : h ∉ B) :
    modifyInst (squashedMem m0 B) h DynInst.squashFlags = squashedMem m0 (h :: B) := by
  funext q
  by_cases hq : q = h
  · subst hq
    simp [modifyInst, squashedMem, hB]
  · simp [modifyInst, squashedMem, hq]

theorem squashedMem_seq (m0 : InstMem) (B : List Nat) (q : Nat) :
    (squashedMem m0 B q).seqNum = (m0 q).seqNum := by
  unfold squashedMem
  split_ifs <;> rfl

end SquashLists

section SquashLoopSpec

/-- The `for` loop of `doSquash` from a state in which a squash is under way:
it either reaches the front of the list and returns with the squash finished,
or falls through with the squash still under way, the cursor no further back
than before and strictly further towards the front when at least one
iteration was allowed and the cursor was on an instruction younger than the
target. -/
theorem squashLoop_spec (s0 : ROB) (tid : ThreadID) (S : InstSeqNum)
    (hnd : (s0.instList tid).Nodup) (n : Nat) :
    ∀ (st : ROB) (A : List Nat) (h : Nat) (B : List Nat) (u : Bool),
      SquashInv s0 tid S st A h B →
      (∃ st', squashLoop tid n st u = some (SquashLoop.returned st') ∧
        SquashDone s0 tid S st') ∨
      (∃ st' u' A' h' B', squashLoop tid n st u = some (SquashLoop.fell st' u') ∧
        SquashInv s0 tid S st' A' h' B' ∧ st'.doneSquashing tid = st.doneSquashing tid ∧
        A'.length ≤ A.length ∧
        (0 < n → S < (s0.insts h).seqNum → A'.length < A.length) ∧
        (¬ S < (s0.insts h).seqNum → h' = h)) := by
  induction n with
  | zero =>
    intro st A h B u hinv
    right
    exact ⟨st, u, A, h, B, rfl, hinv, rfl, le_refl _, fun h0 => absurd h0 (lt_irrefl 0),
      fun _ => rfl⟩
  | succ n ih =>
    intro st A h B u hinv
    obtain ⟨hl, hw, hS, hit, hsplit, hmem, hB⟩ := hinv
    have hseq : (st.insts h).seqNum = (s0.insts h).seqNum := by rw [hmem, squashedMem_seq]
    have hlist : st.instList tid = A ++ h :: B := by rw [hl, hsplit]
    have hnd' : (A ++ h :: B).Nodup := by rw [← hsplit]; exact hnd
    have hhB : h ∉ B := (List.nodup_cons.1 (List.nodup_append.1 hnd').2.1).1
    unfold squashLoop
    simp only [hit, ne_eq, not_true_eq_false, if_false]
    by_cases hgt : (st.insts h).seqNum > st.squashedSeqNum tid
    · rw [if_pos hgt]
      have hgt' : S < (s0.insts h).seqNum := by rw [← hseq, ← hS]; exact hgt
      simp only [hlist]
      by_cases hA : A = []
      · subst hA
        left
        refine ⟨_, if_pos (by simp), ?_, [], h :: B, by simpa using hsplit, by simp, ?_, ?_⟩
        · simp [setAt_same]
        · intro q hq
          rcases List.mem_cons.1 hq with rfl | hq'
          · exact hgt'
          · exact hB q hq'
        · simp only [hmem]
          exact squashedMem_cons s0.insts h B hhB
      · obtain ⟨A', a, rfl⟩ : ∃ A' a, A = A' ++ [a] := by
          rcases List.eq_nil_or_concat A with h0 | ⟨A', a, h1⟩
          · exact absurd h0 hA
          · exact ⟨A', a, by simpa using h1⟩
        have hnd'' : (A' ++ a :: h :: B).Nodup := by simpa using hnd'
        have hhead : ¬ ((A' ++ [a] ++ h :: B).head? = some h) := by
          rw [head_split _ _ _ hnd']
          simp
        obtain ⟨y, hy⟩ := getLast_split (A' ++ [a]) h B
        have hprev : prevNode (A' ++ [a] ++ h :: B) h = some a := by
          have := prevNode_split A' a h B hnd''
          simpa using this
        rw [if_neg hhead]
        simp only [hy, hprev]
        have hinv2 : SquashInv s0 tid S
            { st with
              insts := modifyInst st.insts h DynInst.squashFlags
              squashIt := setAt st.squashIt tid (InstIt.node tid a) } A' a (h :: B) := by
          refine ⟨hl, hw, hS, by simp [setAt_same], by simpa using hsplit, ?_, ?_⟩
          · simp only [hmem]
            exact squashedMem_cons s0.insts h B hhB
          · intro q hq
            rcases List.mem_cons.1 hq with rfl | hq'
            · exact hgt'
            · exact hB q hq'
        rcases ih _ A' a (h :: B) (if h = y then true else u) hinv2 with
          ⟨st', hst', hdone⟩ | ⟨st', u', A2, h2, B2, hst', hinv', hd', hlen, -, -⟩
        · left
          exact ⟨st', hst', hdone⟩
        · right
          refine ⟨st', u', A2, h2, B2, hst', hinv', hd', ?_, ?_, ?_⟩
          · simp only [List.length_append, List.length_singleton]; omega
          · intro _ _
            simp only [List.length_append, List.length_singleton]; omega
          · intro hn
            exact absurd hgt' hn
    · rw [if_neg hgt]
      right
      refine ⟨st, u, A, h, B, rfl, ⟨hl, hw, hS, hit, hsplit, hmem, hB⟩, rfl, le_refl _, ?_,
        fun _ => rfl⟩
      intro _ hlt
      exact absurd (by rw [hseq, hS]; exact hlt) hgt

end SquashLoopSpec

section SquashPump

theorem squashInv_updateTail (s0 : ROB) (tid : ThreadID) (S : InstSeqNum) (st : ROB)
    (A : List Nat) (h : Nat) (B : List Nat) (hinv : SquashInv s0 tid S st A h B) :
    SquashInv s0 tid S (updateTail st) A h B := hinv

theorem squashDone_updateTail (s0 : ROB) (tid : ThreadID) (S : InstSeqNum) (st : ROB)
    (hd : SquashDone s0 tid S st) : SquashDone s0 tid S (updateTail st) := hd

/-- One `doSquash` from a state in which a squash is under way (list
ascending, width at least one): the call succeeds, and either finishes the
squash or leaves it under way with the cursor strictly nearer the front. -/
theorem doSquash_spec (s0 : ROB) (tid : ThreadID) (S : InstSeqNum)
    (hasc : ((s0.instList tid).map (fun x => (s0.insts x).seqNum)).Pairwise (fun a b => a < b))
    (hw1 : 1 ≤ s0.squashWidth) (st : ROB) (A : List Nat) (h : Nat) (B : List Nat)
    (hinv : SquashInv s0 tid S st A h B) :
    ∃ st', doSquash st tid = some st' ∧
      (SquashDone s0 tid S st' ∨
        ∃ A' h' B', SquashInv s0 tid S st' A' h' B' ∧
          st'.doneSquashing tid = st.doneSquashing tid ∧ A'.length < A.length) := by
  have hnd : (s0.instList tid).Nodup := nodup_of_seq_ascending s0.insts _ hasc
  obtain ⟨hl, hw, hS, hit, hsplit, hmem, hB⟩ := hinv
  have hseq : (st.insts h).seqNum = (s0.insts h).seqNum := by rw [hmem, squashedMem_seq]
  have hbefore : ∀ q ∈ A, (s0.insts q).seqNum < (s0.insts h).seqNum :=
    ascending_before s0.insts A h B (by rw [← hsplit]; exact hasc)
  unfold doSquash
  simp only [hit, ne_eq, not_true_eq_false, if_false]
  by_cases hlt : (st.insts h).seqNum < st.squashedSeqNum tid
  · rw [if_pos hlt]
    refine ⟨_, rfl, Or.inl ⟨by simp [setAt_same], A ++ [h], B, by simpa using hsplit, ?_, hB, hmem⟩⟩
    intro q hq
    rw [hseq, hS] at hlt
    rcases List.mem_append.1 hq with hqa | hqh
    · exact le_of_lt (lt_trans (hbefore q hqa) hlt)
    · have : q = h := by simpa using hqh
      subst this
      exact le_of_lt hlt
  · rw [if_neg hlt]
    have hinv0 : SquashInv s0 tid S { st with robWrites := st.robWrites + 1 } A h B :=
      ⟨hl, hw, hS, hit, hsplit, hmem, hB⟩
    rcases squashLoop_spec s0 tid S hnd st.squashWidth _ A h B false hinv0 with
      ⟨st', hst', hdone⟩ | ⟨st', u', A', h', B', hst', hinv', hd', hlen, hprog, hstay⟩
    · rw [hst']
      exact ⟨st', rfl, Or.inl hdone⟩
    · rw [hst']
      obtain ⟨hl', hw', hS', hit', hsplit', hmem', hB'⟩ := hinv'
      have hseq' : (st'.insts h').seqNum = (s0.insts h').seqNum := by
        rw [hmem', squashedMem_seq]
      have hbefore' : ∀ q ∈ A', (s0.insts q).seqNum < (s0.insts h').seqNum :=
        ascending_before s0.insts A' h' B' (by rw [← hsplit']; exact hasc)
      simp only [hit']
      by_cases hle : (st'.insts h').seqNum ≤ st'.squashedSeqNum tid
      · rw [if_pos hle]
        have hfin : SquashDone s0 tid S
            { st' with
              squashIt := setAt st'.squashIt tid (InstIt.endOf tid)
              doneSquashing := setAt st'.doneSquashing tid true } := by
          refine ⟨by simp [setAt_same], A' ++ [h'], B', by simpa using hsplit', ?_, hB', hmem'⟩
          intro q hq
          rw [hseq', hS'] at hle
          rcases List.mem_append.1 hq with hqa | hqh
          · exact le_of_lt (lt_of_lt_of_le (hbefore' q hqa) hle)
          · have : q = h' := by simpa using hqh
            subst this
            exact hle
        cases u'
        · exact ⟨_, rfl, Or.inl hfin⟩
        · exact ⟨_, rfl, Or.inl (squashDone_updateTail s0 tid S _ hfin)⟩
      · rw [if_neg hle]
        have hyoung : S < (s0.insts h).seqNum := by
          by_contra hn
          have hh := hstay hn
          subst hh
          apply hle
          rw [hseq', hS']
          exact not_lt.1 hn
        have hprog' : A'.length < A.length := hprog (by rw [hw]; omega) hyoung
        have hinv'' : SquashInv s0 tid S st' A' h' B' :=
          ⟨hl', hw', hS', hit', hsplit', hmem', hB'⟩
        cases u'
        · exact ⟨_, rfl, Or.inr ⟨A', h', B', hinv'', hd', hprog'⟩⟩
        · exact ⟨_, rfl, Or.inr ⟨A', h', B', squashInv_updateTail s0 tid S _ _ _ _ hinv'',
            hd', hprog'⟩⟩

end SquashPump

section SquashClaim

theorem pumpSquash_done (tid : ThreadID) (n : Nat) (st : ROB)
    (hd : st.doneSquashing tid = true) : pumpSquash tid n st = some st := by
  cases n with
  | zero => rfl
  | succ n => unfold pumpSquash; rw [if_pos hd]

/-- Pumping a squash that is under way finishes it, given one tick for every
instruction up to and including the cursor. -/
theorem pumpSquash_spec (s0 : ROB) (tid : ThreadID) (S : InstSeqNum)
    (hasc : ((s0.instList tid).map (fun x => (s0.insts x).seqNum)).Pairwise (fun a b => a < b))
    (hw1 : 1 ≤ s0.squashWidth) (n : Nat) :
    ∀ (st : ROB) (A : List Nat) (h : Nat) (B : List Nat), SquashInv s0 tid S st A h B →
      st.doneSquashing tid = false → A.length < n →
      ∃ st', pumpSquash tid n st = some st' ∧ SquashDone s0 tid S st' := by
  induction n with
  | zero => intro st A h B _ _ hlen; exact absurd hlen (Nat.not_lt_zero _)
  | succ n ih =>
    intro st A h B hinv hnd hlen
    unfold pumpSquash
    rw [hnd]
    simp only [Bool.false_eq_true, if_false]
    obtain ⟨st1, h1, hcase⟩ := doSquash_spec s0 tid S hasc hw1 st A h B hinv
    rw [h1]
    simp only [Option.some_bind]
    rcases hcase with hdone | ⟨A', h', B', hinv', hd', hlt⟩
    · exact ⟨st1, pumpSquash_done tid n st1 hdone.1, hdone⟩
    · exact ih st1 A' h' B' hinv' (by rw [hd', hnd]) (by omega)

/-- C2: for a thread with a non-empty list strictly ascending in `seqNum`
(and `threadEntries` counting it), a squash width of at least one and any
target `S`: `squash(S, tid)` followed by `doSquash(tid)` once per tick while
`doneSquashing[tid]` is false succeeds and ends with `doneSquashing[tid]`
set within as many ticks as the list is long; in the final state every listed
instruction with `seqNum > S` is squashed, can commit and has no pending
squash, and every listed instruction with `seqNum <= S` has these three flags
as before the squash. -/
theorem squash_pump_flags (s : ROB) (S : InstSeqNum) (tid : ThreadID) (n : Nat)
    (hne : s.instList tid ≠ [])
    (hcount : s.threadEntries tid = (s.instList tid).length)
    (hasc : ((s.instList tid).map (fun x => (s.insts x).seqNum)).Pairwise (fun a b => a < b))
    (hw1 : 1 ≤ s.squashWidth)
    (hn : (s.instList tid).length ≤ n) :
    ∃ s', (squash s S tid).bind (pumpSquash tid n) = some s' ∧
      s'.doneSquashing tid = true ∧
      ∀ x ∈ s.instList tid,
        (S < (s.insts x).seqNum →
          (s'.insts x).isSquashed = true ∧ (s'.insts x).readyToCommit = true ∧
          (s'.insts x).hasPendingSquash = false) ∧
        ((s.insts x).seqNum ≤ S →
          (s'.insts x).isSquashed = (s.insts x).isSquashed ∧
          (s'.insts x).readyToCommit = (s.insts x).readyToCommit ∧
          (s'.insts x).hasPendingSquash = (s.insts x).hasPendingSquash) := by
  have hfinal : ∀ s', SquashDone s tid S s' →
      s'.doneSquashing tid = true ∧
      ∀ x ∈ s.instList tid,
        (S < (s.insts x).seqNum →
          (s'.insts x).isSquashed = true ∧ (s'.insts x).readyToCommit = true ∧
          (s'.insts x).hasPendingSquash = false) ∧
        ((s.insts x).seqNum ≤ S →
          (s'.insts x).isSquashed = (s.insts x).isSquashed ∧
          (s'.insts x).readyToCommit = (s.insts x).readyToCommit ∧
          (s'.insts x).hasPendingSquash = (s.insts x).hasPendingSquash) := by
    rintro s' ⟨hd, A, B, hsplit, hA, hB, hmem⟩
    refine ⟨hd, ?_⟩
    intro x hx
    rw [hsplit] at hx
    constructor
    · intro hgt
      have hxB : x ∈ B := by
        rcases List.mem_append.1 hx with h | h
        · exact absurd (hA x h) (not_le.2 hgt)
        · exact h
      rw [hmem]
      simp only [squashedMem, hxB, if_true]
      exact ⟨rfl, rfl, rfl⟩
    · intro hle
      have hxB : x ∉ B := fun h => absurd (hB x h) (not_lt.2 hle)
      rw [hmem]
      simp [squashedMem, hxB]
  have hlen : 0 < (s.instList tid).length := List.length_pos.2 hne
  obtain ⟨x, hx⟩ : ∃ x, (s.instList tid).getLast? = some x := by
    cases hl : (s.instList tid).getLast? with
    | none => exact absurd (List.getLast?_eq_none_iff.1 hl) hne
    | some x => exact ⟨x, rfl⟩
  obtain ⟨A, hA⟩ := List.getLast?_eq_some_iff.1 hx
  have hempty : isEmpty s tid = false := by
    unfold isEmpty
    rw [hcount]
    simp only [beq_eq_false_iff_ne, ne_eq]
    omega
  have hinv : SquashInv s tid S
      { s with
        robStatus := setAt s.robStatus tid Status.ROBSquashing
        doneSquashing := setAt s.doneSquashing tid false
        squashedSeqNum := setAt s.squashedSeqNum tid S
        squashIt := setAt s.squashIt tid (InstIt.node tid x) } A x [] :=
    ⟨rfl, rfl, by simp [setAt_same], by simp [setAt_same], hA, (squashedMem_nil s.insts).symm,
      fun q hq => absurd hq (by simp)⟩
  obtain ⟨st1, h1, hcase⟩ := doSquash_spec s tid S hasc hw1 _ A x [] hinv
  have hsq : squash s S tid = some st1 := by
    unfold squash
    rw [hempty]
    simp only [Bool.false_eq_true, if_false, hx]
    exact h1
  rw [hsq]
  simp only [Option.some_bind]
  have hAlen : A.length + 1 = (s.instList tid).length := by rw [hA]; simp
  rcases hcase with hdone | ⟨A', h', B', hinv', hd', hlt⟩
  · exact ⟨st1, pumpSquash_done tid n st1 hdone.1, hfinal st1 hdone⟩
  · obtain ⟨s', hs', hdone⟩ := pumpSquash_spec s tid S hasc hw1 n st1 A' h' B' hinv'
      (by rw [hd']; simp [setAt_same]) (by omega)
    exact ⟨s', hs', hfinal s' hdone⟩

/-- Scenario S3: list `1 .. 8`, width 3, `squash(4)`.  The call inside
`squash` flags 8, 7, 6 and is not done; the next `doSquash` flags 5 and is
done; 1 to 4 stay unsquashed. -/
theorem squash_pump_flags_witness :
    s3ROB.instList 0 ≠ [] ∧ s3ROB.threadEntries 0 = (s3ROB.instList 0).length ∧
    ((s3ROB.instList 0).map (fun x => (s3ROB.insts x).seqNum)).Pairwise (fun a b => a < b) ∧
    1 ≤ s3ROB.squashWidth ∧
    (squash s3ROB 4 0).map s3View
      = some ([false, false, false, false, false, true, true, true], false) ∧
    ((squash s3ROB 4 0).bind (fun s => doSquash s 0)).map s3View
      = some ([false, false, false, false, true, true, true, true], true) ∧
    ∃ s', (squash s3ROB 4 0).bind (pumpSquash 0 8) = some s' ∧
      s'.doneSquashing 0 = true ∧
      ∀ x ∈ s3ROB.instList 0,
        (4 < (s3ROB.insts x).seqNum →
          (s'.insts x).isSquashed = true ∧ (s'.insts x).readyToCommit = true ∧
          (s'.insts x).hasPendingSquash = false) ∧
        ((s3ROB.insts x).seqNum ≤ 4 →
          (s'.insts x).isSquashed = (s3ROB.insts x).isSquashed ∧
          (s'.insts x).readyToCommit = (s3ROB.insts x).readyToCommit ∧
          (s'.insts x).hasPendingSquash = (s3ROB.insts x).hasPendingSquash) :=
  ⟨by decide, by decide, by decide, by decide, by decide, by decide,
    squash_pump_flags s3ROB 4 0 8 (by decide) (by decide) (by decide) (by decide) (by decide)⟩

end SquashClaim

section RoundTrip

/-- C10 (failing input): insert instruction 7 into the empty ROB and retire
it.  Both calls succeed; the list, both counters, the squash state and `head`
are as before the insert, but `tail` still addresses the node of the retired
instruction, which is no longer in any list, where it was `end()` of thread 0
before. -/
theorem insert_retire_leaves_tail_on_retired :
    robView roundTripROB
      = ⟨[], 0, 0, InstIt.endOf 0, 0, true, InstIt.endOf 0, InstIt.endOf 0⟩ ∧
    ((insertInst roundTripROB 7).bind (fun s => retireHead s 0)).map robView
      = some ⟨[], 0, 0, InstIt.endOf 0, 0, true, InstIt.endOf 0, InstIt.node 0 7⟩ := by
  decide

end RoundTrip

section CapacityPolicy

/-- C11 (as stated, refuted): Threshold policy, capacity 8, threshold 3, two
threads.  After construction both maxima are 3; with thread 0 alone
`resetEntries` raises its maximum to 8; back with two active threads
`resetEntries` leaves thread 0 at 8 (thread 1 is at 3). -/
theorem resetEntries_threshold_not_restored :
    (newROB 8 3 2 (some ROBPolicy.Threshold) 3 [0, 1] (fun h => plainInst h 0)).map
      (fun s => (s.maxEntries 0, s.maxEntries 1)) = some (3, 3) ∧
    (newROB 8 3 2 (some ROBPolicy.Threshold) 3 [0, 1] (fun h => plainInst h 0)).map
      (fun s => (resetEntries (setActive (resetEntries s) [0])).maxEntries 0) = some 8 ∧
    thresholdBackToTwo.map (fun s => (s.activeThreads, s.maxEntries 0, s.maxEntries 1))
      = some ([0, 1], 8, 3) := by
  decide

end CapacityPolicy

section Partitioned

theorem resetEntriesLoop_partitioned (s : ROB) (n : Nat)
    (hpol : s.robPolicy = ROBPolicy.Partitioned) (ts : List ThreadID) (maxE : ThreadID → Nat)
    (t : ThreadID) :
    resetEntriesLoop s n ts maxE t = if t ∈ ts then s.numEntries / n else maxE t := by
  induction ts generalizing maxE with
  | nil => simp [resetEntriesLoop]
  | cons t' ts ih =>
    unfold resetEntriesLoop
    rw [if_pos hpol, ih]
    by_cases h1 : t ∈ ts
    · simp [h1]
    · by_cases h2 : t = t'
      · subst h2; simp [h1, setAt_same]
      · simp [h1, h2, setAt_other _ _ _ _ h2]

theorem sum_map_const (l : List ThreadID) (f : ThreadID → Nat) (c : Nat)
    (h : ∀ t ∈ l, f t = c) : (l.map f).sum = l.length * c := by
  induction l with
  | nil => simp
  | cons t l ih =>
    simp only [List.map_cons, List.sum_cons, List.length_cons]
    rw [h t (by simp), ih (fun t' ht' => h t' (by simp [ht']))]
    ring

theorem unsigned_sub_of_le (a b : Nat) (hle : b ≤ a) (ha : a < 4294967296) :
    Int.toNat (((a : Int) - (b : Int)) % 4294967296) = a - b := by
  omega

/-- C12 (as stated, refuted): in the Partitioned scenario where thread 0 ran
alone and holds six entries when thread 1 becomes active, `resetEntries` sets
`maxEntries[0]` to `8 / 2 = 4`, and `numFreeEntries(0)` is the unsigned
`4 - 6 = 4294967294`, not `capacity / n - current_entries[0]`. -/
theorem numFreeEntries_partitioned_wraps :
    partitionedSolo.map (fun s => (s.maxEntries 0, s.threadEntries 0)) = some (8, 6) ∧
    (resetEntries partitionedOverfull).maxEntries 0 = 4 ∧
    numFreeEntriesOf (resetEntries partitionedOverfull) 0 = 4294967294 ∧
    ¬ ∀ s : ROB, s.robPolicy = ROBPolicy.Partitioned → 1 ≤ s.activeThreads.length →
      ∀ t ∈ s.activeThreads,
        (numFreeEntriesOf (resetEntries s) t : Int) =
          ((s.numEntries / s.activeThreads.length : Nat) : Int) - (s.threadEntries t : Int) := by
  refine ⟨by decide, by decide, by decide, ?_⟩
  intro h
  have h0 := h partitionedOverfull (by decide) (by decide) 0 (by decide)
  revert h0
  decide

/-- C12 (amended): under the Partitioned policy, after `resetEntries` with
`n` active threads (`n >= 1`, an active thread being given) every active
thread `t` has `maxEntries[t]` equal to
`capacity / n`, the maxima of the active threads sum to at most the capacity,
and `numFreeEntries(t)` is `capacity / n - threadEntries[t]` whenever
`threadEntries[t]` does not exceed `capacity / n` (the capacity being an
`unsigned`). -/
theorem resetEntries_partitioned (s : ROB) (t : ThreadID)
    (hpol : s.robPolicy = ROBPolicy.Partitioned) (ht : t ∈ s.activeThreads) :
    (resetEntries s).maxEntries t = s.numEntries / s.activeThreads.length ∧
    (s.activeThreads.map (resetEntries s).maxEntries).sum ≤ s.numEntries ∧
    (s.numEntries < 4294967296 →
      s.threadEntries t ≤ s.numEntries / s.activeThreads.length →
      numFreeEntriesOf (resetEntries s) t =
        s.numEntries / s.activeThreads.length - s.threadEntries t) := by
  have hguard : s.robPolicy ≠ ROBPolicy.Dynamic ∨ s.numThreads > 1 := by
    left; rw [hpol]; decide
  have hmax : ∀ t' ∈ s.activeThreads,
      (resetEntries s).maxEntries t' = s.numEntries / s.activeThreads.length := by
    intro t' ht'
    unfold resetEntries
    rw [if_pos hguard]
    simp only []
    rw [resetEntriesLoop_partitioned s _ hpol, if_pos ht']
  have hthr : (resetEntries s).threadEntries = s.threadEntries := by
    unfold resetEntries
    rw [if_pos hguard]
  refine ⟨hmax t ht, ?_, ?_⟩
  · rw [sum_map_const _ _ _ hmax]
    exact Nat.mul_div_le _ _
  · intro hcap hle
    unfold numFreeEntriesOf
    rw [hmax t ht, hthr]
    exact unsigned_sub_of_le _ _ hle (lt_of_le_of_lt (Nat.div_le_self _ _) hcap)

/-- Scenario S2: capacity 8 and two active threads give both a maximum of 4,
and after four inserts on thread 0 it has no free entry left. -/
theorem resetEntries_partitioned_witness :
    s2ROB.robPolicy = ROBPolicy.Partitioned ∧ 1 ≤ s2ROB.activeThreads.length ∧
    0 ∈ s2ROB.activeThreads ∧
    ((resetEntries s2ROB).maxEntries 0 = 4 ∧ (resetEntries s2ROB).maxEntries 1 = 4) ∧
    (insertAll [1, 2, 3, 4] s2ROB).map (fun s => numFreeEntriesOf s 0) = some 0 ∧
    (s2ROB.activeThreads.map (resetEntries s2ROB).maxEntries).sum ≤ s2ROB.numEntries :=
  ⟨by decide, by decide, by decide, by decide, by decide,
    (resetEntries_partitioned s2ROB 0 (by decide) (by decide)).2.1⟩

end Partitioned

section SquashFrames

theorem squashFrame_refl (tid : ThreadID) (s : ROB) : SquashFrame tid s s :=
  ⟨rfl, rfl, rfl, rfl, rfl, rfl, rfl, rfl, rfl, rfl, rfl, fun _ _ => ⟨rfl, rfl, rfl, rfl⟩,
    fun _ => Or.inl rfl⟩

theorem squashFlags_idem (d : DynInst) : d.squashFlags.squashFlags = d.squashFlags := by
  cases d
  rfl

theorem squashFrame_trans (tid : ThreadID) (a b c : ROB) (h1 : SquashFrame tid a b)
    (h2 : SquashFrame tid b c) : SquashFrame tid a c := by
  obtain ⟨a1, a2, a3, a4, a5, a6, a7, a8, a9, a10, a11, a12, a13⟩ := h1
  obtain ⟨b1, b2, b3, b4, b5, b6, b7, b8, b9, b10, b11, b12, b13⟩ := h2
  refine ⟨b1.trans a1, b2.trans a2, b3.trans a3, b4.trans a4, b5.trans a5, b6.trans a6,
    b7.trans a7, b8.trans a8, b9.trans a9, b10.trans a10, b11.trans a11, ?_, ?_⟩
  · intro t ht
    obtain ⟨x1, x2, x3, x4⟩ := a12 t ht
    obtain ⟨y1, y2, y3, y4⟩ := b12 t ht
    exact ⟨y1.trans x1, y2.trans x2, y3.trans x3, y4.trans x4⟩
  · intro q
    rcases a13 q with h | h <;> rcases b13 q with h' | h'
    · left; rw [h', h]
    · right; rw [h', h]
    · right; rw [h', h]
    · right; rw [h', h, squashFlags_idem]

theorem squashFrame_flag (tid : ThreadID) (s : ROB) (x : Nat) :
    SquashFrame tid s { s with insts := modifyInst s.insts x DynInst.squashFlags } := by
  refine ⟨rfl, rfl, rfl, rfl, rfl, rfl, rfl, rfl, rfl, rfl, rfl, fun _ _ => ⟨rfl, rfl, rfl, rfl⟩,
    ?_⟩
  intro q
  by_cases hq : q = x
  · subst hq; right; simp [modifyInst_same]
  · left; simp [modifyInst_other _ _ _ _ hq]

theorem squashFrame_cursor (tid : ThreadID) (s : ROB) (it : InstIt) :
    SquashFrame tid s { s with squashIt := setAt s.squashIt tid it } :=
  ⟨rfl, rfl, rfl, rfl, rfl, rfl, rfl, rfl, rfl, rfl, rfl,
    fun t ht => ⟨by simp [setAt_other _ _ _ _ ht], rfl, rfl, rfl⟩, fun _ => Or.inl rfl⟩

theorem squashFrame_finish (tid : ThreadID) (s : ROB) :
    SquashFrame tid s { s with
      squashIt := setAt s.squashIt tid (InstIt.endOf tid)
      doneSquashing := setAt s.doneSquashing tid true } :=
  ⟨rfl, rfl, rfl, rfl, rfl, rfl, rfl, rfl, rfl, rfl, rfl,
    fun t ht => ⟨by simp [setAt_other _ _ _ _ ht], by simp [setAt_other _ _ _ _ ht], rfl, rfl⟩,
    fun _ => Or.inl rfl⟩

theorem squashFrame_updateTail (tid : ThreadID) (s : ROB) : SquashFrame tid s (updateTail s) :=
  ⟨rfl, rfl, rfl, rfl, rfl, rfl, rfl, rfl, rfl, rfl, rfl, fun _ _ => ⟨rfl, rfl, rfl, rfl⟩,
    fun _ => Or.inl rfl⟩

/-- The `for` loop of `doSquash` only flags instructions and moves the cursor
of its thread. -/
theorem squashLoop_frame (tid : ThreadID) (n : Nat) :
    ∀ (st : ROB) (u : Bool) (res : SquashLoop), squashLoop tid n st u = some res →
      SquashFrame tid st res.state := by
  induction n with
  | zero =>
    intro st u res h
    unfold squashLoop at h
    cases Option.some.inj h
    exact squashFrame_refl tid st
  | succ n ih =>
    intro st u res h
    unfold squashLoop at h
    cases hit : st.squashIt tid with
    | endOf t =>
      simp only [hit] at h
      split_ifs at h
      cases Option.some.inj h
      exact squashFrame_refl tid st
    | node t x =>
      simp only [hit] at h
      by_cases ht : t ≠ tid
      · rw [if_pos ht] at h; exact absurd h (by simp)
      · rw [if_neg ht] at h
        by_cases hgt : (st.insts x).seqNum > st.squashedSeqNum tid
        · rw [if_pos hgt] at h
          by_cases hhead : (st.instList tid).head? = some x
          · rw [if_pos hhead] at h
            cases Option.some.inj h
            exact squashFrame_trans tid _ _ _ (squashFrame_flag tid st x)
              (squashFrame_finish tid _)
          · rw [if_neg hhead] at h
            cases hl : (st.instList tid).getLast? with
            | none => simp [hl] at h
            | some y =>
              cases hp : prevNode (st.instList tid) x with
              | none => simp [hl, hp] at h
              | some p =>
                simp only [hl, hp] at h
                exact squashFrame_trans tid _ _ _
                  (squashFrame_trans tid _ _ _ (squashFrame_flag tid st x)
                    (squashFrame_cursor tid _ (InstIt.node tid p)))
                  (ih _ _ res h)
        · rw [if_neg hgt] at h
          cases Option.some.inj h
          exact squashFrame_refl tid st

end SquashFrames

section SquashFrameClaim

theorem doSquash_frame (s s' : ROB) (tid : ThreadID) (h : doSquash s tid = some s') :
    SquashFrame tid s s' := by
  have h0 : SquashFrame tid s { s with robWrites := s.robWrites + 1 } :=
    ⟨rfl, rfl, rfl, rfl, rfl, rfl, rfl, rfl, rfl, rfl, rfl, fun _ _ => ⟨rfl, rfl, rfl, rfl⟩,
      fun _ => Or.inl rfl⟩
  unfold doSquash at h
  cases hit : s.squashIt tid with
  | endOf t => simp [hit] at h
  | node t x =>
    simp only [hit] at h
    by_cases ht : t ≠ tid
    · rw [if_pos ht] at h; exact absurd h (by simp)
    · rw [if_neg ht] at h
      by_cases hlt : (s.insts x).seqNum < s.squashedSeqNum tid
      · rw [if_pos hlt] at h
        cases Option.some.inj h
        exact squashFrame_trans tid _ _ _ h0 (squashFrame_finish tid _)
      · rw [if_neg hlt] at h
        cases hl : squashLoop tid s.squashWidth { s with robWrites := s.robWrites + 1 } false with
        | none => simp [hl] at h
        | some res =>
          have hf := squashLoop_frame tid _ _ _ _ hl
          cases res with
          | returned s1 =>
            simp only [hl] at h
            cases Option.some.inj h
            exact squashFrame_trans tid _ _ _ h0 hf
          | fell s1 u =>
            simp only [hl] at h
            cases hit1 : s1.squashIt tid with
            | endOf t1 => simp [hit1] at h
            | node t1 y =>
              simp only [hit1] at h
              have h1 : SquashFrame tid s s1 := squashFrame_trans tid _ _ _ h0 hf
              have h2 : SquashFrame tid s
                  (if (s1.insts y).seqNum ≤ s1.squashedSeqNum tid then
                    { s1 with
                      squashIt := setAt s1.squashIt tid (InstIt.endOf tid)
                      doneSquashing := setAt s1.doneSquashing tid true }
                  else s1) := by
                split_ifs
                · exact squashFrame_trans tid _ _ _ h1 (squashFrame_finish tid _)
                · exact h1
              cases u
              · cases Option.some.inj h
                exact h2
              · cases Option.some.inj h
                exact squashFrame_trans tid _ _ _ h2 (squashFrame_updateTail tid _)

theorem squash_frame (s s' : ROB) (S : InstSeqNum) (tid : ThreadID)
    (h : squash s S tid = some s') : SquashFrame tid s s' := by
  unfold squash at h
  by_cases he : isEmpty s tid = true
  · rw [if_pos he] at h
    cases Option.some.inj h
    exact squashFrame_refl tid s
  · rw [if_neg he] at h
    have h0 : SquashFrame tid s
        { s with
          robStatus := setAt s.robStatus tid Status.ROBSquashing
          doneSquashing := setAt s.doneSquashing tid false
          squashedSeqNum := setAt s.squashedSeqNum tid S } :=
      ⟨rfl, rfl, rfl, rfl, rfl, rfl, rfl, rfl, rfl, rfl, rfl,
        fun t ht => ⟨rfl, by simp [setAt_other _ _ _ _ ht], by simp [setAt_other _ _ _ _ ht],
          by simp [setAt_other _ _ _ _ ht]⟩,
        fun _ => Or.inl rfl⟩
    cases hl : (s.instList tid).getLast? with
    | none =>
      simp only [hl] at h
      cases Option.some.inj h
      exact h0
    | some x =>
      simp only [hl] at h
      exact squashFrame_trans tid _ _ _
        (squashFrame_trans tid _ _ _ h0 (squashFrame_cursor tid _ (InstIt.node tid x)))
        (doSquash_frame _ _ tid h)

/-- C16: a `squash(S, tid)` or a `doSquash(tid)` that returns leaves every
thread's list, `threadEntries` and `numInstsInROB` as they were, together with
the configuration, `head`, the read counter and the squash state of the other
threads; an instruction object is either untouched or has received the three
squash flags.  What may differ is confined to those flags, the squash cursor
and status of `tid`, `robWrites` and `tail`. -/
theorem squash_keeps_lists_and_counts (s s' : ROB) (S : InstSeqNum) (tid : ThreadID)
    (h : squash s S tid = some s' ∨ doSquash s tid = some s') :
    (∀ t, s'.instList t = s.instList t) ∧ (∀ t, s'.threadEntries t = s.threadEntries t) ∧
    s'.numInstsInROB = s.numInstsInROB ∧
    (s'.numEntries = s.numEntries ∧ s'.squashWidth = s.squashWidth ∧
      s'.numThreads = s.numThreads ∧ s'.robPolicy = s.robPolicy ∧
      s'.activeThreads = s.activeThreads ∧ (∀ t, s'.maxEntries t = s.maxEntries t) ∧
      s'.head = s.head ∧ s'.robReads = s.robReads) ∧
    (∀ t, t ≠ tid → s'.squashIt t = s.squashIt t ∧ s'.doneSquashing t = s.doneSquashing t ∧
      s'.robStatus t = s.robStatus t ∧ s'.squashedSeqNum t = s.squashedSeqNum t) ∧
    (∀ q, s'.insts q = s.insts q ∨ s'.insts q = (s.insts q).squashFlags) := by
  have hf : SquashFrame tid s s' := by
    rcases h with h | h
    · exact squash_frame s s' S tid h
    · exact doSquash_frame s s' tid h
  obtain ⟨a1, a2, a3, a4, a5, a6, a7, a8, a9, a10, a11, a12, a13⟩ := hf
  exact ⟨fun t => congrFun a1 t, fun t => congrFun a2 t, a3,
    ⟨a4, a5, a6, a7, a8, fun t => congrFun a9 t, a10, a11⟩, a12, a13⟩

/-- Scenario S3: `squash(4, 0)` returns; the list of thread 0 still holds
`1 .. 8` and both counters still read 8, while 8, 7, 6 are flagged. -/
theorem squash_keeps_lists_and_counts_witness :
    (squash s3ROB 4 0 = some s3Squashed ∨ doSquash s3ROB 0 = some s3Squashed) ∧
    s3Squashed.instList 0 = [1, 2, 3, 4, 5, 6, 7, 8] ∧ s3Squashed.threadEntries 0 = 8 ∧
    s3Squashed.numInstsInROB = 8 ∧ (s3Squashed.insts 8).isSquashed = true ∧
    ((∀ t, s3Squashed.instList t = s3ROB.instList t) ∧
      (∀ t, s3Squashed.threadEntries t = s3ROB.threadEntries t) ∧
      s3Squashed.numInstsInROB = s3ROB.numInstsInROB) :=
  ⟨Or.inl rfl, by decide, by decide, by decide, by decide,
    ⟨(squash_keeps_lists_and_counts s3ROB s3Squashed 4 0 (Or.inl rfl)).1,
      (squash_keeps_lists_and_counts s3ROB s3Squashed 4 0 (Or.inl rfl)).2.1,
      (squash_keeps_lists_and_counts s3ROB s3Squashed 4 0 (Or.inl rfl)).2.2.1⟩⟩

end SquashFrameClaim

section AccountingLemmas

theorem map_setAt_of_not_mem (l : List ThreadID) (f : ThreadID → Nat) (tid : ThreadID) (v : Nat)
    (h : tid ∉ l) : l.map (setAt f tid v) = l.map f := by
  apply List.map_congr_left
  intro t ht
  exact setAt_other f tid t v (fun e => h (e ▸ ht))

theorem sum_map_setAt (l : List ThreadID) (f : ThreadID → Nat) (tid : ThreadID) (v : Nat)
    (hnd : l.Nodup) (h : tid ∈ l) :
    (l.map (setAt f tid v)).sum + f tid = (l.map f).sum + v := by
  induction l with
  | nil => exact absurd h (by simp)
  | cons a l ih =>
    have hnd' : l.Nodup := (List.nodup_cons.1 hnd).2
    have ha : a ∉ l := (List.nodup_cons.1 hnd).1
    simp only [List.map_cons, List.sum_cons]
    by_cases hat : a = tid
    · subst hat
      rw [map_setAt_of_not_mem l f a v ha, setAt_same]
      omega
    · have hin : tid ∈ l := by
        rcases List.mem_cons.1 h with e | e
        · exact absurd e.symm hat
        · exact e
      rw [setAt_other f tid a v hat]
      have := ih hnd' hin
      omega

theorem le_sum_map_of_mem (l : List ThreadID) (f : ThreadID → Nat) (tid : ThreadID)
    (h : tid ∈ l) : f tid ≤ (l.map f).sum := by
  induction l with
  | nil => exact absurd h (by simp)
  | cons a l ih =>
    simp only [List.map_cons, List.sum_cons]
    rcases List.mem_cons.1 h with e | e
    · subst e; omega
    · have := ih e
      omega

theorem accounting_of_frame (tid : ThreadID) (s s' : ROB) (hf : SquashFrame tid s s')
    (hacc : Accounting s) : Accounting s' := by
  obtain ⟨a1, a2, a3, a4, -, a6, -⟩ := hf
  obtain ⟨h1, h2, h3⟩ := hacc
  unfold Accounting
  rw [a1, a2, a3, a4, a6]
  exact ⟨h1, h2, h3⟩

theorem accounting_resetState (r : ROB) (hl : ∀ t, t < r.numThreads → r.instList t = []) :
    Accounting (resetState r) := by
  refine ⟨?_, ?_, Nat.zero_le _⟩
  · intro t ht
    have ht' : t < r.numThreads := ht
    simp [resetState, ht', hl t ht']
  · have : ((List.range r.numThreads).map (resetState r).threadEntries).sum
        = (List.range r.numThreads).length * 0 := by
      apply sum_map_const
      intro t ht
      have ht' : t < r.numThreads := List.mem_range.1 ht
      simp [resetState, ht']
    show 0 = ((List.range r.numThreads).map (resetState r).threadEntries).sum
    rw [this]
    simp

theorem accounting_insertInst (s : ROB) (inst : Nat) (hacc : Accounting s)
    (hroom : s.numInstsInROB < s.numEntries)
    (htid : (s.insts inst).threadNumber < s.numThreads) :
    ∃ s', insertInst s inst = some s' ∧ Accounting s' := by
  obtain ⟨h1, h2, h3⟩ := hacc
  have hmem : (s.insts inst).threadNumber ∈ List.range s.numThreads := List.mem_range.2 htid
  have hhead : ¬ (s.numInstsInROB = 0 ∧
      (s.instList (s.insts inst).threadNumber ++ [inst]).head? ≠ some inst) := by
    rintro ⟨h0, hne⟩
    apply hne
    have hle := le_sum_map_of_mem _ s.threadEntries _ hmem
    rw [← h2, h0] at hle
    have hlen : (s.instList (s.insts inst).threadNumber).length = 0 := by
      rw [← h1 _ htid]; omega
    rw [List.length_eq_zero.1 hlen]
    rfl
  have hres : insertInst s inst = some { s with
      robWrites := s.robWrites + 1
      insts := modifyInst
        (wireArgProducers inst (s.instList (s.insts inst).threadNumber) s.insts) inst
        DynInst.setInROB
      instList := setAt s.instList (s.insts inst).threadNumber
        (s.instList (s.insts inst).threadNumber ++ [inst])
      head := if s.numInstsInROB = 0 then InstIt.node (s.insts inst).threadNumber inst
        else s.head
      tail := InstIt.node (s.insts inst).threadNumber inst
      numInstsInROB := s.numInstsInROB + 1
      threadEntries := setAt s.threadEntries (s.insts inst).threadNumber
        (s.threadEntries (s.insts inst).threadNumber + 1) } := by
    unfold insertInst
    rw [if_neg (Nat.ne_of_lt hroom)]
    simp only []
    rw [if_neg hhead]
  refine ⟨_, hres, ?_⟩
  · refine ⟨?_, ?_, ?_⟩
    · intro t ht
      by_cases e : t = (s.insts inst).threadNumber
      · subst e
        simp [setAt_same, h1 _ htid]
      · simp only [setAt_other _ _ _ _ e]
        exact h1 t ht
    · have := sum_map_setAt (List.range s.numThreads) s.threadEntries
        (s.insts inst).threadNumber (s.threadEntries (s.insts inst).threadNumber + 1)
        (List.nodup_range _) hmem
      show s.numInstsInROB + 1 = ((List.range s.numThreads).map
        (setAt s.threadEntries (s.insts inst).threadNumber
          (s.threadEntries (s.insts inst).threadNumber + 1))).sum
      omega
    · show s.numInstsInROB + 1 ≤ s.numEntries
      omega

theorem accounting_retireHead (s : ROB) (tid : ThreadID) (h : Nat) (rest : List Nat)
    (hacc : Accounting s) (htid : tid < s.numThreads) (hl : s.instList tid = h :: rest)
    (hready : (s.insts h).readyToCommit = true) :
    ∃ s', retireHead s tid = some s' ∧ Accounting s' := by
  obtain ⟨h1, h2, h3⟩ := hacc
  have hmem : tid ∈ List.range s.numThreads := List.mem_range.2 htid
  have hte : s.threadEntries tid = rest.length + 1 := by rw [h1 tid htid, hl]; rfl
  have hle := le_sum_map_of_mem _ s.threadEntries _ hmem
  have hpos : s.numInstsInROB ≠ 0 := by omega
  have hres : retireHead s tid = some (updateHead { s with
      robWrites := s.robWrites + 1
      numInstsInROB := s.numInstsInROB - 1
      threadEntries := setAt s.threadEntries tid (s.threadEntries tid - 1)
      instList := setAt s.instList tid rest
      insts := clearOwnProducers h
        ((rest.drop 1).foldl (fun m nextInst => clearProducerRefs h nextInst m)
          (modifyInst s.insts h (fun d => d.clearInROB.setCommitted))) }) := by
    unfold retireHead
    rw [if_neg hpos, hl]
    simp only []
    rw [if_neg (by simp [hready])]
  refine ⟨_, hres, ?_⟩
  · refine ⟨?_, ?_, ?_⟩
    · intro t ht
      show setAt s.threadEntries tid (s.threadEntries tid - 1) t
        = (setAt s.instList tid rest t).length
      by_cases e : t = tid
      · subst e
        rw [setAt_same, setAt_same, hte]
        rfl
      · rw [setAt_other _ _ _ _ e, setAt_other _ _ _ _ e]
        exact h1 t ht
    · have := sum_map_setAt (List.range s.numThreads) s.threadEntries tid
        (s.threadEntries tid - 1) (List.nodup_range _) hmem
      show s.numInstsInROB - 1
        = ((List.range s.numThreads).map
            (setAt s.threadEntries tid (s.threadEntries tid - 1))).sum
      omega
    · show s.numInstsInROB - 1 ≤ s.numEntries
      omega

end AccountingLemmas

section AccountingClaim

/-- C13: the accounting invariant (`threadEntries[t]` is the length of thread
`t`'s list, `numInstsInROB` is the sum of the `threadEntries`, and
`numInstsInROB <= numEntries`, over the hardware threads) holds after
`resetState` on empty lists and in a freshly constructed ROB; `insertInst`
with room left and `retireHead` of a non-empty thread with a ready head
return and preserve it; `squash` and `doSquash` preserve it whenever they
return. -/
theorem accounting_invariant :
    (∀ r : ROB, (∀ t, t < r.numThreads → r.instList t = []) → Accounting (resetState r)) ∧
    (∀ (cap w n : Nat) (pol : Option ROBPolicy) (thr : Nat) (act : List ThreadID) (m : InstMem)
      (s : ROB), newROB cap w n pol thr act m = some s → Accounting s) ∧
    (∀ (s : ROB) (inst : Nat), Accounting s → s.numInstsInROB < s.numEntries →
      (s.insts inst).threadNumber < s.numThreads →
      ∃ s', insertInst s inst = some s' ∧ Accounting s') ∧
    (∀ (s : ROB) (tid : ThreadID) (h : Nat) (rest : List Nat), Accounting s →
      tid < s.numThreads → s.instList tid = h :: rest → (s.insts h).readyToCommit = true →
      ∃ s', retireHead s tid = some s' ∧ Accounting s') ∧
    (∀ (s s' : ROB) (S : InstSeqNum) (tid : ThreadID), Accounting s →
      squash s S tid = some s' → Accounting s') ∧
    (∀ (s s' : ROB) (tid : ThreadID), Accounting s → doSquash s tid = some s' →
      Accounting s') := by
  refine ⟨accounting_resetState, ?_, accounting_insertInst, accounting_retireHead, ?_, ?_⟩
  · intro cap w n pol thr act m s h
    unfold newROB at h
    cases pol with
    | none => exact absurd h (by simp)
    | some p =>
      simp only [] at h
      cases Option.some.inj h
      exact accounting_resetState _ (fun _ _ => rfl)
  · intro s s' S tid hacc h
    exact accounting_of_frame tid s s' (squash_frame s s' S tid h) hacc
  · intro s s' tid hacc h
    exact accounting_of_frame tid s s' (doSquash_frame s s' tid h) hacc

/-- Scenario S4 before `D` is inserted: three entries of eight are in use, the
invariant holds, and the insert returns a state in which it holds again;
scenario S3 satisfies it before and after `squash(4, 0)`. -/
theorem accounting_invariant_witness :
    Accounting s4BeforeD ∧ s4BeforeD.numInstsInROB < s4BeforeD.numEntries ∧
    (s4BeforeD.insts 4).threadNumber < s4BeforeD.numThreads ∧
    (∃ s', insertInst s4BeforeD 4 = some s' ∧ Accounting s') ∧
    Accounting s3ROB ∧ squash s3ROB 4 0 = some s3Squashed ∧ Accounting s3Squashed :=
  ⟨by decide, by decide, by decide,
    accounting_invariant.2.2.1 s4BeforeD 4 (by decide) (by decide) (by decide),
    by decide, rfl,
    accounting_invariant.2.2.2.2.1 s3ROB s3Squashed 4 0 (by decide) rfl⟩

end AccountingClaim

section GlobalCursors

/-- C14 (failing input): from the constructed two-thread ROB, insert
instruction 1 into thread 0 and instruction 2 into thread 1 (cursors right:
head on 1, tail on 2), then retire the ready head of thread 1.  Instruction 1
is now the only one in flight and `head` addresses it, but `tail` still
addresses the node of the retired instruction 2; `updateTail` on that state
would put it on instruction 1. -/
theorem retireHead_leaves_tail_off_the_youngest :
    twoThreadInserted.map cursorView
      = some ⟨[1], [2], InstIt.node 0 1, InstIt.node 1 2⟩ ∧
    (twoThreadInserted.bind (fun s => retireHead s 1)).map cursorView
      = some ⟨[1], [], InstIt.node 0 1, InstIt.node 1 2⟩ ∧
    (twoThreadInserted.bind (fun s => retireHead s 1)).map (fun s => (updateTail s).tail)
      = some (InstIt.node 0 1) := by
  decide

end GlobalCursors

section SquashSegment

/-- The `for` loop of `doSquash`, started with the cursor on a list element of
a duplicate-free list, returns; the instructions it flags form a block of at
most `n` list elements that ends at the cursor, and after falling through the
cursor is on a node again. -/
theorem squashLoop_segment (tid : ThreadID) (n : Nat) :
    ∀ (st : ROB) (A : List Nat) (h : Nat) (B : List Nat) (u : Bool),
      st.instList tid = A ++ h :: B → (A ++ h :: B).Nodup →
      st.squashIt tid = InstIt.node tid h →
      ∃ res front seg, squashLoop tid n st u = some res ∧ A ++ [h] = front ++ seg ∧
        seg.length ≤ n ∧
        (∀ q, res.state.insts q = if q ∈ seg then (st.insts q).squashFlags else st.insts q) ∧
        (∀ s1 u1, res = SquashLoop.fell s1 u1 → ∃ y, s1.squashIt tid = InstIt.node tid y) := by
  induction n with
  | zero =>
    intro st A h B u _ _ hit
    refine ⟨SquashLoop.fell st u, A ++ [h], [], rfl, by simp, by simp, by simp [SquashLoop.state],
      ?_⟩
    intro s1 u1 e
    cases e
    exact ⟨h, hit⟩
  | succ n ih =>
    intro st A h B u hlist hnd hit
    unfold squashLoop
    simp only [hit, ne_eq, not_true_eq_false, if_false]
    by_cases hgt : (st.insts h).seqNum > st.squashedSeqNum tid
    · rw [if_pos hgt]
      simp only [hlist]
      by_cases hA : A = []
      · subst hA
        refine ⟨_, [], [h], if_pos (by simp), by simp, by simp, ?_, ?_⟩
        · intro q
          by_cases hq : q = h
          · subst hq; simp [SquashLoop.state, modifyInst_same]
          · simp [SquashLoop.state, modifyInst_other _ _ _ _ hq, hq]
        · intro s1 u1 e
          cases e
      · obtain ⟨A', a, rfl⟩ : ∃ A' a, A = A' ++ [a] := by
          rcases List.eq_nil_or_concat A with h0 | ⟨A', a, h1⟩
          · exact absurd h0 hA
          · exact ⟨A', a, by simpa using h1⟩
        have hnd'' : (A' ++ a :: h :: B).Nodup := by simpa using hnd
        have hhead : ¬ ((A' ++ [a] ++ h :: B).head? = some h) := by
          rw [head_split _ _ _ hnd]
          simp
        obtain ⟨y, hy⟩ := getLast_split (A' ++ [a]) h B
        have hprev : prevNode (A' ++ [a] ++ h :: B) h = some a := by
          have := prevNode_split A' a h B hnd''
          simpa using this
        rw [if_neg hhead]
        simp only [hy, hprev]
        obtain ⟨res, front, seg, hres, hsplit, hlen, hins, hfell⟩ :=
          ih { st with
              insts := modifyInst st.insts h DynInst.squashFlags
              squashIt := setAt st.squashIt tid (InstIt.node tid a) }
            A' a (h :: B) (if h = y then true else u)
            (by simpa using hlist) hnd'' (by simp [setAt_same])
        have hhseg : h ∉ seg := by
          intro hin
          have hmem : h ∈ A' ++ [a] := by rw [hsplit]; simp [hin]
          have hdis := (List.nodup_append.1 hnd).2.2
          exact hdis hmem (by simp) 
        refine ⟨res, front, seg ++ [h], hres, by rw [← List.append_assoc, ← hsplit], ?_, ?_, hfell⟩
        · simp only [List.length_append, List.length_singleton]; omega
        · intro q
          rw [hins q]
          by_cases hq : q = h
          · subst hq
            simp [hhseg, modifyInst_same]
          · by_cases hqs : q ∈ seg
            · simp [hqs, modifyInst_other _ _ _ _ hq]
            · simp [hqs, hq, modifyInst_other _ _ _ _ hq]
    · rw [if_neg hgt]
      refine ⟨SquashLoop.fell st u, A ++ [h], [], rfl, by simp, by simp,
        by simp [SquashLoop.state], ?_⟩
      intro s1 u1 e
      cases e
      exact ⟨h, hit⟩

/-- C15: in a state where the squash cursor of thread `tid` addresses an
element `h` of the (duplicate-free) list, `doSquash(tid)` returns, and the
instruction objects it changes, by giving them the squashed / canCommit /
pending-squash flags, form a block `seg` of at most `squashWidth` consecutive
list elements ending at the cursor; every other instruction object, of this
or any other thread, is left as it was. -/
theorem doSquash_flags_block_at_cursor (s : ROB) (tid : ThreadID) (A : List Nat) (h : Nat)
    (B : List Nat) (hlist : s.instList tid = A ++ h :: B) (hnd : (s.instList tid).Nodup)
    (hit : s.squashIt tid = InstIt.node tid h) :
    ∃ s' front seg, doSquash s tid = some s' ∧ A ++ [h] = front ++ seg ∧
      seg.length ≤ s.squashWidth ∧
      ∀ q, s'.insts q = if q ∈ seg then (s.insts q).squashFlags else s.insts q := by
  unfold doSquash
  simp only [hit, ne_eq, not_true_eq_false, if_false]
  by_cases hlt : (s.insts h).seqNum < s.squashedSeqNum tid
  · rw [if_pos hlt]
    exact ⟨_, A ++ [h], [], rfl, by simp, by simp, by simp⟩
  · rw [if_neg hlt]
    obtain ⟨res, front, seg, hres, hsplit, hlen, hins, hfell⟩ :=
      squashLoop_segment tid s.squashWidth { s with robWrites := s.robWrites + 1 } A h B false
        hlist (by rw [← hlist]; exact hnd) hit
    rw [hres]
    cases res with
    | returned s1 => exact ⟨s1, front, seg, rfl, hsplit, hlen, hins⟩
    | fell s1 u1 =>
      obtain ⟨y, hy⟩ := hfell s1 u1 rfl
      simp only [hy]
      refine ⟨_, front, seg, rfl, hsplit, hlen, ?_⟩
      intro q
      have := hins q
      simp only [SquashLoop.state] at this
      rw [← this]
      cases u1 <;> split_ifs <;> rfl

/-- Scenario S3 after `squash(4, 0)`: the cursor is on 5, and the next
`doSquash` flags exactly the block `[5]`. -/
theorem doSquash_flags_block_at_cursor_witness :
    s3Squashed.instList 0 = [1, 2, 3, 4] ++ 5 :: [6, 7, 8] ∧ (s3Squashed.instList 0).Nodup ∧
    s3Squashed.squashIt 0 = InstIt.node 0 5 ∧
    (doSquash s3Squashed 0).map s3View
      = some ([false, false, false, false, true, true, true, true], true) ∧
    ∃ s' front seg, doSquash s3Squashed 0 = some s' ∧ [1, 2, 3, 4] ++ [5] = front ++ seg ∧
      seg.length ≤ s3Squashed.squashWidth ∧
      ∀ q, s'.insts q = if q ∈ seg then (s3Squashed.insts q).squashFlags
        else s3Squashed.insts q :=
  ⟨by decide, by decide, by decide, by decide,
    doSquash_flags_block_at_cursor s3Squashed 0 [1, 2, 3, 4] 5 [6, 7, 8] (by decide)
      (by decide) (by decide)⟩

end SquashSegment

section PendingSquash

/-- C17: `getResolvedPendingSquashInst(tid)` returns `x` exactly when `x` is
the first instruction from the front of thread `tid`'s list that has a pending
squash, no args taint and is not squashed; it returns the null handle exactly
when the list has no such instruction; and the state is unchanged. -/
theorem getResolvedPendingSquashInst_first (s : ROB) (tid : ThreadID) :
    (∀ x, (getResolvedPendingSquashInst s tid).2 = some x ↔
      ∃ older younger, s.instList tid = older ++ x :: younger ∧
        ((s.insts x).hasPendingSquash = true ∧ (s.insts x).isArgsTainted = false ∧
          (s.insts x).isSquashed = false) ∧
        ∀ y ∈ older, ¬ ((s.insts y).hasPendingSquash = true ∧
          (s.insts y).isArgsTainted = false ∧ (s.insts y).isSquashed = false)) ∧
    ((getResolvedPendingSquashInst s tid).2 = none ↔
      ∀ y ∈ s.instList tid, ¬ ((s.insts y).hasPendingSquash = true ∧
        (s.insts y).isArgsTainted = false ∧ (s.insts y).isSquashed = false)) ∧
    (getResolvedPendingSquashInst s tid).1 = s := by
  have hp : ∀ y, ((s.insts y).hasPendingSquash && !(s.insts y).isArgsTainted
      && !(s.insts y).isSquashed) = true ↔
      ((s.insts y).hasPendingSquash = true ∧ (s.insts y).isArgsTainted = false ∧
        (s.insts y).isSquashed = false) := by
    intro y
    cases (s.insts y).hasPendingSquash <;> cases (s.insts y).isArgsTainted <;>
      cases (s.insts y).isSquashed <;> simp
  refine ⟨?_, ?_, rfl⟩
  · intro x
    unfold getResolvedPendingSquashInst
    simp only []
    rw [List.find?_eq_some]
    constructor
    · rintro ⟨hx, older, younger, hl, hold⟩
      refine ⟨older, younger, hl, (hp x).1 hx, ?_⟩
      intro y hy hcontra
      have := hold y hy
      rw [(hp y).2 hcontra] at this
      exact absurd this (by simp)
    · rintro ⟨older, younger, hl, hx, hold⟩
      refine ⟨(hp x).2 hx, older, younger, hl, ?_⟩
      intro y hy
      have hn : ¬ ((s.insts y).hasPendingSquash && !(s.insts y).isArgsTainted
          && !(s.insts y).isSquashed) = true := fun h => hold y hy ((hp y).1 h)
      rw [Bool.not_eq_true']
      exact Bool.eq_false_iff.2 hn
  · unfold getResolvedPendingSquashInst
    simp only []
    rw [List.find?_eq_none]
    constructor
    · intro h y hy hcontra
      exact h y hy ((hp y).2 hcontra)
    · intro h y hy hcontra
      exact h y hy ((hp y).1 hcontra)

end PendingSquash

section BrsCommitted

theorem nextRunning_brsCommitted (r : Running) (d : DynInst) :
    (nextRunning r d).prevBrsCommitted = true ↔
      r.prevBrsCommitted = true ∧ d.isControl = false := by
  unfold nextRunning
  cases d.isControl <;> simp

/-- The boolean `prevBrsCommitted` survives a stretch of the list exactly when
the stretch holds no control instruction. -/
theorem runningAfter_brsCommitted (m : InstMem) (older : List Nat) (r : Running) :
    (runningAfter m older r).prevBrsCommitted = true ↔
      r.prevBrsCommitted = true ∧ ∀ J ∈ older, (m J).isControl = false := by
  induction older generalizing r with
  | nil => simp [runningAfter]
  | cons y older ih =>
    rw [runningAfter_cons, ih, nextRunning_brsCommitted]
    constructor
    · rintro ⟨⟨h1, h2⟩, h3⟩
      refine ⟨h1, ?_⟩
      intro J hJ
      rcases List.mem_cons.1 hJ with rfl | hJ'
      · exact h2
      · exact h3 J hJ'
    · rintro ⟨h1, h2⟩
      exact ⟨⟨h1, h2 y (by simp)⟩, fun J hJ => h2 J (by simp [hJ])⟩

theorem brsCommitted_writes (cpu : O3CPU) (r : Running) (d : DynInst) :
    (deriveUnsquashable cpu (setPrevFlags r d)).isPrevBrsCommitted =
      (r.prevBrsCommitted || d.isPrevBrsCommitted) := by
  have h1 : ∀ e : DynInst, (deriveUnsquashable cpu e).isPrevBrsCommitted = e.isPrevBrsCommitted := by
    intro e
    unfold deriveUnsquashable
    split_ifs <;> rfl
  rw [h1]
  rcases r with ⟨a, b, c, e⟩
  cases a <;> cases b <;> cases c <;> cases e <;> rfl

/-- C20: in a well-formed state, for an active thread whose instructions all
start with `isPrevBrsCommitted` clear, after `updateVisibleState` the flag of
a listed instruction `inst` is set exactly when no older instruction of the
list is a control instruction.  The traversal can stop in front of `inst`
(both `prevInstsComplete` and `prevBrsResolved` false there) only when some
older instruction is a control instruction, so the early `break` skips no
instruction that is due the flag. -/
theorem updateVisibleState_prevBrsCommitted_iff (cpu : O3CPU) (s : ROB) (tid : ThreadID)
    (older : List Nat) (inst : Nat) (younger : List Nat)
    (hwf : ListsWellFormed s) (hact : tid ∈ s.activeThreads)
    (hclear : ∀ x ∈ s.instList tid, (s.insts x).isPrevBrsCommitted = false)
    (hsplit : s.instList tid = older ++ inst :: younger) :
    (((updateVisibleState cpu s).insts inst).isPrevBrsCommitted = true ↔
      ∀ J ∈ older, (s.insts J).isControl = false) ∧
    (((runningAfter s.insts older ⟨true, true, true, true⟩).prevInstsComplete = false ∧
        (runningAfter s.insts older ⟨true, true, true, true⟩).prevBrsResolved = false) →
      ∃ J ∈ older, (s.insts J).isControl = true) := by
  have hstop : (runningAfter s.insts older ⟨true, true, true, true⟩).prevBrsResolved = false →
      ∃ J ∈ older, (s.insts J).isControl = true := by
    intro hb
    by_contra hno
    have hall : ∀ J ∈ older, (s.insts J).isControl = true →
        (s.insts J).readyToCommit = true ∧ (s.insts J).getFault = false ∧
        (s.insts J).isSquashed = false := fun J hJ hc => absurd ⟨J, hJ, hc⟩ hno
    have := (runningAfter_brs s.insts older ⟨true, true, true, true⟩).2 ⟨rfl, hall⟩
    rw [hb] at this
    exact absurd this (by simp)
  refine ⟨?_, fun h => hstop h.2⟩
  have hc0 : (s.insts inst).isPrevBrsCommitted = false := hclear inst (by rw [hsplit]; simp)
  rw [updateVisibleState_at cpu s tid older inst younger hwf hact hsplit]
  constructor
  · intro hflag
    split_ifs at hflag with hv
    · rw [brsCommitted_writes, hc0, Bool.or_false] at hflag
      exact ((runningAfter_brsCommitted s.insts older _).1 hflag).2
    · rw [hc0] at hflag
      exact absurd hflag (by simp)
  · intro hno
    have hpbc := (runningAfter_brsCommitted s.insts older ⟨true, true, true, true⟩).2 ⟨rfl, hno⟩
    have hpbr : (runningAfter s.insts older ⟨true, true, true, true⟩).prevBrsResolved = true := by
      cases hb : (runningAfter s.insts older ⟨true, true, true, true⟩).prevBrsResolved with
      | true => rfl
      | false =>
        obtain ⟨J, hJ, hc⟩ := hstop hb
        rw [hno J hJ] at hc
        exact absurd hc (by simp)
    rw [if_pos (by rw [hpbr]; simp), brsCommitted_writes, hpbc]
    rfl

/-- Scenario S5: the branch `2` has only the add `1` in front of it and gets
`isPrevBrsCommitted`; the add `3` sits behind the branch and does not. -/
theorem updateVisibleState_prevBrsCommitted_iff_witness :
    ListsWellFormed s5ROB ∧ 0 ∈ s5ROB.activeThreads ∧
    (∀ x ∈ s5ROB.instList 0, (s5ROB.insts x).isPrevBrsCommitted = false) ∧
    s5ROB.instList 0 = [1] ++ 2 :: [3] ∧
    ((updateVisibleState sttCPU s5ROB).insts 2).isPrevBrsCommitted = true ∧
    ((updateVisibleState sttCPU s5ROB).insts 3).isPrevBrsCommitted = false :=
  ⟨by decide, by decide, by decide, rfl,
    (updateVisibleState_prevBrsCommitted_iff sttCPU s5ROB 0 [1] 2 [3] (by decide) (by decide)
      (by decide) rfl).1.2 (by decide),
    by decide⟩

end BrsCommitted

section TaintAt

theorem mem_drop_one_range (n i : Nat) : i ∈ (List.range n).drop 1 ↔ 1 ≤ i ∧ i < n := by
  cases n with
  | zero => simp
  | succ n =>
    rw [List.range_succ_eq_map]
    simp only [List.drop_succ_cons, List.drop_zero, List.mem_map, List.mem_range]
    constructor
    · rintro ⟨a, ha, rfl⟩
      omega
    · rintro ⟨h1, h2⟩
      exact ⟨i - 1, by omega, by omega⟩

/-- A producer scan that completes answers `true` exactly when one of the
scanned slots names a producer that is dest-tainted and not committed. -/
theorem taintedProducer_iff (tid : ThreadID) (inst : Nat) (m : InstMem) (idxs : List Nat)
    (b : Bool) (h : taintedProducer tid inst m idxs = some b) :
    b = true ↔ ∃ i ∈ idxs, ∃ p, (m inst).getArgProducer i = some p ∧
      (m p).isDestTainted = true ∧ (m p).isCommitted = false := by
  induction idxs with
  | nil =>
    unfold taintedProducer at h
    cases Option.some.inj h
    simp
  | cons i idxs ih =>
    unfold taintedProducer at h
    cases hs : (m inst).getArgProducer i with
    | none =>
      rw [hs] at h
      rw [ih h]
      constructor
      · rintro ⟨j, hj, p, hp⟩
        exact ⟨j, by simp [hj], p, hp⟩
      · rintro ⟨j, hj, p, hp, hrest⟩
        rcases List.mem_cons.1 hj with rfl | hj'
        · rw [hs] at hp; exact absurd hp (by simp)
        · exact ⟨j, hj', p, hp, hrest⟩
    | some p0 =>
      rw [hs] at h
      by_cases ht : (m p0).threadNumber ≠ tid
      · simp [ht] at h
      · simp only [ht, if_false] at h
        by_cases hd : ((m p0).isDestTainted && !(m p0).isCommitted) = true
        · rw [if_pos hd] at h
          cases Option.some.inj h
          have hd' : (m p0).isDestTainted = true ∧ (m p0).isCommitted = false := by
            revert hd
            cases (m p0).isDestTainted <;> cases (m p0).isCommitted <;> simp
          simp only [true_iff]
          exact ⟨i, by simp, p0, hs, hd'.1, hd'.2⟩
        · rw [if_neg hd] at h
          rw [ih h]
          constructor
          · rintro ⟨j, hj, p, hp⟩
            exact ⟨j, by simp [hj], p, hp⟩
          · rintro ⟨j, hj, p, hp, h1, h2⟩
            rcases List.mem_cons.1 hj with rfl | hj'
            · rw [hs] at hp
              cases Option.some.inj hp
              exact absurd (by rw [h1, h2]; rfl) hd
            · exact ⟨j, hj', p, hp, h1, h2⟩

theorem taintInst_frame (cpu : O3CPU) (tid : ThreadID) (older : List Nat) (inst : Nat)
    (m m1 : InstMem) (h : taintInst cpu tid older inst m = some m1) :
    (∀ q, q ≠ inst → m1 q = m q) ∧ (∀ q, (m1 q).eraseTaint = (m q).eraseTaint) := by
  obtain ⟨b, c, a, -, -, -, hm1⟩ := taintInst_some cpu tid older inst m m1 h
  subst hm1
  refine ⟨fun q hq => modifyInst_other _ _ _ _ hq, ?_⟩
  intro q
  by_cases hq : q = inst
  · subst hq; rw [modifyInst_same, eraseTaint_taintWrites]
  · rw [modifyInst_other _ _ _ _ hq]

theorem taintLoop_frame (cpu : O3CPU) (tid : ThreadID) (l older : List Nat) (m m' : InstMem)
    (h : taintLoop cpu tid older l m = some m') :
    (∀ q, q ∉ l → m' q = m q) ∧ (∀ q, (m' q).eraseTaint = (m q).eraseTaint) := by
  induction l generalizing older m with
  | nil =>
    unfold taintLoop at h
    cases Option.some.inj h
    exact ⟨fun _ _ => rfl, fun _ => rfl⟩
  | cons x l ih =>
    unfold taintLoop at h
    cases h1 : taintInst cpu tid older x m with
    | none => rw [h1] at h; exact absurd h (by simp)
    | some m1 =>
      rw [h1] at h
      simp only [Option.some_bind] at h
      obtain ⟨f1, f2⟩ := taintInst_frame cpu tid older x m m1 h1
      obtain ⟨i1, i2⟩ := ih (older ++ [x]) m1 h
      refine ⟨?_, fun q => (i2 q).trans (f2 q)⟩
      intro q hq
      rw [i1 q (fun hin => hq (by simp [hin])), f1 q (fun e => hq (by simp [e]))]

theorem taintThreads_frame (cpu : O3CPU) (lists : ThreadID → List Nat) (ts : List ThreadID)
    (m m' : InstMem) (h : taintThreads cpu lists ts m = some m') :
    (∀ q, (∀ t ∈ ts, q ∉ lists t) → m' q = m q) ∧
    (∀ q, (m' q).eraseTaint = (m q).eraseTaint) := by
  induction ts generalizing m with
  | nil =>
    unfold taintThreads at h
    cases Option.some.inj h
    exact ⟨fun _ _ => rfl, fun _ => rfl⟩
  | cons t ts ih =>
    unfold taintThreads at h
    cases h1 : taintLoop cpu t [] (lists t) m with
    | none => rw [h1] at h; exact absurd h (by simp)
    | some m1 =>
      rw [h1] at h
      simp only [Option.some_bind] at h
      obtain ⟨f1, f2⟩ := taintLoop_frame cpu t (lists t) [] m m1 h1
      obtain ⟨i1, i2⟩ := ih m1 h
      refine ⟨?_, fun q => (i2 q).trans (f2 q)⟩
      intro q hq
      rw [i1 q (fun t' ht' => hq t' (by simp [ht'])), f1 q (hq t (by simp))]

/-- A run of the taint loop over `o ++ x :: y` splits into the run over `o`,
the iteration on `x` and the run over `y`. -/
theorem taintLoop_split (cpu : O3CPU) (tid : ThreadID) (o : List Nat) (x : Nat) (y : List Nat)
    (pre : List Nat) (m0 m' : InstMem)
    (h : taintLoop cpu tid pre (o ++ x :: y) m0 = some m') :
    ∃ m m1, taintLoop cpu tid pre o m0 = some m ∧
      taintInst cpu tid (pre ++ o) x m = some m1 ∧
      taintLoop cpu tid (pre ++ o ++ [x]) y m1 = some m' := by
  induction o generalizing pre m0 with
  | nil =>
    simp only [List.nil_append] at h
    unfold taintLoop at h
    cases h1 : taintInst cpu tid pre x m0 with
    | none => rw [h1] at h; exact absurd h (by simp)
    | some m1 =>
      rw [h1] at h
      simp only [Option.some_bind] at h
      refine ⟨m0, m1, by unfold taintLoop; rfl, by simpa using h1, by simpa using h⟩
  | cons z o ih =>
    simp only [List.cons_append] at h
    unfold taintLoop at h
    cases h1 : taintInst cpu tid pre z m0 with
    | none => rw [h1] at h; exact absurd h (by simp)
    | some mz =>
      rw [h1] at h
      simp only [Option.some_bind] at h
      obtain ⟨m, m1, r1, r2, r3⟩ := ih (pre ++ [z]) mz h
      refine ⟨m, m1, ?_, by simpa using r2, by simpa using r3⟩
      unfold taintLoop
      rw [h1]
      simpa using r1

end TaintAt

section TaintAtThreads

/-- The taint loop over a duplicate-free list, seen from one of its elements
`x`: `m` is the store when `x` is visited, `m1` the store right after; the
final store agrees with `m1` on `x` and with `m` on everything that is not `x`
or behind it. -/
theorem taintLoop_at (cpu : O3CPU) (tid : ThreadID) (o : List Nat) (x : Nat) (y : List Nat)
    (m0 m' : InstMem) (h : taintLoop cpu tid [] (o ++ x :: y) m0 = some m')
    (hnd : (o ++ x :: y).Nodup) :
    ∃ m m1, taintInst cpu tid o x m = some m1 ∧ m' x = m1 x ∧
      (∀ q, q ∉ x :: y → m' q = m q) ∧
      (∀ q, (m q).eraseTaint = (m0 q).eraseTaint) ∧
      (∀ q, q ∉ o → m q = m0 q) := by
  obtain ⟨m, m1, r1, r2, r3⟩ := taintLoop_split cpu tid o x y [] m0 m' h
  have hxy : x ∉ y := (List.nodup_cons.1 (List.nodup_append.1 hnd).2.1).1
  obtain ⟨f1, f2⟩ := taintLoop_frame cpu tid o [] m0 m r1
  obtain ⟨g1, -⟩ := taintInst_frame cpu tid _ x m m1 r2
  obtain ⟨k1, -⟩ := taintLoop_frame cpu tid y _ m1 m' r3
  refine ⟨m, m1, by simpa using r2, k1 x hxy, ?_, f2, f1⟩
  intro q hq
  rw [k1 q (fun hin => hq (by simp [hin])), g1 q (fun e => hq (by simp [e]))]

/-- The whole taint pass seen from an instruction `x` listed under thread
`tid`, when the lists walked are duplicate-free and pairwise disjoint. -/
theorem taintThreads_at (cpu : O3CPU) (lists : ThreadID → List Nat) (ts : List ThreadID)
    (m0 m' : InstMem) (tid : ThreadID) (older : List Nat) (x : Nat) (younger : List Nat)
    (hrun : taintThreads cpu lists ts m0 = some m')
    (hts : ts.Nodup) (ht : tid ∈ ts) (hsplit : lists tid = older ++ x :: younger)
    (hnd : (lists tid).Nodup)
    (hdisj : ∀ t' ∈ ts, t' ≠ tid → ∀ z ∈ lists tid, z ∉ lists t') :
    ∃ m m1, taintInst cpu tid older x m = some m1 ∧ m' x = m1 x ∧
      (∀ q, (q ∈ older ∨ ∀ t ∈ ts, q ∉ lists t) → m' q = m q) ∧
      (∀ q, (m q).eraseTaint = (m0 q).eraseTaint) ∧
      (∀ q, (∀ t ∈ ts, q ∉ lists t) → m q = m0 q) := by
  induction ts generalizing m0 with
  | nil => exact absurd ht (by simp)
  | cons t' ts ih =>
    have hts' : ts.Nodup := (List.nodup_cons.1 hts).2
    have ht'ts : t' ∉ ts := (List.nodup_cons.1 hts).1
    have hxmem : x ∈ lists tid := by rw [hsplit]; simp
    unfold taintThreads at hrun
    cases h1 : taintLoop cpu t' [] (lists t') m0 with
    | none => rw [h1] at hrun; exact absurd hrun (by simp)
    | some ma =>
      rw [h1] at hrun
      simp only [Option.some_bind] at hrun
      by_cases htt : t' = tid
      · subst htt
        rw [hsplit] at h1 hnd
        obtain ⟨m, m1, r1, r2, r3, r4, r5⟩ := taintLoop_at cpu t' older x younger m0 ma h1 hnd
        obtain ⟨f1, -⟩ := taintThreads_frame cpu lists ts ma m' hrun
        have hout : ∀ z ∈ lists t', ∀ t ∈ ts, z ∉ lists t := by
          intro z hz t htin hzt
          have hne : t ≠ t' := fun e => ht'ts (e ▸ htin)
          exact hdisj t (by simp [htin]) hne z hz hzt
        have hxo : x ∉ older := by
          intro hin
          have := (List.nodup_append.1 hnd).2.2
          exact this hin (by simp)
        have holdnd : ∀ q ∈ older, q ∉ x :: younger := by
          intro q hq hin
          exact (List.nodup_append.1 hnd).2.2 hq hin
        refine ⟨m, m1, r1, ?_, ?_, r4, ?_⟩
        · rw [f1 x (hout x hxmem), r2]
        · intro q hq
          rcases hq with hq | hq
          · rw [f1 q (hout q (by rw [hsplit]; simp [hq])), r3 q (holdnd q hq)]
          · have hq' : q ∉ x :: younger := by
              intro hin
              exact hq t' (by simp) (by rw [hsplit]; simp [List.mem_cons.1 hin])
            rw [f1 q (fun t htin => hq t (by simp [htin])), r3 q hq']
        · intro q hq
          apply r5
          intro hin
          exact hq t' (by simp) (by rw [hsplit]; simp [hin])
      · have htin : tid ∈ ts := by
          rcases List.mem_cons.1 ht with e | e
          · exact absurd e.symm htt
          · exact e
        obtain ⟨m, m1, r1, r2, r3, r4, r5⟩ := ih ma hrun hts' htin
          (fun t'' ht'' hne => hdisj t'' (by simp [ht'']) hne)
        obtain ⟨f1, f2⟩ := taintLoop_frame cpu t' (lists t') [] m0 ma h1
        refine ⟨m, m1, r1, r2, ?_, fun q => (r4 q).trans (f2 q), ?_⟩
        · intro q hq
          rcases hq with hq | hq
          · exact r3 q (Or.inl hq)
          · exact r3 q (Or.inr (fun t htin' => hq t (by simp [htin'])))
        · intro q hq
          rw [r5 q (fun t htin' => hq t (by simp [htin'])), f1 q (hq t' (by simp))]

/-- The taint pass seen from an instruction `x` listed under an active
thread of a well-formed state: `m` is the store when `x` is visited (static
fields as at the start), the iteration on `x` turns it into `m1`, and the
final state agrees with `m1` on `x` and with `m` on the instructions older
than `x` and on those outside every active list. -/
theorem compute_taint_at (cpu : O3CPU) (s s' : ROB) (tid : ThreadID) (older : List Nat)
    (x : Nat) (younger : List Nat) (hrun : compute_taint cpu s = some s')
    (hwf : ListsWellFormed s) (hact : tid ∈ s.activeThreads)
    (hsplit : s.instList tid = older ++ x :: younger) :
    ∃ m m1, taintInst cpu tid older x m = some m1 ∧ s'.insts x = m1 x ∧
      (∀ q, (q ∈ older ∨ ∀ t ∈ s.activeThreads, q ∉ s.instList t) → s'.insts q = m q) ∧
      (∀ q, (m q).eraseTaint = (s.insts q).eraseTaint) ∧
      (∀ q, (∀ t ∈ s.activeThreads, q ∉ s.instList t) → m q = s.insts q) ∧
      x ∉ older := by
  obtain ⟨-, m', hm', hs'⟩ := compute_taint_some cpu s s' hrun
  subst hs'
  obtain ⟨hasc, hthr, hnd⟩ := hwf
  have hndl : (s.instList tid).Nodup := nodup_of_seq_ascending s.insts _ (hasc tid hact)
  obtain ⟨m, m1, r1, r2, r3, r4, r5⟩ := taintThreads_at cpu s.instList s.activeThreads s.insts m'
    tid older x younger hm' hnd hact hsplit hndl
    (fun t' ht' hne z hz hz' => hne ((hthr t' ht' z hz').symm.trans (hthr tid hact z hz)))
  refine ⟨m, m1, r1, r2, r3, r4, r5, ?_⟩
  intro hin
  rw [hsplit] at hndl
  exact (List.nodup_append.1 hndl).2.2 hin (by simp)

end TaintAtThreads

section TaintFlows

theorem taintWrites_flags (b c a : Bool) (d : DynInst) :
    (taintWrites b c a d).hasExplicitFlow = b ∧ (taintWrites b c a d).hasImplicitFlow = c ∧
    (taintWrites b c a d).isAddrTainted = a := by
  unfold taintWrites setTaint
  cases h1 : d.isAccess <;> cases h2 : d.isUnsquashable <;>
    simp [DynInst.setExplicitFlow, DynInst.setImplicitFlow, DynInst.setAddrTainted,
      DynInst.setArgsTainted, DynInst.setDestTainted, h1, h2]

theorem eraseTaint_fields (d e : DynInst) (h : d.eraseTaint = e.eraseTaint) :
    d.numSrcRegs = e.numSrcRegs ∧ d.getArgProducer = e.getArgProducer ∧
    d.isMemRef = e.isMemRef ∧ d.isStore = e.isStore ∧ d.isLoad = e.isLoad ∧
    d.isControl = e.isControl ∧ d.isCommitted = e.isCommitted :=
  ⟨congrArg (fun z => z.numSrcRegs) h, congrArg (fun z => z.getArgProducer) h,
    congrArg (fun z => z.isMemRef) h, congrArg (fun z => z.isStore) h,
    congrArg (fun z => z.isLoad) h, congrArg (fun z => z.isControl) h,
    congrArg (fun z => z.isCommitted) h⟩

/-- C19: after a `compute_taint` that ran to completion on a well-formed
state, an instruction `inst` listed under an active thread has
`hasImplicitFlow` exactly when `impChannel` is on and some older instruction
of the same list is a control instruction with `hasExplicitFlow` (as the pass
left it); with `impChannel` off `hasImplicitFlow` is false. -/
theorem compute_taint_implicit_flow (cpu : O3CPU) (s s' : ROB) (tid : ThreadID)
    (older : List Nat) (inst : Nat) (younger : List Nat)
    (hrun : compute_taint cpu s = some s') (hwf : ListsWellFormed s)
    (hact : tid ∈ s.activeThreads) (hsplit : s.instList tid = older ++ inst :: younger) :
    ((s'.insts inst).hasImplicitFlow = true ↔
      cpu.impChannel = true ∧
      ∃ p ∈ older, (s'.insts p).isControl = true ∧ (s'.insts p).hasExplicitFlow = true) ∧
    (cpu.impChannel = false → (s'.insts inst).hasImplicitFlow = false) := by
  obtain ⟨m, m1, r1, r2, r3, -, -, hxo⟩ :=
    compute_taint_at cpu s s' tid older inst younger hrun hwf hact hsplit
  obtain ⟨b, c, a, -, -, hc, hm1⟩ := taintInst_some cpu tid older inst m m1 r1
  have hflag : (s'.insts inst).hasImplicitFlow = c := by
    rw [r2, hm1, modifyInst_same]
    exact (taintWrites_flags b c a _).2.1
  have hany : older.any (fun p =>
      (modifyInst m inst (fun d => d.setExplicitFlow b) p).isControl &&
      (modifyInst m inst (fun d => d.setExplicitFlow b) p).hasExplicitFlow) = true ↔
      ∃ p ∈ older, (s'.insts p).isControl = true ∧ (s'.insts p).hasExplicitFlow = true := by
    rw [List.any_eq_true]
    constructor
    · rintro ⟨p, hp, hpc⟩
      have hne : p ≠ inst := fun e => hxo (e ▸ hp)
      rw [modifyInst_other _ _ _ _ hne, ← r3 p (Or.inl hp)] at hpc
      refine ⟨p, hp, ?_⟩
      revert hpc
      cases (s'.insts p).isControl <;> cases (s'.insts p).hasExplicitFlow <;> simp
    · rintro ⟨p, hp, h1, h2⟩
      have hne : p ≠ inst := fun e => hxo (e ▸ hp)
      refine ⟨p, hp, ?_⟩
      rw [modifyInst_other _ _ _ _ hne, ← r3 p (Or.inl hp), h1, h2]
      rfl
  refine ⟨?_, ?_⟩
  · rw [hflag, hc, Bool.and_eq_true, hany]
  · intro himp
    rw [hflag, hc, himp]
    rfl

/-- Mixed scenario with the implicit channel on: the branch `4` ends with
explicit flow, so the plain instruction `5` behind it ends with implicit
flow, while the branch itself, with no tainted branch in front, does not. -/
theorem compute_taint_implicit_flow_witness :
    compute_taint sttImplicitCPU taintMixROB = some taintMixDone ∧
    ListsWellFormed taintMixROB ∧ 0 ∈ taintMixROB.activeThreads ∧
    taintMixROB.instList 0 = [1, 2, 3, 4] ++ 5 :: [] ∧
    (taintMixDone.insts 4).hasExplicitFlow = true ∧
    (taintMixDone.insts 4).hasImplicitFlow = false ∧
    (taintMixDone.insts 5).hasImplicitFlow = true :=
  ⟨rfl, by decide, by decide, rfl, by decide, by decide,
    (compute_taint_implicit_flow sttImplicitCPU taintMixROB taintMixDone 0 [1, 2, 3, 4] 5 []
      rfl (by decide) (by decide) rfl).1.2 ⟨rfl, 4, by decide, by decide, by decide⟩⟩

end TaintFlows

section AddressFlow

/-- C18: after a `compute_taint` that ran to completion on a well-formed
state, for an instruction `inst` listed under an active thread whose producer
slots name older instructions of its list (or instructions no longer listed):
if `inst` is not a memory reference `isAddrTainted` is false; if it is a store,
`isAddrTainted` holds exactly when some source `i >= 1` has a producer that is
dest-tainted and not committed; if it is a load and not a store, exactly when
some source `i >= 0` has such a producer.  `hasExplicitFlow` holds exactly
when some source `i >= 0` has such a producer, so a store whose only tainted
producer feeds source 0 has explicit flow and no address taint. -/
theorem compute_taint_addr_flow (cpu : O3CPU) (s s' : ROB) (tid : ThreadID)
    (older : List Nat) (inst : Nat) (younger : List Nat)
    (hrun : compute_taint cpu s = some s') (hwf : ListsWellFormed s)
    (hact : tid ∈ s.activeThreads) (hsplit : s.instList tid = older ++ inst :: younger)
    (hprod : ∀ i < (s.insts inst).numSrcRegs, ∀ p, (s.insts inst).getArgProducer i = some p →
      p ∈ older ∨ ∀ t ∈ s.activeThreads, p ∉ s.instList t) :
    ((s'.insts inst).isMemRef = false → (s'.insts inst).isAddrTainted = false) ∧
    ((s'.insts inst).isMemRef = true → (s'.insts inst).isStore = true →
      ((s'.insts inst).isAddrTainted = true ↔
        ∃ i, 1 ≤ i ∧ i < (s'.insts inst).numSrcRegs ∧
          ∃ p, (s'.insts inst).getArgProducer i = some p ∧
            (s'.insts p).isDestTainted = true ∧ (s'.insts p).isCommitted = false)) ∧
    ((s'.insts inst).isMemRef = true → (s'.insts inst).isStore = false →
      (s'.insts inst).isLoad = true →
      ((s'.insts inst).isAddrTainted = true ↔
        ∃ i, i < (s'.insts inst).numSrcRegs ∧
          ∃ p, (s'.insts inst).getArgProducer i = some p ∧
            (s'.insts p).isDestTainted = true ∧ (s'.insts p).isCommitted = false)) ∧
    ((s'.insts inst).hasExplicitFlow = true ↔
      ∃ i, i < (s'.insts inst).numSrcRegs ∧
        ∃ p, (s'.insts inst).getArgProducer i = some p ∧
          (s'.insts p).isDestTainted = true ∧ (s'.insts p).isCommitted = false) := by
  obtain ⟨m, m1, r1, r2, r3, r4, -, -⟩ :=
    compute_taint_at cpu s s' tid older inst younger hrun hwf hact hsplit
  obtain ⟨b, c, a, hb, ha, -, hm1⟩ := taintInst_some cpu tid older inst m m1 r1
  have hobj : s'.insts inst = taintWrites b c a (m inst) := by
    rw [r2, hm1, modifyInst_same]
  obtain ⟨eN, eS, -⟩ := eraseTaint_fields (m inst) (s.insts inst) (r4 inst)
  obtain ⟨fN, fS, fM, fSt, fL, -⟩ := eraseTaint_fields (s'.insts inst) (m inst)
    (by rw [hobj, eraseTaint_taintWrites])
  obtain ⟨gE, -, gA⟩ := taintWrites_flags b c a (m inst)
  rw [← hobj] at gE gA
  have conv : ∀ i, i < (m inst).numSrcRegs → ∀ p,
      ((m inst).getArgProducer i = some p ∧ (m p).isDestTainted = true ∧
        (m p).isCommitted = false) ↔
      ((s'.insts inst).getArgProducer i = some p ∧ (s'.insts p).isDestTainted = true ∧
        (s'.insts p).isCommitted = false) := by
    intro i hi p
    rw [fS]
    constructor
    · rintro ⟨h1, h2, h3⟩
      have hp := hprod i (by rw [← eN]; exact hi) p (by rw [← eS]; exact h1)
      rw [r3 p hp]
      exact ⟨h1, h2, h3⟩
    · rintro ⟨h1, h2, h3⟩
      have hp := hprod i (by rw [← eN]; exact hi) p (by rw [← eS]; exact h1)
      rw [r3 p hp] at h2 h3
      exact ⟨h1, h2, h3⟩
  have hall : (b = true ↔ ∃ i, i < (s'.insts inst).numSrcRegs ∧
      ∃ p, (s'.insts inst).getArgProducer i = some p ∧
        (s'.insts p).isDestTainted = true ∧ (s'.insts p).isCommitted = false) := by
    rw [taintedProducer_iff tid inst m _ b hb, fN]
    constructor
    · rintro ⟨i, hi, p, hp⟩
      exact ⟨i, List.mem_range.1 hi, p, (conv i (List.mem_range.1 hi) p).1 hp⟩
    · rintro ⟨i, hi, p, hp⟩
      exact ⟨i, List.mem_range.2 hi, p, (conv i hi p).2 hp⟩
  refine ⟨?_, ?_, ?_, by rw [gE]; exact hall⟩
  · intro hmr
    rw [fM] at hmr
    unfold addressScan at ha
    rw [hmr] at ha
    simp only [Bool.false_eq_true, if_false] at ha
    rw [gA]
    exact (Option.some.inj ha).symm
  · intro hmr hst
    rw [fM] at hmr
    rw [fSt] at hst
    unfold addressScan at ha
    rw [hmr, hst] at ha
    simp only [if_true] at ha
    rw [gA, taintedProducer_iff tid inst m _ a ha, fN]
    constructor
    · rintro ⟨i, hi, p, hp⟩
      obtain ⟨h1, h2⟩ := (mem_drop_one_range _ _).1 hi
      exact ⟨i, h1, h2, p, (conv i h2 p).1 hp⟩
    · rintro ⟨i, h1, h2, p, hp⟩
      exact ⟨i, (mem_drop_one_range _ _).2 ⟨h1, h2⟩, p, (conv i h2 p).2 hp⟩
  · intro hmr hst hld
    rw [fM] at hmr
    rw [fSt] at hst
    rw [fL] at hld
    unfold addressScan at ha
    rw [hmr, hst, hld] at ha
    simp only [if_true, Bool.false_eq_true, if_false] at ha
    rw [gA, taintedProducer_iff tid inst m _ a ha, fN]
    constructor
    · rintro ⟨i, hi, p, hp⟩
      exact ⟨i, List.mem_range.1 hi, p, (conv i (List.mem_range.1 hi) p).1 hp⟩
    · rintro ⟨i, hi, p, hp⟩
      exact ⟨i, List.mem_range.2 hi, p, (conv i hi p).2 hp⟩

/-- Mixed scenario: the store `2` takes its data operand (source 0) from the
tainted access `1` and ends with explicit flow but no address taint; the load
`3` takes source 0 from `1` and ends address-tainted. -/
theorem compute_taint_addr_flow_witness :
    compute_taint sttImplicitCPU taintMixROB = some taintMixDone ∧
    ListsWellFormed taintMixROB ∧ 0 ∈ taintMixROB.activeThreads ∧
    taintMixROB.instList 0 = [1, 2] ++ 3 :: [4, 5] ∧
    (∀ i < (taintMixROB.insts 3).numSrcRegs, ∀ p,
      (taintMixROB.insts 3).getArgProducer i = some p →
      p ∈ [1, 2] ∨ ∀ t ∈ taintMixROB.activeThreads, p ∉ taintMixROB.instList t) ∧
    ((taintMixDone.insts 2).hasExplicitFlow = true ∧
      (taintMixDone.insts 2).isAddrTainted = false) ∧
    (taintMixDone.insts 3).isAddrTainted = true :=
  ⟨rfl, by decide, by decide, rfl, by decide, by decide,
    ((compute_taint_addr_flow sttImplicitCPU taintMixROB taintMixDone 0 [1, 2] 3 [4, 5]
      rfl (by decide) (by decide) rfl (by decide)).2.2.1 (by decide) (by decide)
      (by decide)).2 ⟨0, by decide, 1, by decide, by decide, by decide⟩⟩

end AddressFlow

section Threshold

theorem resetEntriesLoop_threshold (s : ROB) (n : Nat)
    (hpol : s.robPolicy = ROBPolicy.Threshold) (ts : List ThreadID) (maxE : ThreadID → Nat)
    (t : ThreadID) :
    resetEntriesLoop s n ts maxE t = if n = 1 ∧ t ∈ ts then s.numEntries else maxE t := by
  have hnp : ¬ s.robPolicy = ROBPolicy.Partitioned := by rw [hpol]; decide
  induction ts generalizing maxE with
  | nil => simp [resetEntriesLoop]
  | cons t' ts ih =>
    unfold resetEntriesLoop
    rw [if_neg hnp]
    by_cases hn : n = 1
    · rw [if_pos ⟨hpol, hn⟩, ih]
      by_cases h1 : t ∈ ts
      · simp [h1, hn]
      · by_cases h2 : t = t'
        · subst h2; simp [hn, setAt_same]
        · simp [h1, h2, hn, setAt_other _ _ _ _ h2]
    · rw [if_neg (fun h => hn h.2), ih]
      simp [hn]

/-- What `resetEntries` does to one maximum under the Threshold policy. -/
theorem resetEntries_threshold (s : ROB) (hpol : s.robPolicy = ROBPolicy.Threshold)
    (t : ThreadID) :
    (resetEntries s).maxEntries t =
      if s.activeThreads.length = 1 ∧ t ∈ s.activeThreads then s.numEntries
      else s.maxEntries t := by
  have hguard : s.robPolicy ≠ ROBPolicy.Dynamic ∨ s.numThreads > 1 := by
    left; rw [hpol]; decide
  unfold resetEntries
  rw [if_pos hguard]
  exact resetEntriesLoop_threshold s _ hpol _ _ t

theorem resetEntries_config (s : ROB) :
    (resetEntries s).robPolicy = s.robPolicy ∧ (resetEntries s).numEntries = s.numEntries := by
  unfold resetEntries
  split_ifs <;> exact ⟨rfl, rfl⟩

theorem resetSeq_config (seq : List (List ThreadID)) (s : ROB) :
    (resetSeq seq s).robPolicy = s.robPolicy ∧ (resetSeq seq s).numEntries = s.numEntries := by
  induction seq generalizing s with
  | nil => exact ⟨rfl, rfl⟩
  | cons act seq ih =>
    obtain ⟨h1, h2⟩ := ih (resetEntries (setActive s act))
    obtain ⟨c1, c2⟩ := resetEntries_config (setActive s act)
    exact ⟨h1.trans c1, h2.trans c2⟩

theorem resetSeq_threshold_kept (seq : List (List ThreadID)) (s : ROB) (t : ThreadID)
    (hpol : s.robPolicy = ROBPolicy.Threshold)
    (hnever : ∀ act ∈ seq, act.length = 1 → t ∉ act) :
    (resetSeq seq s).maxEntries t = s.maxEntries t := by
  induction seq generalizing s with
  | nil => rfl
  | cons act seq ih =>
    have hpol1 : (resetEntries (setActive s act)).robPolicy = ROBPolicy.Threshold :=
      (resetEntries_config _).1.trans hpol
    have step : (resetEntries (setActive s act)).maxEntries t = s.maxEntries t := by
      rw [resetEntries_threshold (setActive s act) hpol t]
      rw [if_neg]
      · rfl
      · rintro ⟨h1, h2⟩
        exact hnever act (by simp) h1 h2
    have := ih (resetEntries (setActive s act)) hpol1 (fun a ha => hnever a (by simp [ha]))
    rw [← step, ← this]
    rfl

/-- C11 (amended): under the Threshold policy every hardware thread has the
configured threshold as its maximum after construction and keeps it through
every sequence of `resetEntries` calls, with varying active-thread sets, in
which it is never the only active thread; and a `resetEntries` call with the
thread as the only active one gives it the whole capacity. -/
theorem resetEntries_threshold_policy (cap w n thr : Nat) (act : List ThreadID) (m : InstMem)
    (s0 : ROB) (seq : List (List ThreadID)) (t : ThreadID)
    (hnew : newROB cap w n (some ROBPolicy.Threshold) thr act m = some s0)
    (ht : t < n) :
    s0.maxEntries t = thr ∧
    ((∀ a ∈ seq, a.length = 1 → t ∉ a) → (resetSeq seq s0).maxEntries t = thr) ∧
    (resetSeq (seq ++ [[t]]) s0).maxEntries t = cap := by
  unfold newROB at hnew
  simp only [] at hnew
  cases Option.some.inj hnew
  have hpol : ∀ r : ROB, (resetState r).robPolicy = r.robPolicy := fun _ => rfl
  refine ⟨by simp [resetState, ht], ?_, ?_⟩
  · intro hnever
    rw [resetSeq_threshold_kept seq _ t rfl hnever]
    simp [resetState, ht]
  · unfold resetSeq
    rw [List.foldl_append]
    simp only [List.foldl_cons, List.foldl_nil]
    obtain ⟨c1, c2⟩ := resetSeq_config seq (resetState
      { numEntries := cap, squashWidth := w, numThreads := n
        robPolicy := ROBPolicy.Threshold, activeThreads := act
        maxEntries := fun tid => if tid < n then thr else 0
        threadEntries := fun _ => 0, instList := fun _ => []
        robStatus := fun _ => Status.Running, squashIt := fun tid => InstIt.endOf tid
        squashedSeqNum := fun _ => 0, doneSquashing := fun _ => true
        numInstsInROB := 0, head := InstIt.endOf 0, tail := InstIt.endOf 0
        robReads := 0, robWrites := 0, insts := m })
    unfold resetSeq at c1 c2
    rw [resetEntries_threshold _ (by exact c1.trans rfl) t, if_pos ⟨rfl, by simp [setActive]⟩]
    exact c2.trans rfl

/-- Threshold scenario: thread 0 keeps the threshold 3 through a run in which
only thread 1 is ever alone, and gets the capacity 8 once it is alone. -/
theorem resetEntries_threshold_policy_witness :
    newROB 8 3 2 (some ROBPolicy.Threshold) 3 [0, 1] (fun h => plainInst h 0)
      = some thresholdROB ∧
    (0 : Nat) < 2 ∧
    (∀ a ∈ [[0, 1], [1], [0, 1]], a.length = 1 → 0 ∉ a) ∧
    (resetSeq [[0, 1], [1], [0, 1]] thresholdROB).maxEntries 0 = 3 ∧
    (resetSeq ([[0, 1], [1], [0, 1]] ++ [[0]]) thresholdROB).maxEntries 0 = 8 :=
  ⟨rfl, by decide, by decide,
    (resetEntries_threshold_policy 8 3 2 3 [0, 1] (fun h => plainInst h 0) thresholdROB
      [[0, 1], [1], [0, 1]] 0 rfl (by decide)).2.1 (by decide),
    (resetEntries_threshold_policy 8 3 2 3 [0, 1] (fun h => plainInst h 0) thresholdROB
      [[0, 1], [1], [0, 1]] 0 rfl (by decide)).2.2⟩

end Threshold

section SquashCount

theorem youngerCount_snoc (m : InstMem) (S : InstSeqNum) (A : List Nat) (h : Nat) :
    youngerCount m S (A ++ [h]) = youngerCount m S A + (if S < (m h).seqNum then 1 else 0) := by
  unfold youngerCount
  rw [List.filter_append, List.length_append]
  by_cases hh : S < (m h).seqNum
  · simp [List.filter, hh]
  · simp [List.filter, hh]

theorem youngerCount_zero (m : InstMem) (S : InstSeqNum) (A : List Nat)
    (hA : ∀ q ∈ A, (m q).seqNum ≤ S) : youngerCount m S A = 0 := by
  unfold youngerCount
  rw [List.length_eq_zero, List.filter_eq_nil_iff]
  intro q hq
  simpa using hA q hq

theorem youngerCount_old_cursor (m : InstMem) (S : InstSeqNum) (A : List Nat) (h : Nat)
    (B : List Nat)
    (hasc : ((A ++ h :: B).map (fun x => (m x).seqNum)).Pairwise (fun a b => a < b))
    (hh : ¬ S < (m h).seqNum) : youngerCount m S (A ++ [h]) = 0 := by
  rw [youngerCount_snoc, if_neg hh, Nat.add_zero]
  apply youngerCount_zero
  intro q hq
  exact le_trans (le_of_lt (ascending_before m A h B hasc q hq)) (not_lt.1 hh)

/-- The `for` loop of `doSquash` with `n` iterations allowed, counted: it
returns from inside only when at most `n` instructions up to the cursor are
younger than the target, and otherwise falls through having taken exactly `n`
of them (or all, when there are fewer). -/
theorem squashLoop_count (s0 : ROB) (tid : ThreadID) (S : InstSeqNum)
    (hasc : ((s0.instList tid).map (fun x => (s0.insts x).seqNum)).Pairwise (fun a b => a < b))
    (n : Nat) :
    ∀ (st : ROB) (A : List Nat) (h : Nat) (B : List Nat) (u : Bool),
      SquashInv s0 tid S st A h B →
      (∃ st', squashLoop tid n st u = some (SquashLoop.returned st') ∧
        SquashDone s0 tid S st' ∧ youngerCount s0.insts S (A ++ [h]) ≤ n) ∨
      (∃ st' u' A' h' B', squashLoop tid n st u = some (SquashLoop.fell st' u') ∧
        SquashInv s0 tid S st' A' h' B' ∧ st'.doneSquashing tid = st.doneSquashing tid ∧
        youngerCount s0.insts S (A' ++ [h']) = youngerCount s0.insts S (A ++ [h]) - n) := by
  have hnd : (s0.instList tid).Nodup := nodup_of_seq_ascending s0.insts _ hasc
  induction n with
  | zero =>
    intro st A h B u hinv
    right
    exact ⟨st, u, A, h, B, rfl, hinv, rfl, rfl⟩
  | succ n ih =>
    intro st A h B u hinv
    obtain ⟨hl, hw, hS, hit, hsplit, hmem, hB⟩ := hinv
    have hseq : (st.insts h).seqNum = (s0.insts h).seqNum := by rw [hmem, squashedMem_seq]
    have hlist : st.instList tid = A ++ h :: B := by rw [hl, hsplit]
    have hnd' : (A ++ h :: B).Nodup := by rw [← hsplit]; exact hnd
    have hhB : h ∉ B := (List.nodup_cons.1 (List.nodup_append.1 hnd').2.1).1
    unfold squashLoop
    simp only [hit, ne_eq, not_true_eq_false, if_false]
    by_cases hgt : (st.insts h).seqNum > st.squashedSeqNum tid
    · rw [if_pos hgt]
      have hgt' : S < (s0.insts h).seqNum := by rw [← hseq, ← hS]; exact hgt
      have hcnt : youngerCount s0.insts S (A ++ [h]) = youngerCount s0.insts S A + 1 := by
        rw [youngerCount_snoc, if_pos hgt']
      simp only [hlist]
      by_cases hA : A = []
      · subst hA
        left
        refine ⟨_, if_pos (by simp), ⟨?_, [], h :: B, by simpa using hsplit, by simp, ?_, ?_⟩, ?_⟩
        · simp [setAt_same]
        · intro q hq
          rcases List.mem_cons.1 hq with rfl | hq'
          · exact hgt'
          · exact hB q hq'
        · simp only [hmem]
          exact squashedMem_cons s0.insts h B hhB
        · rw [hcnt]
          simp [youngerCount]
      · obtain ⟨A', a, rfl⟩ : ∃ A' a, A = A' ++ [a] := by
          rcases List.eq_nil_or_concat A with h0 | ⟨A', a, h1⟩
          · exact absurd h0 hA
          · exact ⟨A', a, by simpa using h1⟩
        have hnd'' : (A' ++ a :: h :: B).Nodup := by simpa using hnd'
        have hhead : ¬ ((A' ++ [a] ++ h :: B).head? = some h) := by
          rw [head_split _ _ _ hnd']
          simp
        obtain ⟨y, hy⟩ := getLast_split (A' ++ [a]) h B
        have hprev : prevNode (A' ++ [a] ++ h :: B) h = some a := by
          have := prevNode_split A' a h B hnd''
          simpa using this
        rw [if_neg hhead]
        simp only [hy, hprev]
        have hinv2 : SquashInv s0 tid S
            { st with
              insts := modifyInst st.insts h DynInst.squashFlags
              squashIt := setAt st.squashIt tid (InstIt.node tid a) } A' a (h :: B) := by
          refine ⟨hl, hw, hS, by simp [setAt_same], by simpa using hsplit, ?_, ?_⟩
          · simp only [hmem]
            exact squashedMem_cons s0.insts h B hhB
          · intro q hq
            rcases List.mem_cons.1 hq with rfl | hq'
            · exact hgt'
            · exact hB q hq'
        rcases ih _ A' a (h :: B) (if h = y then true else u) hinv2 with
          ⟨st', hst', hdone, hle⟩ | ⟨st', u', A2, h2, B2, hst', hinv', hd', hc'⟩
        · left
          exact ⟨st', hst', hdone, by rw [hcnt]; omega⟩
        · right
          exact ⟨st', u', A2, h2, B2, hst', hinv', hd', by rw [hc', hcnt]; omega⟩
    · rw [if_neg hgt]
      right
      have hold : ¬ S < (s0.insts h).seqNum := by rw [← hseq, ← hS]; exact hgt
      have hzero : youngerCount s0.insts S (A ++ [h]) = 0 :=
        youngerCount_old_cursor s0.insts S A h B (by rw [← hsplit]; exact hasc) hold
      exact ⟨st, u, A, h, B, rfl, ⟨hl, hw, hS, hit, hsplit, hmem, hB⟩, rfl, by rw [hzero]; simp⟩

/-- One `doSquash` from a state in which a squash is under way, counted: with
`k` instructions up to the cursor younger than the target and width `w`, the
call succeeds; it finishes the squash when `k ≤ w`, and otherwise leaves it
under way with `k - w` younger instructions up to the new cursor. -/
theorem doSquash_count (s0 : ROB) (tid : ThreadID) (S : InstSeqNum)
    (hasc : ((s0.instList tid).map (fun x => (s0.insts x).seqNum)).Pairwise (fun a b => a < b))
    (st : ROB) (A : List Nat) (h : Nat) (B : List Nat)
    (hinv : SquashInv s0 tid S st A h B) :
    ∃ st', doSquash st tid = some st' ∧
      ((youngerCount s0.insts S (A ++ [h]) ≤ s0.squashWidth ∧ SquashDone s0 tid S st') ∨
        (s0.squashWidth < youngerCount s0.insts S (A ++ [h]) ∧
          ∃ A' h' B', SquashInv s0 tid S st' A' h' B' ∧
            st'.doneSquashing tid = st.doneSquashing tid ∧
            youngerCount s0.insts S (A' ++ [h'])
              = youngerCount s0.insts S (A ++ [h]) - s0.squashWidth)) := by
  obtain ⟨hl, hw, hS, hit, hsplit, hmem, hB⟩ := hinv
  have hseq : (st.insts h).seqNum = (s0.insts h).seqNum := by rw [hmem, squashedMem_seq]
  have hbefore : ∀ q ∈ A, (s0.insts q).seqNum < (s0.insts h).seqNum :=
    ascending_before s0.insts A h B (by rw [← hsplit]; exact hasc)
  unfold doSquash
  simp only [hit, ne_eq, not_true_eq_false, if_false]
  by_cases hlt : (st.insts h).seqNum < st.squashedSeqNum tid
  · rw [if_pos hlt]
    rw [hseq, hS] at hlt
    have hzero : youngerCount s0.insts S (A ++ [h]) = 0 :=
      youngerCount_old_cursor s0.insts S A h B (by rw [← hsplit]; exact hasc)
        (not_lt.2 (le_of_lt hlt))
    refine ⟨_, rfl, Or.inl ⟨by rw [hzero]; exact Nat.zero_le _,
      by simp [setAt_same], A ++ [h], B, by simpa using hsplit, ?_, hB, hmem⟩⟩
    intro q hq
    rcases List.mem_append.1 hq with hqa | hqh
    · exact le_of_lt (lt_trans (hbefore q hqa) hlt)
    · have : q = h := by simpa using hqh
      subst this
      exact le_of_lt hlt
  · rw [if_neg hlt]
    have hinv0 : SquashInv s0 tid S { st with robWrites := st.robWrites + 1 } A h B :=
      ⟨hl, hw, hS, hit, hsplit, hmem, hB⟩
    rcases squashLoop_count s0 tid S hasc st.squashWidth _ A h B false hinv0 with
      ⟨st', hst', hdone, hle⟩ | ⟨st', u', A', h', B', hst', hinv', hd', hc'⟩
    · rw [hst']
      exact ⟨st', rfl, Or.inl ⟨by rw [← hw]; exact hle, hdone⟩⟩
    · rw [hst']
      obtain ⟨hl', hw', hS', hit', hsplit', hmem', hB'⟩ := hinv'
      have hseq' : (st'.insts h').seqNum = (s0.insts h').seqNum := by
        rw [hmem', squashedMem_seq]
      have hbefore' : ∀ q ∈ A', (s0.insts q).seqNum < (s0.insts h').seqNum :=
        ascending_before s0.insts A' h' B' (by rw [← hsplit']; exact hasc)
      rw [hw] at hc'
      simp only [hit']
      by_cases hle : (st'.insts h').seqNum ≤ st'.squashedSeqNum tid
      · rw [if_pos hle]
        rw [hseq', hS'] at hle
        have hzero : youngerCount s0.insts S (A' ++ [h']) = 0 :=
          youngerCount_old_cursor s0.insts S A' h' B' (by rw [← hsplit']; exact hasc)
            (not_lt.2 hle)
        have hfin : SquashDone s0 tid S
            { st' with
              squashIt := setAt st'.squashIt tid (InstIt.endOf tid)
              doneSquashing := setAt st'.doneSquashing tid true } := by
          refine ⟨by simp [setAt_same], A' ++ [h'], B', by simpa using hsplit', ?_, hB', hmem'⟩
          intro q hq
          rcases List.mem_append.1 hq with hqa | hqh
          · exact le_of_lt (lt_of_lt_of_le (hbefore' q hqa) hle)
          · have : q = h' := by simpa using hqh
            subst this
            exact hle
        have hk : youngerCount s0.insts S (A ++ [h]) ≤ s0.squashWidth := by omega
        cases u'
        · exact ⟨_, rfl, Or.inl ⟨hk, hfin⟩⟩
        · exact ⟨_, rfl, Or.inl ⟨hk, squashDone_updateTail s0 tid S _ hfin⟩⟩
      · rw [if_neg hle]
        rw [hseq', hS'] at hle
        have hpos : 0 < youngerCount s0.insts S (A' ++ [h']) := by
          rw [youngerCount_snoc, if_pos (lt_of_not_le hle)]
          omega
        have hk : s0.squashWidth < youngerCount s0.insts S (A ++ [h]) := by omega
        have hinv'' : SquashInv s0 tid S st' A' h' B' :=
          ⟨hl', hw', hS', hit', hsplit', hmem', hB'⟩
        cases u'
        · exact ⟨_, rfl, Or.inr ⟨hk, A', h', B', hinv'', hd', hc'⟩⟩
        · exact ⟨_, rfl, Or.inr ⟨hk, A', h', B', squashInv_updateTail s0 tid S _ _ _ _ hinv'',
            hd', hc'⟩⟩

theorem squashCalls_small (k w : Nat) (hw : 1 ≤ w) (hk : k ≤ w) : squashCalls k w = 1 := by
  unfold squashCalls
  have : (k + w - 1) / w ≤ 1 := by
    apply Nat.le_of_lt_succ
    rw [Nat.div_lt_iff_lt_mul (by omega)]
    omega
  omega

theorem squashCalls_large (k w : Nat) (hw : 1 ≤ w) (hk : w < k) :
    squashCalls k w = squashCalls (k - w) w + 1 := by
  unfold squashCalls
  have h1 : k + w - 1 = (k - w + w - 1) + w := by omega
  have h2 : 1 ≤ (k - w + w - 1) / w := by
    rw [Nat.le_div_iff_mul_le (by omega)]
    omega
  rw [h1, Nat.add_div_right _ (by omega : 0 < w)]
  omega

/-- The calls `doSquash` of a squash under way, counted: with `k` instructions
up to the cursor younger than the target, each of the first
`squashCalls k w` calls succeeds, `doneSquashing` is set by the last of them
and not before, and between two calls the cursor is on the list. -/
theorem doSquashTimes_count (s0 : ROB) (tid : ThreadID) (S : InstSeqNum)
    (hasc : ((s0.instList tid).map (fun x => (s0.insts x).seqNum)).Pairwise (fun a b => a < b))
    (hw1 : 1 ≤ s0.squashWidth) (i : Nat) :
    ∀ (st : ROB) (A : List Nat) (h : Nat) (B : List Nat), SquashInv s0 tid S st A h B →
      st.doneSquashing tid = false →
      i < squashCalls (youngerCount s0.insts S (A ++ [h])) s0.squashWidth →
      ∃ st', doSquashTimes tid (i + 1) st = some st' ∧
        (st'.doneSquashing tid = true ↔
          i + 1 = squashCalls (youngerCount s0.insts S (A ++ [h])) s0.squashWidth) ∧
        (i + 1 < squashCalls (youngerCount s0.insts S (A ++ [h])) s0.squashWidth →
          cursorOnList st' tid) := by
  induction i with
  | zero =>
    intro st A h B hinv hnd _
    obtain ⟨st1, h1, hcase⟩ := doSquash_count s0 tid S hasc st A h B hinv
    refine ⟨st1, by simp [doSquashTimes, h1], ?_⟩
    rcases hcase with ⟨hk, hdone⟩ | ⟨hk, A', h', B', hinv', hd', hc'⟩
    · rw [squashCalls_small _ _ hw1 hk]
      exact ⟨⟨fun _ => rfl, fun _ => hdone.1⟩, fun h0 => absurd h0 (by omega)⟩
    · rw [squashCalls_large _ _ hw1 hk]
      have hpos : 1 ≤ squashCalls (youngerCount s0.insts S (A ++ [h]) - s0.squashWidth)
          s0.squashWidth := le_max_left _ _
      refine ⟨⟨fun hd => ?_, fun h0 => absurd h0 (by omega)⟩, fun _ => ?_⟩
      · rw [hd', hnd] at hd
        exact absurd hd (by simp)
      · obtain ⟨hl', -, -, hit', hsplit', -, -⟩ := hinv'
        exact ⟨h', by rw [hl', hsplit']; simp, hit'⟩
  | succ i ih =>
    intro st A h B hinv hnd hi
    obtain ⟨st1, h1, hcase⟩ := doSquash_count s0 tid S hasc st A h B hinv
    rcases hcase with ⟨hk, -⟩ | ⟨hk, A', h', B', hinv', hd', hc'⟩
    · rw [squashCalls_small _ _ hw1 hk] at hi
      omega
    · rw [squashCalls_large _ _ hw1 hk] at hi ⊢
      rw [← hc'] at hi ⊢
      obtain ⟨st', hst', hiff, hcur⟩ := ih st1 A' h' B' hinv' (by rw [hd', hnd]) (by omega)
      refine ⟨st', ?_, ?_, ?_⟩
      · show (doSquash st tid).bind (doSquashTimes tid (i + 1)) = some st'
        rw [h1]
        exact hst'
      · rw [hiff]
        omega
      · intro hlt
        exact hcur (by omega)

/-- C21: for a thread with a non-empty list strictly ascending in `seqNum`
(and `threadEntries` counting it), a squash width `w` of at least one and any
target `S`, let `k` be the number of listed instructions with `seqNum > S`.
Then `squash(S, tid)` followed by `i` further calls `doSquash(tid)` succeeds
for every `i < max(1, ceil(k / w))`; `doneSquashing[tid]` is set after
`squash` and `i` further calls exactly when `i + 1 = max(1, ceil(k / w))`; and
as long as more calls are to come the squash cursor is on an element of the
list, so the cursor assertion of the next call holds. -/
theorem squash_pump_call_count (s : ROB) (S : InstSeqNum) (tid : ThreadID) (i : Nat)
    (hne : s.instList tid ≠ [])
    (hcount : s.threadEntries tid = (s.instList tid).length)
    (hasc : ((s.instList tid).map (fun x => (s.insts x).seqNum)).Pairwise (fun a b => a < b))
    (hw1 : 1 ≤ s.squashWidth)
    (hi : i < squashCalls (youngerCount s.insts S (s.instList tid)) s.squashWidth) :
    ∃ s', (squash s S tid).bind (doSquashTimes tid i) = some s' ∧
      (s'.doneSquashing tid = true ↔
        i + 1 = squashCalls (youngerCount s.insts S (s.instList tid)) s.squashWidth) ∧
      (i + 1 < squashCalls (youngerCount s.insts S (s.instList tid)) s.squashWidth →
        cursorOnList s' tid) := by
  have hlen : 0 < (s.instList tid).length := List.length_pos.2 hne
  obtain ⟨x, hx⟩ : ∃ x, (s.instList tid).getLast? = some x := by
    cases hl : (s.instList tid).getLast? with
    | none => exact absurd (List.getLast?_eq_none_iff.1 hl) hne
    | some x => exact ⟨x, rfl⟩
  obtain ⟨A, hA⟩ := List.getLast?_eq_some_iff.1 hx
  have hempty : isEmpty s tid = false := by
    unfold isEmpty
    rw [hcount]
    simp only [beq_eq_false_iff_ne, ne_eq]
    omega
  have hinv : SquashInv s tid S
      { s with
        robStatus := setAt s.robStatus tid Status.ROBSquashing
        doneSquashing := setAt s.doneSquashing tid false
        squashedSeqNum := setAt s.squashedSeqNum tid S
        squashIt := setAt s.squashIt tid (InstIt.node tid x) } A x [] :=
    ⟨rfl, rfl, by simp [setAt_same], by simp [setAt_same], hA, (squashedMem_nil s.insts).symm,
      fun q hq => absurd hq (by simp)⟩
  have hsq : ∀ n, (squash s S tid).bind (doSquashTimes tid n)
      = doSquashTimes tid (n + 1)
          { s with
            robStatus := setAt s.robStatus tid Status.ROBSquashing
            doneSquashing := setAt s.doneSquashing tid false
            squashedSeqNum := setAt s.squashedSeqNum tid S
            squashIt := setAt s.squashIt tid (InstIt.node tid x) } := by
    intro n
    unfold squash
    rw [hempty]
    simp only [Bool.false_eq_true, if_false, hx]
    rfl
  rw [hsq, hA]
  rw [hA] at hi
  exact doSquashTimes_count s tid S hasc hw1 i _ A x [] hinv (by simp [setAt_same]) hi

/-- Scenario S3: list `1 .. 8`, width 3, `squash(4)`: four instructions are
younger than the target, so two calls are needed; after the call inside
`squash` the squash is not done and the cursor is on the list, after one more
call it is done. -/
theorem squash_pump_call_count_witness :
    s3ROB.instList 0 ≠ [] ∧ s3ROB.threadEntries 0 = (s3ROB.instList 0).length ∧
    ((s3ROB.instList 0).map (fun x => (s3ROB.insts x).seqNum)).Pairwise (fun a b => a < b) ∧
    1 ≤ s3ROB.squashWidth ∧
    youngerCount s3ROB.insts 4 (s3ROB.instList 0) = 4 ∧
    squashCalls (youngerCount s3ROB.insts 4 (s3ROB.instList 0)) s3ROB.squashWidth = 2 ∧
    ((squash s3ROB 4 0).bind (doSquashTimes 0 0)).map s3View
      = some ([false, false, false, false, false, true, true, true], false) ∧
    ((squash s3ROB 4 0).bind (doSquashTimes 0 1)).map s3View
      = some ([false, false, false, false, true, true, true, true], true) ∧
    ∃ s', (squash s3ROB 4 0).bind (doSquashTimes 0 1) = some s' ∧
      (s'.doneSquashing 0 = true ↔
        1 + 1 = squashCalls (youngerCount s3ROB.insts 4 (s3ROB.instList 0)) s3ROB.squashWidth) ∧
      (1 + 1 < squashCalls (youngerCount s3ROB.insts 4 (s3ROB.instList 0)) s3ROB.squashWidth →
        cursorOnList s' 0) :=
  ⟨by decide, by decide, by decide, by decide, by decide, by decide, by decide, by decide,
    squash_pump_call_count s3ROB 4 0 1 (by decide) (by decide) (by decide) (by decide)
      (by decide)⟩

end SquashCount

section AddrWithinArgs

/-- One iteration leaves the visited instruction address-tainted only if it
leaves it args-tainted: the address scan covers no source the explicit scan
does not cover, and both read the same store. -/
theorem taintInst_addr_within_args (cpu : O3CPU) (tid : ThreadID) (older : List Nat)
    (inst : Nat) (m m1 : InstMem) (h : taintInst cpu tid older inst m = some m1) :
    (m1 inst).isAddrTainted = true → (m1 inst).isArgsTainted = true := by
  obtain ⟨b, c, a, hb, ha, -, hm1⟩ := taintInst_some cpu tid older inst m m1 h
  obtain ⟨gE, -, gA⟩ := taintWrites_flags b c a (m inst)
  have gC := (taintWrites_consistent b c a (m inst)).1
  rw [hm1, modifyInst_same, gA, gC, gE]
  intro hat
  subst hat
  have hsub : ∀ idxs : List Nat, (∀ i ∈ idxs, i < (m inst).numSrcRegs) →
      taintedProducer tid inst m idxs = some true → b = true := by
    intro idxs hsub hscan
    obtain ⟨i, hi, p, hp⟩ := (taintedProducer_iff tid inst m idxs true hscan).1 rfl
    exact (taintedProducer_iff tid inst m _ b hb).2 ⟨i, List.mem_range.2 (hsub i hi), p, hp⟩
  unfold addressScan at ha
  by_cases hmr : (m inst).isMemRef = true
  · rw [if_pos hmr] at ha
    by_cases hst : (m inst).isStore = true
    · rw [if_pos hst] at ha
      exact hsub _ (fun i hi => ((mem_drop_one_range _ _).1 hi).2) ha
    · rw [if_neg hst] at ha
      by_cases hld : (m inst).isLoad = true
      · rw [if_pos hld] at ha
        exact hsub _ (fun i hi => List.mem_range.1 hi) ha
      · rw [if_neg hld] at ha
        exact absurd ha (by simp)
  · rw [if_neg hmr] at ha
    exact absurd ha (by simp)

/-- A property every iteration establishes on the instruction it visits holds,
after the loop over a list, of every instruction of the list, and is kept
where it held before. -/
theorem taintLoop_establishes (cpu : O3CPU) (P : DynInst → Prop)
    (hP : ∀ tid older x m m1, taintInst cpu tid older x m = some m1 → P (m1 x))
    (tid : ThreadID) (l older : List Nat) (m m' : InstMem)
    (h : taintLoop cpu tid older l m = some m') :
    (∀ q, P (m q) → P (m' q)) ∧ (∀ q ∈ l, P (m' q)) := by
  induction l generalizing older m with
  | nil =>
    have : m' = m := by
      unfold taintLoop at h; exact (Option.some.inj h).symm
    subst this
    exact ⟨fun _ hq => hq, fun q hq => absurd hq (by simp)⟩
  | cons x l ih =>
    unfold taintLoop at h
    cases h1 : taintInst cpu tid older x m with
    | none => rw [h1] at h; exact absurd h (by simp)
    | some m1 =>
      rw [h1] at h
      simp only [Option.some_bind] at h
      obtain ⟨i1, i2⟩ := ih (older ++ [x]) m1 h
      have hx : P (m1 x) := hP tid older x m m1 h1
      have hstep : ∀ q, P (m q) → P (m1 q) := by
        intro q hq
        by_cases hqx : q = x
        · subst hqx; exact hx
        · rw [(taintInst_frame cpu tid older x m m1 h1).1 q hqx]; exact hq
      refine ⟨fun q hq => i1 q (hstep q hq), ?_⟩
      intro q hq
      rcases List.mem_cons.1 hq with rfl | hq'
      · exact i1 q hx
      · exact i2 q hq'

theorem taintThreads_establishes (cpu : O3CPU) (P : DynInst → Prop)
    (hP : ∀ tid older x m m1, taintInst cpu tid older x m = some m1 → P (m1 x))
    (lists : ThreadID → List Nat) (ts : List ThreadID) (m m' : InstMem)
    (h : taintThreads cpu lists ts m = some m') :
    (∀ q, P (m q) → P (m' q)) ∧ (∀ t ∈ ts, ∀ q ∈ lists t, P (m' q)) := by
  induction ts generalizing m with
  | nil =>
    have : m' = m := by
      unfold taintThreads at h; exact (Option.some.inj h).symm
    subst this
    exact ⟨fun _ hq => hq, fun t ht => absurd ht (by simp)⟩
  | cons t ts ih =>
    unfold taintThreads at h
    cases h1 : taintLoop cpu t [] (lists t) m with
    | none => rw [h1] at h; exact absurd h (by simp)
    | some m1 =>
      rw [h1] at h
      simp only [Option.some_bind] at h
      obtain ⟨l1, l2⟩ := taintLoop_establishes cpu P hP t (lists t) [] m m1 h1
      obtain ⟨i1, i2⟩ := ih m1 h
      refine ⟨fun q hq => i1 q (l1 q hq), ?_⟩
      intro t' ht' q hq
      rcases List.mem_cons.1 ht' with rfl | ht''
      · exact i1 q (l2 q hq)
      · exact i2 t' ht'' q hq

/-- C23: after a `compute_taint` that ran to completion, every instruction in
the list of an active thread that has `isAddrTainted` has `isArgsTainted`;
hence an instruction that `getResolvedPendingSquashInst` returns for an
active thread right after the pass has `isAddrTainted` false. -/
theorem compute_taint_addr_within_args (cpu : O3CPU) (s s' : ROB)
    (hrun : compute_taint cpu s = some s') :
    (∀ t ∈ s.activeThreads, ∀ x ∈ s.instList t,
      (s'.insts x).isAddrTainted = true → (s'.insts x).isArgsTainted = true) ∧
    (∀ t ∈ s.activeThreads, ∀ x, (getResolvedPendingSquashInst s' t).2 = some x →
      (s'.insts x).isAddrTainted = false) := by
  obtain ⟨-, m', hm', rfl⟩ := compute_taint_some cpu s s' hrun
  have hall := (taintThreads_establishes cpu
    (fun d => d.isAddrTainted = true → d.isArgsTainted = true)
    (taintInst_addr_within_args cpu) s.instList s.activeThreads s.insts m' hm').2
  refine ⟨hall, ?_⟩
  intro t ht x hx
  unfold getResolvedPendingSquashInst at hx
  simp only [] at hx
  have hmem : x ∈ s.instList t := List.mem_of_find?_eq_some hx
  have hpred := List.find?_some hx
  have hargs : (m' x).isArgsTainted = false := by
    revert hpred
    cases (m' x).hasPendingSquash <;> cases (m' x).isArgsTainted <;> simp
  cases haddr : (m' x).isAddrTainted with
  | false => rfl
  | true =>
    have := hall t ht x hmem haddr
    rw [hargs] at this
    exact absurd this (by simp)

/-- Pending-squash scenario: after the pass the load `3` is address-tainted
and args-tainted, so the selector passes it over and returns `5`, whose stale
address taint the pass has cleared. -/
theorem compute_taint_addr_within_args_witness :
    compute_taint sttCPU pendingMixROB = some pendingMixDone ∧
    (pendingMixROB.insts 5).isAddrTainted = true ∧
    (pendingMixDone.insts 3).isAddrTainted = true ∧
    (pendingMixDone.insts 3).isArgsTainted = true ∧
    (getResolvedPendingSquashInst pendingMixDone 0).2 = some 5 ∧
    (pendingMixDone.insts 5).isAddrTainted = false :=
  ⟨rfl, by decide, by decide,
    (compute_taint_addr_within_args sttCPU pendingMixROB pendingMixDone rfl).1 0 (by decide) 3
      (by decide) (by decide),
    by decide, by decide⟩

end AddrWithinArgs

section TaintAgree

theorem any_congr_mem (l : List Nat) (f g : Nat → Bool) (h : ∀ p ∈ l, f p = g p) :
    l.any f = l.any g := by
  induction l with
  | nil => rfl
  | cons a l ih =>
    simp only [List.any_cons]
    rw [h a (by simp), ih (fun p hp => h p (by simp [hp]))]

/-- The four writes of an iteration overwrite all five taint flags: what they
leave depends on the object only up to its taint flags. -/
theorem taintWrites_eraseTaint (b c a : Bool) (d : DynInst) :
    taintWrites b c a d.eraseTaint = taintWrites b c a d := by
  unfold taintWrites setTaint
  cases h1 : d.isAccess <;> cases h2 : d.isUnsquashable <;>
    simp [DynInst.setExplicitFlow, DynInst.setImplicitFlow, DynInst.setAddrTainted,
      DynInst.setArgsTainted, DynInst.setDestTainted, DynInst.eraseTaint, h1, h2]

theorem taintWrites_of_eraseTaint (b c a : Bool) (d e : DynInst)
    (h : d.eraseTaint = e.eraseTaint) : taintWrites b c a d = taintWrites b c a e := by
  rw [← taintWrites_eraseTaint b c a d, ← taintWrites_eraseTaint b c a e, h]

/-- The producer scan over `idxs` reads, of the producers named by the scanned
slots, the thread number and whether they are dest-tainted and not
committed. -/
theorem taintedProducer_agree (tid : ThreadID) (inst : Nat) (m m2 : InstMem)
    (hslot : (m2 inst).getArgProducer = (m inst).getArgProducer) (idxs : List Nat)
    (hview : ∀ i ∈ idxs, ∀ p, (m inst).getArgProducer i = some p →
      (m2 p).threadNumber = (m p).threadNumber ∧
      ((m2 p).isDestTainted && !(m2 p).isCommitted)
        = ((m p).isDestTainted && !(m p).isCommitted)) :
    taintedProducer tid inst m2 idxs = taintedProducer tid inst m idxs := by
  induction idxs with
  | nil => rfl
  | cons i idxs ih =>
    have ih' := ih (fun j hj => hview j (by simp [hj]))
    unfold taintedProducer
    rw [hslot]
    cases hs : (m inst).getArgProducer i with
    | none => exact ih'
    | some p =>
      obtain ⟨h1, h2⟩ := hview i (by simp) p hs
      simp only [h1, h2, ih']

/-- One iteration on two stores that agree up to taint flags, agree on the
instructions already passed and show the same verdict for every producer of
the visited instruction: the iteration succeeds on both or neither and leaves
the same object. -/
theorem taintInst_agree (cpu : O3CPU) (tid : ThreadID) (older : List Nat) (x : Nat)
    (m m2 m1 : InstMem)
    (hstat : ∀ q, (m2 q).eraseTaint = (m q).eraseTaint)
    (hold : ∀ p ∈ older, m2 p = m p)
    (hview : ∀ i < (m x).numSrcRegs, ∀ p, (m x).getArgProducer i = some p →
      ((m2 p).isDestTainted && !(m2 p).isCommitted)
        = ((m p).isDestTainted && !(m p).isCommitted))
    (h : taintInst cpu tid older x m = some m1) :
    ∃ n1, taintInst cpu tid older x m2 = some n1 ∧ n1 x = m1 x := by
  obtain ⟨b, c, a, hb, ha, hc, hm1⟩ := taintInst_some cpu tid older x m m1 h
  obtain ⟨fN, fS, fM, fSt, fL, fC, -⟩ := eraseTaint_fields (m2 x) (m x) (hstat x)
  have hthr : ∀ q, (m2 q).threadNumber = (m q).threadNumber :=
    fun q => congrArg (fun z => z.threadNumber) (hstat q)
  have hscan : ∀ idxs : List Nat, (∀ i ∈ idxs, i < (m x).numSrcRegs) →
      taintedProducer tid x m2 idxs = taintedProducer tid x m idxs :=
    fun idxs hsub => taintedProducer_agree tid x m m2 fS idxs
      (fun i hi p hp => ⟨hthr p, hview i (hsub i hi) p hp⟩)
  have hb2 : taintedProducer tid x m2 (List.range (m2 x).numSrcRegs) = some b := by
    rw [fN, hscan _ (fun i hi => List.mem_range.1 hi), hb]
  have ha2 : addressScan tid x m2 = some a := by
    rw [← ha]
    unfold addressScan
    rw [fM, fSt, fL, fN, hscan _ (fun i hi => ((mem_drop_one_range _ _).1 hi).2),
      hscan _ (fun i hi => List.mem_range.1 hi)]
  have hc2 : (cpu.impChannel && older.any (fun p =>
      (modifyInst m2 x (fun d => d.setExplicitFlow b) p).isControl &&
      (modifyInst m2 x (fun d => d.setExplicitFlow b) p).hasExplicitFlow)) = c := by
    rw [hc]
    congr 1
    apply any_congr_mem
    intro p hp
    unfold modifyInst
    rw [hold p hp]
  refine ⟨modifyInst m2 x (taintWrites b c a), ?_, ?_⟩
  · rw [taintInst_eq, hb2]
    simp only [Option.some_bind]
    rw [ha2]
    simp only [Option.map_some']
    rw [hc2]
  · rw [hm1, modifyInst_same, modifyInst_same]
    exact taintWrites_of_eraseTaint b c a _ _ (hstat x)

/-- The loop over one list on two stores that agree up to taint flags and on
the instructions already passed, when every producer of a listed instruction
was passed before it, is committed, or is the same object in both stores: the
loop succeeds on the second store as well, and the two results hold the same
object for every instruction of the list and wherever the stores agreed. -/
theorem taintLoop_agree (cpu : O3CPU) (tid : ThreadID) (rest : List Nat) :
    ∀ (older : List Nat) (m m2 m' : InstMem),
      (∀ q, (m2 q).eraseTaint = (m q).eraseTaint) →
      (∀ p ∈ older, m2 p = m p) →
      (∀ pre x post, rest = pre ++ x :: post →
        ∀ i < (m x).numSrcRegs, ∀ p, (m x).getArgProducer i = some p →
          p ∈ older ++ pre ∨ (m p).isCommitted = true ∨ m2 p = m p) →
      taintLoop cpu tid older rest m = some m' →
      ∃ n', taintLoop cpu tid older rest m2 = some n' ∧
        (∀ q ∈ rest, n' q = m' q) ∧ (∀ q, m2 q = m q → n' q = m' q) := by
  induction rest with
  | nil =>
    intro older m m2 m' _ _ _ h
    unfold taintLoop at h
    cases Option.some.inj h
    exact ⟨m2, rfl, fun q hq => absurd hq (by simp), fun q hq => hq⟩
  | cons x rest ih =>
    intro older m m2 m' hstat hold hprod h
    unfold taintLoop at h
    cases h1 : taintInst cpu tid older x m with
    | none => rw [h1] at h; exact absurd h (by simp)
    | some m1 =>
      rw [h1] at h
      simp only [Option.some_bind] at h
      have hview : ∀ i < (m x).numSrcRegs, ∀ p, (m x).getArgProducer i = some p →
          ((m2 p).isDestTainted && !(m2 p).isCommitted)
            = ((m p).isDestTainted && !(m p).isCommitted) := by
        intro i hi p hp
        rcases hprod [] x rest rfl i hi p hp with hin | hcm | heq
        · rw [hold p (by simpa using hin)]
        · have hcm2 : (m2 p).isCommitted = true := by
            rw [(eraseTaint_fields (m2 p) (m p) (hstat p)).2.2.2.2.2.2]; exact hcm
          rw [hcm, hcm2]
          simp
        · rw [heq]
      obtain ⟨n1, hn1, hx⟩ := taintInst_agree cpu tid older x m m2 m1 hstat hold hview h1
      obtain ⟨f1, f2⟩ := taintInst_frame cpu tid older x m m1 h1
      obtain ⟨g1, g2⟩ := taintInst_frame cpu tid older x m2 n1 hn1
      have hkeep : ∀ q, m2 q = m q → n1 q = m1 q := by
        intro q hq
        by_cases e : q = x
        · subst e; exact hx
        · rw [g1 q e, f1 q e, hq]
      have hstat1 : ∀ q, (n1 q).eraseTaint = (m1 q).eraseTaint :=
        fun q => by rw [g2 q, f2 q, hstat q]
      have hold1 : ∀ p ∈ older ++ [x], n1 p = m1 p := by
        intro p hp
        rcases List.mem_append.1 hp with hp' | hp'
        · exact hkeep p (hold p hp')
        · have : p = x := by simpa using hp'
          subst this
          exact hx
      have hprod1 : ∀ pre y post, rest = pre ++ y :: post →
          ∀ i < (m1 y).numSrcRegs, ∀ p, (m1 y).getArgProducer i = some p →
            p ∈ (older ++ [x]) ++ pre ∨ (m1 p).isCommitted = true ∨ n1 p = m1 p := by
        intro pre y post hsp i hi p hp
        obtain ⟨eN, eS, -⟩ := eraseTaint_fields (m1 y) (m y) (f2 y)
        rcases hprod (x :: pre) y post (by rw [hsp]; rfl) i (by rw [← eN]; exact hi) p
            (by rw [← eS]; exact hp) with hin | hcm | heq
        · left
          simpa using hin
        · right; left
          rw [(eraseTaint_fields (m1 p) (m p) (f2 p)).2.2.2.2.2.2]; exact hcm
        · right; right
          exact hkeep p heq
      obtain ⟨n', hn', r1, r2⟩ := ih (older ++ [x]) m1 n1 m' hstat1 hold1 hprod1 h
      refine ⟨n', ?_, ?_, fun q hq => r2 q (hkeep q hq)⟩
      · unfold taintLoop
        rw [hn1]
        exact hn'
      · intro q hq
        rcases List.mem_cons.1 hq with rfl | hq'
        · exact r2 q hx
        · exact r1 q hq'

/-- The pass over the threads `ts` on two stores that agree up to taint
flags, when every producer of a listed instruction is older in the same list,
is committed, or is the same object in both stores: the pass succeeds on the
second store as well and leaves the same object for every listed instruction
and wherever the stores agreed. -/
theorem taintThreads_agree (cpu : O3CPU) (lists : ThreadID → List Nat) (ts : List ThreadID) :
    ∀ (m m2 m' : InstMem),
      (∀ q, (m2 q).eraseTaint = (m q).eraseTaint) →
      (∀ t ∈ ts, ∀ pre x post, lists t = pre ++ x :: post →
        ∀ i < (m x).numSrcRegs, ∀ p, (m x).getArgProducer i = some p →
          p ∈ pre ∨ (m p).isCommitted = true ∨ m2 p = m p) →
      taintThreads cpu lists ts m = some m' →
      ∃ n', taintThreads cpu lists ts m2 = some n' ∧
        (∀ t ∈ ts, ∀ q ∈ lists t, n' q = m' q) ∧ (∀ q, m2 q = m q → n' q = m' q) := by
  induction ts with
  | nil =>
    intro m m2 m' _ _ h
    unfold taintThreads at h
    cases Option.some.inj h
    exact ⟨m2, rfl, fun t ht => absurd ht (by simp), fun q hq => hq⟩
  | cons t ts ih =>
    intro m m2 m' hstat hprod h
    unfold taintThreads at h
    cases h1 : taintLoop cpu t [] (lists t) m with
    | none => rw [h1] at h; exact absurd h (by simp)
    | some m1 =>
      rw [h1] at h
      simp only [Option.some_bind] at h
      obtain ⟨n1, hn1, a1, a2⟩ := taintLoop_agree cpu t (lists t) [] m m2 m1 hstat
        (fun p hp => absurd hp (by simp))
        (fun pre x post hsp i hi p hp => by
          simpa using hprod t (by simp) pre x post hsp i hi p hp) h1
      obtain ⟨-, f2⟩ := taintLoop_frame cpu t (lists t) [] m m1 h1
      obtain ⟨-, g2⟩ := taintLoop_frame cpu t (lists t) [] m2 n1 hn1
      have hstat1 : ∀ q, (n1 q).eraseTaint = (m1 q).eraseTaint :=
        fun q => by rw [g2 q, f2 q, hstat q]
      have hprod1 : ∀ t' ∈ ts, ∀ pre x post, lists t' = pre ++ x :: post →
          ∀ i < (m1 x).numSrcRegs, ∀ p, (m1 x).getArgProducer i = some p →
            p ∈ pre ∨ (m1 p).isCommitted = true ∨ n1 p = m1 p := by
        intro t' ht' pre x post hsp i hi p hp
        obtain ⟨eN, eS, -⟩ := eraseTaint_fields (m1 x) (m x) (f2 x)
        rcases hprod t' (by simp [ht']) pre x post hsp i (by rw [← eN]; exact hi) p
            (by rw [← eS]; exact hp) with hin | hcm | heq
        · exact Or.inl hin
        · right; left
          rw [(eraseTaint_fields (m1 p) (m p) (f2 p)).2.2.2.2.2.2]; exact hcm
        · exact Or.inr (Or.inr (a2 p heq))
      obtain ⟨n', hn', r1, r2⟩ := ih m1 n1 m' hstat1 hprod1 h
      refine ⟨n', ?_, ?_, fun q hq => r2 q (a2 q hq)⟩
      · unfold taintThreads
        rw [hn1]
        exact hn'
      · intro t' ht' q hq
        rcases List.mem_cons.1 ht' with rfl | ht''
        · exact r2 q (a1 q hq)
        · exact r1 t' ht'' q hq

end TaintAgree

section CommittedProducers

theorem clearProducerRefs_isCommitted (head_inst nextInst : Nat) (m : InstMem) (q : Nat) :
    (clearProducerRefs head_inst nextInst m q).isCommitted = (m q).isCommitted := by
  have key : ∀ (l : List Nat) (m : InstMem),
      ((l.foldl (fun m i =>
        if (m nextInst).getArgProducer i = some head_inst then
          modifyInst m nextInst (fun d => d.clearArgProducer i)
        else m) m) q).isCommitted = (m q).isCommitted := by
    intro l
    induction l with
    | nil => intro m; rfl
    | cons i l ih =>
      intro m
      simp only [List.foldl_cons]
      rw [ih]
      split_ifs
      · by_cases e : q = nextInst
        · subst e; rw [modifyInst_same]; rfl
        · rw [modifyInst_other _ _ _ _ e]
      · rfl
  exact key _ m

theorem clearOwnProducers_isCommitted (head_inst : Nat) (m : InstMem) (q : Nat) :
    (clearOwnProducers head_inst m q).isCommitted = (m q).isCommitted := by
  have key : ∀ (l : List Nat) (m : InstMem),
      ((l.foldl (fun m i => modifyInst m head_inst (fun d => d.clearArgProducer i)) m)
        q).isCommitted = (m q).isCommitted := by
    intro l
    induction l with
    | nil => intro m; rfl
    | cons i l ih =>
      intro m
      simp only [List.foldl_cons]
      rw [ih]
      by_cases e : q = head_inst
      · subst e; rw [modifyInst_same]; rfl
      · rw [modifyInst_other _ _ _ _ e]
  exact key _ m

theorem survivors_isCommitted (head_inst : Nat) (l : List Nat) (m : InstMem) (q : Nat) :
    ((l.foldl (fun m nextInst => clearProducerRefs head_inst nextInst m) m) q).isCommitted
      = (m q).isCommitted := by
  induction l generalizing m with
  | nil => rfl
  | cons x l ih =>
    simp only [List.foldl_cons]
    rw [ih, clearProducerRefs_isCommitted]

/-- A successful `retireHead` leaves the instruction it retired committed. -/
theorem retireHead_isCommitted (r r' : ROB) (tid : ThreadID) (h : Nat) (rest : List Nat)
    (hret : retireHead r tid = some r') (hl : r.instList tid = h :: rest) :
    (r'.insts h).isCommitted = true := by
  unfold retireHead at hret
  by_cases h0 : r.numInstsInROB = 0
  · rw [if_pos h0] at hret; exact absurd hret (by simp)
  · rw [if_neg h0, hl] at hret
    simp only [] at hret
    by_cases hr : (r.insts h).readyToCommit = false
    · rw [if_pos hr] at hret; exact absurd hret (by simp)
    · rw [if_neg hr] at hret
      have := Option.some.inj hret
      subst this
      show (clearOwnProducers h
        ((rest.drop 1).foldl (fun m nextInst => clearProducerRefs h nextInst m)
          (modifyInst r.insts h (fun d => d.clearInROB.setCommitted))) h).isCommitted = true
      rw [clearOwnProducers_isCommitted, survivors_isCommitted, modifyInst_same]
      rfl

/-- After a pass on a well-formed state, a listed instruction each of whose
producers is committed, or is older or unlisted and not dest-tainted after
the pass, has no explicit flow. -/
theorem compute_taint_no_live_tainted_producer (cpu : O3CPU) (s s' : ROB) (tid : ThreadID)
    (older : List Nat) (x : Nat) (younger : List Nat)
    (hrun : compute_taint cpu s = some s') (hwf : ListsWellFormed s)
    (hact : tid ∈ s.activeThreads) (hsplit : s.instList tid = older ++ x :: younger)
    (hprod : ∀ i < (s.insts x).numSrcRegs, ∀ p, (s.insts x).getArgProducer i = some p →
      (s.insts p).isCommitted = true ∨
      ((p ∈ older ∨ ∀ t ∈ s.activeThreads, p ∉ s.instList t) ∧
        (s'.insts p).isDestTainted = false)) :
    (s'.insts x).hasExplicitFlow = false := by
  obtain ⟨m, m1, r1, r2, r3, r4, -, -⟩ :=
    compute_taint_at cpu s s' tid older x younger hrun hwf hact hsplit
  obtain ⟨b, c, a, hb, -, -, hm1⟩ := taintInst_some cpu tid older x m m1 r1
  obtain ⟨eN, eS, -⟩ := eraseTaint_fields (m x) (s.insts x) (r4 x)
  obtain ⟨gE, -, -⟩ := taintWrites_flags b c a (m x)
  rw [r2, hm1, modifyInst_same, gE]
  cases hbv : b with
  | false => rfl
  | true =>
    obtain ⟨i, hi, p, hp, hd, hc⟩ := (taintedProducer_iff tid x m _ b hb).1 hbv
    rw [eN] at hi
    rw [eS] at hp
    rcases hprod i (List.mem_range.1 hi) p hp with hcm | ⟨hpos, hclean⟩
    · rw [(eraseTaint_fields (m p) (s.insts p) (r4 p)).2.2.2.2.2.2, hcm] at hc
      exact absurd hc (by simp)
    · rw [r3 p hpos, hd] at hclean
      exact absurd hclean (by simp)

theorem eraseTaint_setDestTainted (d : DynInst) (b : Bool) :
    (d.setDestTainted b).eraseTaint = d.eraseTaint := rfl

/-- C24: `retireHead` leaves the instruction it retired committed.  For a
state `s` on which `compute_taint` runs to completion and any store that
differs from the store of `s` only in taint flags of committed instructions,
the pass on that store succeeds and gives every instruction listed under an
active thread the same `hasExplicitFlow`, `isAddrTainted`, `isArgsTainted` and
`isDestTainted`.  In a well-formed state, a listed instruction each of whose
producers is committed (retired, whatever its dest taint), or else is older
or unlisted and not dest-tainted after the pass, gets `hasExplicitFlow`
false. -/
theorem compute_taint_ignores_committed (cpu : O3CPU) (s s' : ROB)
    (hrun : compute_taint cpu s = some s') :
    (∀ (r r' : ROB) (tid : ThreadID) (h : Nat) (rest : List Nat),
      retireHead r tid = some r' → r.instList tid = h :: rest →
      (r'.insts h).isCommitted = true) ∧
    (∀ m2 : InstMem, (∀ q, (m2 q).eraseTaint = (s.insts q).eraseTaint) →
      (∀ q, (s.insts q).isCommitted = false → m2 q = s.insts q) →
      ∃ s2', compute_taint cpu { s with insts := m2 } = some s2' ∧
        ∀ t ∈ s.activeThreads, ∀ x ∈ s.instList t,
          (s2'.insts x).hasExplicitFlow = (s'.insts x).hasExplicitFlow ∧
          (s2'.insts x).isAddrTainted = (s'.insts x).isAddrTainted ∧
          (s2'.insts x).isArgsTainted = (s'.insts x).isArgsTainted ∧
          (s2'.insts x).isDestTainted = (s'.insts x).isDestTainted) ∧
    (ListsWellFormed s → ∀ tid ∈ s.activeThreads, ∀ older x younger,
      s.instList tid = older ++ x :: younger →
      (∀ i < (s.insts x).numSrcRegs, ∀ p, (s.insts x).getArgProducer i = some p →
        (s.insts p).isCommitted = true ∨
        ((p ∈ older ∨ ∀ t ∈ s.activeThreads, p ∉ s.instList t) ∧
          (s'.insts p).isDestTainted = false)) →
      (s'.insts x).hasExplicitFlow = false) := by
  refine ⟨retireHead_isCommitted, ?_, ?_⟩
  · intro m2 hstat hdiff
    obtain ⟨hstt, m', hm', hs'⟩ := compute_taint_some cpu s s' hrun
    subst hs'
    obtain ⟨n', hn', r1, -⟩ := taintThreads_agree cpu s.instList s.activeThreads s.insts m2 m'
      hstat
      (fun t _ pre x post _ i _ p _ => by
        cases hc : (s.insts p).isCommitted with
        | true => exact Or.inr (Or.inl rfl)
        | false => exact Or.inr (Or.inr (hdiff p hc)))
      hm'
    have hres : compute_taint cpu { s with insts := m2 } = some { s with insts := n' } := by
      unfold compute_taint
      rw [if_neg (by simp [hstt])]
      show (taintThreads cpu s.instList s.activeThreads m2).map _ = _
      rw [hn']
      rfl
    refine ⟨_, hres, ?_⟩
    intro t ht x hx
    show (n' x).hasExplicitFlow = (m' x).hasExplicitFlow ∧
      (n' x).isAddrTainted = (m' x).isAddrTainted ∧
      (n' x).isArgsTainted = (m' x).isArgsTainted ∧
      (n' x).isDestTainted = (m' x).isDestTainted
    rw [r1 t ht x hx]
    exact ⟨rfl, rfl, rfl, rfl⟩
  · intro hwf tid hact older x younger hsplit hprod
    exact compute_taint_no_live_tainted_producer cpu s s' tid older x younger hrun hwf hact
      hsplit hprod

/-- Scenario S4 with `A` an access: one pass taints `A` and gives `B` explicit
flow; `retireHead` commits `A` and leaves `B` at the front, still naming `A`
and still flagged; the next pass clears `B`, and it does the same on a store
in which the retired `A` has lost its dest taint. -/
theorem compute_taint_ignores_committed_witness :
    compute_taint sttCPU s4AccessRetired = some s4AccessSwept ∧
    retireHead s4AccessTainted 0 = some s4AccessRetired ∧
    s4AccessTainted.instList 0 = 1 :: [2, 3, 4] ∧
    (s4AccessRetired.insts 1).isCommitted = true ∧
    (s4AccessRetired.insts 1).isDestTainted = true ∧
    (s4AccessRetired.insts 2).getArgProducer 0 = some 1 ∧
    (s4AccessRetired.insts 2).hasExplicitFlow = true ∧
    ListsWellFormed s4AccessRetired ∧ 0 ∈ s4AccessRetired.activeThreads ∧
    s4AccessRetired.instList 0 = [] ++ 2 :: [3, 4] ∧
    (s4AccessSwept.insts 2).hasExplicitFlow = false ∧
    ∃ s2', compute_taint sttCPU
        { s4AccessRetired with
          insts := modifyInst s4AccessRetired.insts 1 (fun d => d.setDestTainted false) }
        = some s2' ∧
      ∀ t ∈ s4AccessRetired.activeThreads, ∀ x ∈ s4AccessRetired.instList t,
        (s2'.insts x).hasExplicitFlow = (s4AccessSwept.insts x).hasExplicitFlow ∧
        (s2'.insts x).isAddrTainted = (s4AccessSwept.insts x).isAddrTainted ∧
        (s2'.insts x).isArgsTainted = (s4AccessSwept.insts x).isArgsTainted ∧
        (s2'.insts x).isDestTainted = (s4AccessSwept.insts x).isDestTainted :=
  ⟨rfl, rfl, by decide,
    (compute_taint_ignores_committed sttCPU s4AccessRetired s4AccessSwept rfl).1
      s4AccessTainted s4AccessRetired 0 1 [2, 3, 4] rfl (by decide),
    by decide, by decide, by decide, by decide, by decide, by decide,
    (compute_taint_ignores_committed sttCPU s4AccessRetired s4AccessSwept rfl).2.2
      (by decide) 0 (by decide) [] 2 [3, 4] (by decide) (by decide),
    (compute_taint_ignores_committed sttCPU s4AccessRetired s4AccessSwept rfl).2.1
      (modifyInst s4AccessRetired.insts 1 (fun d => d.setDestTainted false))
      (fun q => by
        by_cases e : q = 1
        · subst e; rw [modifyInst_same]; exact eraseTaint_setDestTainted _ _
        · rw [modifyInst_other _ _ _ _ e])
      (fun q hq => by
        by_cases e : q = 1
        · subst e; exact absurd hq (by decide)
        · rw [modifyInst_other _ _ _ _ e])⟩

end CommittedProducers

section TaintClosure

/-- After a pass on a well-formed state, in a list none of whose instructions
is committed and whose producer slots name older instructions of the list, an
instruction is args-tainted exactly when a chain of producers leads from it to
an access that is not unsquashable. -/
theorem compute_taint_args_chain (cpu : O3CPU) (s s' : ROB) (tid : ThreadID)
    (hrun : compute_taint cpu s = some s') (hwf : ListsWellFormed s)
    (hact : tid ∈ s.activeThreads)
    (hnc : ∀ x ∈ s.instList tid, (s.insts x).isCommitted = false)
    (hprod : ∀ pre x post, s.instList tid = pre ++ x :: post →
      ∀ i < (s.insts x).numSrcRegs, ∀ p, (s.insts x).getArgProducer i = some p → p ∈ pre)
    (n : Nat) :
    ∀ (older : List Nat) (inst : Nat) (younger : List Nat), older.length = n →
      s.instList tid = older ++ inst :: younger →
      ((s'.insts inst).isArgsTainted = true ↔
        ∃ q, Relation.TransGen (producerOf s.insts) inst q ∧ taintSource s.insts q) := by
  induction n using Nat.strong_induction_on with
  | _ n ih =>
    intro older inst younger hlen hsplit
    obtain ⟨m, m1, r1, r2, r3, r4, -, -⟩ :=
      compute_taint_at cpu s s' tid older inst younger hrun hwf hact hsplit
    obtain ⟨b, c, a, hb, -, -, hm1⟩ := taintInst_some cpu tid older inst m m1 r1
    obtain ⟨eN, eS, -⟩ := eraseTaint_fields (m inst) (s.insts inst) (r4 inst)
    obtain ⟨gE, -, -⟩ := taintWrites_flags b c a (m inst)
    have gC := (taintWrites_consistent b c a (m inst)).1
    obtain ⟨-, m', hm', hs'⟩ := compute_taint_some cpu s s' hrun
    have hcons := (taintThreads_consistent cpu s.instList s.activeThreads s.insts m' hm').2
      tid hact
    have hfr := (taintThreads_frame cpu s.instList s.activeThreads s.insts m' hm').2
    have hins : s'.insts = m' := by rw [hs']
    -- what the pass leaves on a producer of `inst`
    have hproducer : ∀ p, producerOf s.insts inst p →
        (m p).isCommitted = false ∧
        ((m p).isDestTainted = true ↔
          ((s'.insts p).isArgsTainted = true ∨ taintSource s.insts p)) ∧
        ((s'.insts p).isArgsTainted = true ↔
          ∃ q, Relation.TransGen (producerOf s.insts) p q ∧ taintSource s.insts q) := by
      rintro p ⟨i, hi, hp⟩
      have hpo : p ∈ older := hprod older inst younger hsplit i hi p hp
      have hpl : p ∈ s.instList tid := by rw [hsplit]; simp [hpo]
      obtain ⟨pre, post, hpp⟩ := List.append_of_mem hpo
      have hc : (m p).isCommitted = false := by
        rw [(eraseTaint_fields (m p) (s.insts p) (r4 p)).2.2.2.2.2.2]
        exact hnc p hpl
      have hacc : (m' p).isAccess = (s.insts p).isAccess :=
        congrArg (fun z => z.isAccess) (hfr p)
      have hun : (m' p).isUnsquashable = (s.insts p).isUnsquashable :=
        congrArg (fun z => z.isUnsquashable) (hfr p)
      refine ⟨hc, ?_, ?_⟩
      · rw [← r3 p (Or.inl hpo), hins, (hcons p hpl).2, hacc, hun]
        unfold taintSource
        cases (m' p).isArgsTainted <;> cases (s.insts p).isAccess <;>
          cases (s.insts p).isUnsquashable <;> simp
      · exact ih pre.length (by rw [← hlen, hpp]; simp) pre p (post ++ inst :: younger) rfl
          (by rw [hsplit, hpp]; simp)
    have hargs : (s'.insts inst).isArgsTainted = b := by
      rw [r2, hm1, modifyInst_same, gC, gE]
    rw [hargs, taintedProducer_iff tid inst m _ b hb]
    constructor
    · rintro ⟨i, hi, p, hp, hd, -⟩
      have hpof : producerOf s.insts inst p :=
        ⟨i, by rw [← eN]; exact List.mem_range.1 hi, by rw [← eS]; exact hp⟩
      obtain ⟨-, h2, h3⟩ := hproducer p hpof
      rcases h2.1 hd with hat | hsrc
      · obtain ⟨q, hq, hqs⟩ := h3.1 hat
        exact ⟨q, Relation.TransGen.head hpof hq, hqs⟩
      · exact ⟨p, Relation.TransGen.single hpof, hsrc⟩
    · rintro ⟨q, hq, hqs⟩
      obtain ⟨p, hpof, hrest⟩ := Relation.TransGen.head'_iff.1 hq
      obtain ⟨h1, h2, h3⟩ := hproducer p hpof
      obtain ⟨i, hi, hp⟩ := hpof
      refine ⟨i, List.mem_range.2 (by rw [eN]; exact hi), p, by rw [eS]; exact hp, ?_, h1⟩
      rcases Relation.reflTransGen_iff_eq_or_transGen.1 hrest with heq | htr
      · subst heq
        exact h2.2 (Or.inr hqs)
      · exact h2.2 (Or.inl (h3.2 ⟨q, htr, hqs⟩))

/-- When every producer slot of every listed instruction names an older
instruction of the same list, the pass started from any store that agrees up
to taint flags succeeds and leaves the same object for every listed
instruction. -/
theorem compute_taint_forgets_flags (cpu : O3CPU) (s s' : ROB)
    (hrun : compute_taint cpu s = some s')
    (hprod : ∀ t ∈ s.activeThreads, ∀ pre x post, s.instList t = pre ++ x :: post →
      ∀ i < (s.insts x).numSrcRegs, ∀ p, (s.insts x).getArgProducer i = some p → p ∈ pre)
    (m2 : InstMem) (hstat : ∀ q, (m2 q).eraseTaint = (s.insts q).eraseTaint) :
    ∃ n', compute_taint cpu { s with insts := m2 } = some { s with insts := n' } ∧
      (∀ t ∈ s.activeThreads, ∀ x ∈ s.instList t, n' x = s'.insts x) ∧
      (∀ q, (∀ t ∈ s.activeThreads, q ∉ s.instList t) → n' q = m2 q) := by
  obtain ⟨hstt, m', hm', hs'⟩ := compute_taint_some cpu s s' hrun
  subst hs'
  obtain ⟨n', hn', r1, -⟩ := taintThreads_agree cpu s.instList s.activeThreads s.insts m2 m'
    hstat (fun t ht pre x post hsp i hi p hp => Or.inl (hprod t ht pre x post hsp i hi p hp))
    hm'
  have hres : compute_taint cpu { s with insts := m2 } = some { s with insts := n' } := by
    unfold compute_taint
    rw [if_neg (by simp [hstt])]
    show (taintThreads cpu s.instList s.activeThreads m2).map _ = _
    rw [hn']
    rfl
  exact ⟨n', hres, r1, (taintThreads_frame cpu s.instList s.activeThreads m2 n' hn').1⟩

/-- C22: let `compute_taint` run to completion on a well-formed state, and
let thread `tid` be active with a list in which no instruction is committed
and every source slot with a producer names an older instruction of the list.
Then an instruction `inst` of that list has `isArgsTainted` after the pass
exactly when a chain `inst -> p1 -> ... -> pn` (`n >= 1`) along producer
slots ends in an instruction with `isAccess` true and `isUnsquashable` false.
When the slots of every active list point backwards in this way, the pass
started from any store that differs in taint flags only succeeds as well and
leaves every listed instruction the same object, and a second pass right
after the first changes nothing. -/
theorem compute_taint_chain_closure (cpu : O3CPU) (s s' : ROB) (tid : ThreadID)
    (older : List Nat) (inst : Nat) (younger : List Nat)
    (hrun : compute_taint cpu s = some s') (hwf : ListsWellFormed s)
    (hact : tid ∈ s.activeThreads) (hsplit : s.instList tid = older ++ inst :: younger)
    (hnc : ∀ x ∈ s.instList tid, (s.insts x).isCommitted = false)
    (hprod : ∀ pre x post, s.instList tid = pre ++ x :: post →
      ∀ i < (s.insts x).numSrcRegs, ∀ p, (s.insts x).getArgProducer i = some p → p ∈ pre) :
    ((s'.insts inst).isArgsTainted = true ↔
      ∃ q, Relation.TransGen (producerOf s.insts) inst q ∧ taintSource s.insts q) ∧
    ((∀ t ∈ s.activeThreads, ∀ pre x post, s.instList t = pre ++ x :: post →
        ∀ i < (s.insts x).numSrcRegs, ∀ p, (s.insts x).getArgProducer i = some p → p ∈ pre) →
      (∀ m2 : InstMem, (∀ q, (m2 q).eraseTaint = (s.insts q).eraseTaint) →
        ∃ s2', compute_taint cpu { s with insts := m2 } = some s2' ∧
          ∀ t ∈ s.activeThreads, ∀ x ∈ s.instList t, s2'.insts x = s'.insts x) ∧
      compute_taint cpu s' = some s') := by
  refine ⟨compute_taint_args_chain cpu s s' tid hrun hwf hact hnc hprod older.length older inst
    younger rfl hsplit, ?_⟩
  intro hall
  constructor
  · intro m2 hstat
    obtain ⟨n', hres, r1, -⟩ := compute_taint_forgets_flags cpu s s' hrun hall m2 hstat
    exact ⟨_, hres, r1⟩
  · obtain ⟨-, m', hm', hs'⟩ := compute_taint_some cpu s s' hrun
    have hfr := (taintThreads_frame cpu s.instList s.activeThreads s.insts m' hm').2
    obtain ⟨n', hres, r1, r2⟩ := compute_taint_forgets_flags cpu s s' hrun hall m' hfr
    have hsame : n' = m' := by
      funext q
      by_cases hq : ∀ t ∈ s.activeThreads, q ∉ s.instList t
      · exact r2 q hq
      · push_neg at hq
        obtain ⟨t, ht, hqt⟩ := hq
        rw [r1 t ht q hqt, hs']
    rw [hsame] at hres
    rw [hs']
    exact hres

/-- Chain scenario: `3` reads from `2`, which reads from the access `1`, so
the chain `3 -> 2 -> 1` makes `3` args-tainted; the plain instruction `4`
loses its stale flags; a second pass changes nothing. -/
theorem compute_taint_chain_closure_witness :
    compute_taint sttCPU chainROB = some chainDone ∧
    ListsWellFormed chainROB ∧ 0 ∈ chainROB.activeThreads ∧
    chainROB.instList 0 = [1, 2] ++ 3 :: [4] ∧
    (∀ x ∈ chainROB.instList 0, (chainROB.insts x).isCommitted = false) ∧
    (chainROB.insts 4).isArgsTainted = true ∧
    (chainDone.insts 3).isArgsTainted = true ∧
    (chainDone.insts 4).isArgsTainted = false ∧
    compute_taint sttCPU chainDone = some chainDone :=
  ⟨rfl, by decide, by decide, rfl, by decide, by decide,
    (compute_taint_chain_closure sttCPU chainROB chainDone 0 [1, 2] 3 [4] rfl (by decide)
      (by decide) rfl (by decide)
      (producers_older_of_positions chainROB.insts (chainROB.instList 0) (by decide))).1.2
      ⟨1, Relation.TransGen.tail (Relation.TransGen.single ⟨0, by decide, rfl⟩)
        ⟨0, by decide, rfl⟩, ⟨rfl, rfl⟩⟩,
    by decide,
    ((compute_taint_chain_closure sttCPU chainROB chainDone 0 [1, 2] 3 [4] rfl (by decide)
      (by decide) rfl (by decide)
      (producers_older_of_positions chainROB.insts (chainROB.instList 0) (by decide))).2
      (fun t ht => by
        have h0 : t = 0 := by simpa [chainROB, emptyROB] using ht
        subst h0
        exact producers_older_of_positions chainROB.insts (chainROB.instList 0)
          (by decide))).2⟩

end TaintClosure

end STT
